import Mathlib

/-!
# Water jug solver: embedding of `water_jug_solver.cc`

The C++ `int` is modelled by `Int`, with the 32-bit range made explicit in the two
places where a result can leave it, both in constructors:

* `WaterJugSolver::WaterJugSolver` stores `F_ = X + Y`.  The capacities can be large
  while the reduced engine is small (`X = Y = 2^30` gives the engine for `(1, 1)`), so
  the sum is modelled as the compiled program holds it, wrapped to 32 bits (`wrapInt`).
* `WaterJugSolverCoprime::WaterJugSolverCoprime` computes the table size
  `N = 2 * (X + Y)`.  When that does not fit `int` no engine is built (`none`).

Once an engine is built, every other `int` the code computes is an index below `N`, a
depth of at most `N`, a coordinate sum of at most `X + Y`, or a coordinate times
`gcd(X, Y)`, which is at most a capacity: none of them can leave the range.

A C++ operation without defined behaviour (an out-of-range `operator[]`, `back()`
of an empty vector, a `resize` to a negative size, dereferencing a null `sol`)
makes the modelled function return `none`.  The `while` loop of
`WaterJugSolverCoprime::Solve` is modelled with an explicit iteration budget
(`fuel`); running out of budget also gives `none`.

Pointers and references into `states_` are modelled by the index of the slot they
point to, so that reads through them see the table as it is when the read happens.

Layout: the embedding of the source, the specification vocabulary (canonical
positions, engine moves, legal moves of the puzzle, the invariants), the lemmas
(one `Explore` call, one loop iteration, the whole search, breadth-first minimality,
reachable totals for coprime capacities, the reducer), the claims `C1` ... `C10`,
the lemmas on the growth and the fixed order of the cache, and the claims
`C11` ... `C20`.
-/

namespace WaterJug

/-- `typedef std::pair<int, int> Pos`. -/
abbrev Pos := Int × Int

/-- `typedef std::vector<Pos> Path`. -/
abbrev Path := List Pos

/-- `struct State`. -/
structure State where
  pos : Pos
  prev : Pos
  depth : Int
deriving DecidableEq, Repr

/-- `State(int d)`: the two pairs are value-initialised to `(0, 0)`. -/
def State.ofDepth (d : Int) : State := ⟨(0, 0), (0, 0), d⟩

/-- Data members of `class WaterJugSolverCoprime`. -/
structure WaterJugSolverCoprime where
  X_ : Int
  Y_ : Int
  queue_start_ : Nat
  states_ : List State
  queue_ : List Int
deriving DecidableEq, Repr

/-- Read of `states_[i]` for an `int` index; `none` when out of range. -/
def stateAt (states : List State) (i : Int) : Option State :=
  if i < 0 then none else states[i.toNat]?

/-- Write of `states_[i]` (only used after a successful read of the same slot). -/
def setAt (states : List State) (i : Int) (s : State) : List State :=
  states.set i.toNat s

/-- `WaterJugSolverCoprime::StateIndex`. -/
def StateIndex (X_ Y_ : Int) (pos : Pos) : Int :=
  let i := pos.1
  let j := pos.2
  if i = 0 then j
  else if i = X_ then Y_ + 1 + j
  else if j = 0 then 2 * Y_ + i + 1
  else 2 * Y_ + X_ + i

/-- `INT_MAX` of the 32-bit `int` of the compiled program. -/
def INT_MAX : Int := 2147483647

/-- The value an `int` holds after an arithmetic operation with exact result `z`:
32-bit two's complement wrapping. -/
def wrapInt (z : Int) : Int := (z + 2147483648) % 4294967296 - 2147483648

/-- `WaterJugSolverCoprime::WaterJugSolverCoprime`.  `int N = 2 * (X + Y)` is the size
given to `states_.resize`.  When `2 * (X + Y)` does not fit `int` (signed overflow), the
size that arrives is negative, and `resize` throws, or it is smaller than the
`2 * (X + Y)` slots that `StateIndex` addresses: no engine is built. -/
def WaterJugSolverCoprime.construct (X Y : Int) : Option WaterJugSolverCoprime :=
  let X_ := min X Y
  let Y_ := max X Y
  let N := 2 * (X + Y)
  if N < 0 ∨ INT_MAX < N then none
  else
    let states := List.replicate N.toNat (State.ofDepth (-1))
    let origin : Pos := (0, 0)
    let origin_state_index := StateIndex X_ Y_ origin
    (stateAt states origin_state_index).bind fun st =>
      some
        { X_ := X_, Y_ := Y_, queue_start_ := 0,
          states_ := setAt states origin_state_index
            { st with pos := origin, prev := origin, depth := 0 },
          queue_ := [origin_state_index] }

/-- Local state of one `Solve` call: the engine, `solved`, and `sol` (the index of the
slot `sol` points to, `none` for `nullptr`). -/
structure Search where
  e : WaterJugSolverCoprime
  solved : Bool
  sol : Option Int
deriving DecidableEq, Repr

/-- `WaterJugSolverCoprime::Explore`; `src` is the index of the slot the reference
`src` is bound to.  Returns the new engine, the returned flag and the new `*sol`. -/
def Explore (e : WaterJugSolverCoprime) (src : Int) (dest_pos : Pos) (target : Int)
    (sol : Option Int) : Option (WaterJugSolverCoprime × Bool × Option Int) :=
  let dest_index := StateIndex e.X_ e.Y_ dest_pos
  (stateAt e.states_ dest_index).bind fun dest =>
    if dest.depth ≠ -1 then some (e, false, sol)
    else
      let queue := e.queue_ ++ [dest_index]
      -- dest.pos = dest_pos
      let dest1 : State := { dest with pos := dest_pos }
      let states1 := setAt e.states_ dest_index dest1
      -- dest.prev = src.pos; dest.depth = src.depth + 1
      (stateAt states1 src).bind fun s =>
        let dest2 : State := { dest1 with prev := s.pos, depth := s.depth + 1 }
        let e2 : WaterJugSolverCoprime :=
          { e with states_ := setAt states1 dest_index dest2, queue_ := queue }
        if dest_pos.1 + dest_pos.2 = target then some (e2, true, some dest_index)
        else some (e2, false, sol)

/-- The statement `solved |= Explore(src, dest_pos, target, &sol)`. -/
def orExplore (s : Search) (src : Int) (dest_pos : Pos) (target : Int) : Option Search :=
  (Explore s.e src dest_pos target s.sol).map fun r =>
    { e := r.1, solved := s.solved || r.2.1, sol := r.2.2 }

/-- `WaterJugSolverCoprime::OtherEnd`. -/
def OtherEnd (X_ Y_ : Int) (state : State) : Pos :=
  let x := state.pos.1
  let y := state.pos.2
  if x + y = 0 ∨ x + y = X_ + Y_ then (-1, -1)
  else if x + y ≤ X_ then
    if x = 0 then (y, 0) else (0, x)
  else
    if x = 0 ∨ y = Y_ then (X_, x + y - X_)
    else if x + y ≤ Y_ then (0, x + y)
    else (x + y - Y_, Y_)

/-- `WaterJugSolverCoprime::FindCachedSol`, as a loop over (the rest of) `queue_`.
Returns the flag and the new `*sol`. -/
def FindCachedSol (states : List State) (target : Int) (sol : Option Int) :
    List Int → Option (Bool × Option Int)
  | [] => some (false, sol)
  | index :: rest =>
    (stateAt states index).bind fun state =>
      if state.pos.1 + state.pos.2 ≠ target then FindCachedSol states target sol rest
      else some (true, some index)

/-- One iteration of the `while` loop of `WaterJugSolverCoprime::Solve`. -/
def expand (s : Search) (target : Int) : Option Search :=
  (s.e.queue_[s.e.queue_start_]?).bind fun src_index =>
    let s0 : Search := { s with e := { s.e with queue_start_ := s.e.queue_start_ + 1 } }
    (stateAt s0.e.states_ src_index).bind fun src =>
      let x := src.pos.1
      let y := src.pos.2
      (if x = 0 then orExplore s0 src_index (s0.e.X_, y) target
       else if x = s0.e.X_ then orExplore s0 src_index (0, y) target
       else some s0).bind fun s1 =>
      (if y = 0 then orExplore s1 src_index (x, s1.e.Y_) target
       else if y = s1.e.Y_ then orExplore s1 src_index (x, 0) target
       else some s1).bind fun s2 =>
      if x + y = 0 ∨ x + y = s2.e.X_ + s2.e.Y_ then some s2
      else
        (stateAt s2.e.states_ src_index).bind fun src2 =>
          orExplore s2 src_index (OtherEnd s2.e.X_ s2.e.Y_ src2) target

/-- The `while (!solved && queue_start_ < queue_.size())` loop, at most `fuel`
iterations; `none` when the budget is used up with the loop condition still true. -/
def SolveLoop (target : Int) : Nat → Search → Option Search
  | 0, s =>
    if s.solved = false ∧ s.e.queue_start_ < s.e.queue_.length then none else some s
  | fuel + 1, s =>
    if s.solved = false ∧ s.e.queue_start_ < s.e.queue_.length then
      (expand s target).bind (SolveLoop target fuel)
    else some s

/-- `std::vector::resize(n)` with value-initialised new elements. -/
def resize (path : Path) (n : Nat) : Path :=
  path.take n ++ List.replicate (n - path.length) ((0, 0) : Pos)

/-- The backtracking loop `for (int d = ...; d >= 0; --d)` of
`WaterJugSolverCoprime::Solve`; the first argument is `d + 1`. -/
def backtrack (e : WaterJugSolverCoprime) : Nat → Path → Option Path
  | 0, path => some path
  | d + 1, path =>
    (path[d + 1]?).bind fun next =>
      (stateAt e.states_ (StateIndex e.X_ e.Y_ next)).bind fun st =>
        backtrack e d (path.set d st.prev)

/-- `WaterJugSolverCoprime::Solve`; `path` is the content of `*path` before the call,
the result holds the engine after the call, the returned flag and `*path` after it. -/
def WaterJugSolverCoprime.Solve (fuel : Nat) (e : WaterJugSolverCoprime) (target : Int)
    (path : Path) : Option (WaterJugSolverCoprime × Bool × Path) :=
  (FindCachedSol e.states_ target none e.queue_).bind fun c =>
    (SolveLoop target fuel { e := e, solved := c.1, sol := c.2 }).bind fun s =>
      if s.solved = false then some (s.e, false, path)
      else
        s.sol.bind fun solIdx =>
          (stateAt s.e.states_ solIdx).bind fun sol =>
            let n := sol.depth + 1
            if n ≤ 0 then none
            else
              let path1 := resize path n.toNat
              let path2 := path1.set (n.toNat - 1) sol.pos
              (backtrack s.e (n.toNat - 1) path2).map fun p => (s.e, true, p)

/-- The `while (b > 0)` loop of `gcd`, at most `fuel` tests of the loop condition. -/
def gcdLoop : Nat → Int → Int → Int
  | 0, a, _ => a
  | fuel + 1, a, b => if b > 0 then gcdLoop fuel b (a.tmod b) else a

/-- The free function `gcd`.  The second argument strictly decreases in every
iteration, so `b + 1` tests of the loop condition are enough (`gcdLoop_stable`). -/
def gcd (a b : Int) : Int :=
  if a ≤ 0 ∨ b ≤ 0 then 1 else gcdLoop (b.toNat + 1) a b

/-- Data members of `class WaterJugSolver`. -/
structure WaterJugSolver where
  F_ : Int
  r_ : Int
  algo : WaterJugSolverCoprime
deriving DecidableEq, Repr

/-- `WaterJugSolver::WaterJugSolver`.  The member initialiser `F_(X + Y)` adds two
`int`s: the sum wraps when it exceeds `INT_MAX`, whatever the size of the reduced
engine. -/
def WaterJugSolver.construct (X Y : Int) : Option WaterJugSolver :=
  let r := gcd X Y
  (WaterJugSolverCoprime.construct (X.tdiv r) (Y.tdiv r)).map fun a =>
    { F_ := wrapInt (X + Y), r_ := r, algo := a }

/-- The rescaling loop `for (Pos &loc : *path)` of `WaterJugSolver::Solve`. -/
def rescale (r : Int) (path : Path) : Path :=
  path.map fun loc => (loc.1 * r, loc.2 * r)

/-- `WaterJugSolver::Solve`. -/
def WaterJugSolver.Solve (fuel : Nat) (w : WaterJugSolver) (target : Int) (path : Path) :
    Option (WaterJugSolver × Bool × Path) :=
  if target < 0 ∨ target > w.F_ then some (w, false, path)
  else if w.r_ > 1 ∧ target.tmod w.r_ ≠ 0 then some (w, false, path)
  else
    (w.algo.Solve fuel (target.tdiv w.r_) path).bind fun r =>
      if r.2.1 = false then some ({ w with algo := r.1 }, false, r.2.2)
      else if w.r_ ≠ 1 then some ({ w with algo := r.1 }, true, rescale w.r_ r.2.2)
      else some ({ w with algo := r.1 }, true, r.2.2)

/-! ## Specification vocabulary -/

/-- Coordinate sum of a position (the total volume of water). -/
def total (p : Pos) : Int := p.1 + p.2

/-- A canonical position of the lattice with capacities `X` and `Y`: both volumes
are within the capacities and at least one jug is empty or full. -/
def Canon (X Y : Int) (p : Pos) : Prop :=
  0 ≤ p.1 ∧ p.1 ≤ X ∧ 0 ≤ p.2 ∧ p.2 ≤ Y ∧ (p.1 = 0 ∨ p.1 = X ∨ p.2 = 0 ∨ p.2 = Y)

/-- The positions that one iteration of the loop of `WaterJugSolverCoprime::Solve`
hands to `Explore` when the popped state sits at position `p`, in program order. -/
def successors (X Y : Int) (p : Pos) : List Pos :=
  (if p.1 = 0 then [(X, p.2)] else if p.1 = X then [(0, p.2)] else []) ++
  ((if p.2 = 0 then [(p.1, Y)] else if p.2 = Y then [(p.1, 0)] else []) ++
   (if p.1 + p.2 = 0 ∨ p.1 + p.2 = X + Y then []
    else [OtherEnd X Y { pos := p, prev := p, depth := 0 }]))

/-- A position is reached by `n` engine moves from the origin. -/
inductive EPath (X Y : Int) : Nat → Pos → Prop
  | origin : EPath X Y 0 (0, 0)
  | move {n : Nat} {p q : Pos} : EPath X Y n p → q ∈ successors X Y p → EPath X Y (n + 1) q

/-- One legal move of the puzzle with jug 1 of capacity `X` and jug 2 of capacity `Y`:
fill jug 1, fill jug 2, empty jug 1, empty jug 2, pour jug 1 into jug 2, pour jug 2
into jug 1 (a pour moves the minimum of the source volume and the free room). -/
def LegalMove (X Y : Int) (p q : Pos) : Prop :=
  q = (X, p.2) ∨ q = (p.1, Y) ∨ q = (0, p.2) ∨ q = (p.1, 0) ∨
  q = (p.1 - min p.1 (Y - p.2), p.2 + min p.1 (Y - p.2)) ∨
  q = (p.1 + min p.2 (X - p.1), p.2 - min p.2 (X - p.1))

instance instDecidableLegalMove (X Y : Int) (p q : Pos) : Decidable (LegalMove X Y p q) :=
  inferInstanceAs (Decidable (_ ∨ _))

/-- A sequence of positions that starts at the origin and in which every
consecutive pair is one legal move. -/
def ValidPath (X Y : Int) (path : Path) : Prop :=
  path.head? = some (0, 0) ∧ List.Chain' (LegalMove X Y) path

/-- The depth stored in slot `k` (`-1` when there is no such slot). -/
def depthAt (states : List State) (k : Int) : Int :=
  match stateAt states k with
  | some st => st.depth
  | none => -1

/-- Slot `k` holds a discovered state whose position has coordinate sum `t`. -/
def Matches (states : List State) (t : Int) (k : Int) : Prop :=
  ∃ st, stateAt states k = some st ∧ total st.pos = t

/-- Structural invariant of the engine. -/
structure Inv (e : WaterJugSolverCoprime) : Prop where
  hX : 1 ≤ e.X_
  hXY : e.X_ ≤ e.Y_
  hlen : (e.states_.length : Int) = 2 * (e.X_ + e.Y_)
  hqs : e.queue_start_ ≤ e.queue_.length
  hnodup : e.queue_.Nodup
  hq : ∀ k ∈ e.queue_, ∃ st, stateAt e.states_ k = some st ∧ 0 ≤ st.depth ∧
    Canon e.X_ e.Y_ st.pos ∧ StateIndex e.X_ e.Y_ st.pos = k
  hvis : ∀ k st, stateAt e.states_ k = some st → st.depth ≠ -1 → k ∈ e.queue_
  hhead : e.queue_.head? = some 0
  hzero : ∀ k st, stateAt e.states_ k = some st → st.depth = 0 → k = 0
  horigin : depthAt e.states_ 0 = 0
  hprev : ∀ k st, stateAt e.states_ k = some st → 0 < st.depth →
    ∃ st1, stateAt e.states_ (StateIndex e.X_ e.Y_ st.prev) = some st1 ∧
      st1.pos = st.prev ∧ st1.depth + 1 = st.depth ∧
      st.pos ∈ successors e.X_ e.Y_ st.prev

/-- Breadth-first invariant: the first `c` frontier entries are fully expanded. -/
structure Bfs (e : WaterJugSolverCoprime) (c : Nat) : Prop where
  hsorted : e.queue_.Pairwise fun a b => depthAt e.states_ a ≤ depthAt e.states_ b
  hspan : ∀ h, e.queue_[c]? = some h → ∀ k ∈ e.queue_,
    depthAt e.states_ k ≤ depthAt e.states_ h + 1
  hclosed : ∀ i k, i < c → e.queue_[i]? = some k → ∀ st, stateAt e.states_ k = some st →
    ∀ q ∈ successors e.X_ e.Y_ st.pos, ∃ st1,
      stateAt e.states_ (StateIndex e.X_ e.Y_ q) = some st1 ∧ st1.depth ≠ -1 ∧
      st1.depth ≤ st.depth + 1

/-- The engine after `Explore` has discovered slot `di` and stored `st` in it. -/
def push (e : WaterJugSolverCoprime) (di : Int) (st : State) : WaterJugSolverCoprime :=
  { e with states_ := setAt e.states_ di st, queue_ := e.queue_ ++ [di] }

/-- The calls `solved |= Explore(src, q, target, &sol)` for the positions `q` of a
list, in order. -/
def exploreAll (src : Int) (target : Int) : Search → List Pos → Option Search
  | s, [] => some s
  | s, q :: rest => (orExplore s src q target).bind fun s1 => exploreAll src target s1 rest

/-- Engine states that arise from a freshly constructed engine by `Solve` calls. -/
inductive EngineReachable (X Y : Int) : WaterJugSolverCoprime → Prop
  | fresh {e : WaterJugSolverCoprime} :
      WaterJugSolverCoprime.construct X Y = some e → EngineReachable X Y e
  | call {e e1 : WaterJugSolverCoprime} {fuel : Nat} {t : Int} {p p1 : Path} {b : Bool} :
      EngineReachable X Y e → e.Solve fuel t p = some (e1, b, p1) → EngineReachable X Y e1

/-- Solver states that arise from `WaterJugSolver(X, Y)` by `Solve` calls. -/
inductive Reachable (X Y : Int) : WaterJugSolver → Prop
  | fresh {w : WaterJugSolver} : WaterJugSolver.construct X Y = some w → Reachable X Y w
  | call {w w1 : WaterJugSolver} {fuel : Nat} {t : Int} {p p1 : Path} {b : Bool} :
      Reachable X Y w → w.Solve fuel t p = some (w1, b, p1) → Reachable X Y w1

/-- Invariant between two `Explore` calls of the iteration that expands frontier
entry number `c`, which is slot `k`; `t` is the target of the running `Solve`. -/
structure Mid (s : Search) (k : Int) (c : Nat) (t : Int) : Prop where
  inv : Inv s.e
  bfs : Bfs s.e c
  hc : s.e.queue_[c]? = some k
  hqs : s.e.queue_start_ = c + 1
  hmatch : ∀ j ∈ s.e.queue_, Matches s.e.states_ t j →
    depthAt s.e.states_ j = depthAt s.e.states_ k + 1
  hsolved : s.solved = true → ∃ j, s.sol = some j ∧ j ∈ s.e.queue_ ∧ Matches s.e.states_ t j
  hunsolved : s.solved = false → ∀ j ∈ s.e.queue_, ¬ Matches s.e.states_ t j

/-- Invariant of the `while` loop of `WaterJugSolverCoprime::Solve` for target `t`. -/
structure LoopInv (s : Search) (t : Int) : Prop where
  inv : Inv s.e
  bfs : Bfs s.e s.e.queue_start_
  hsolved : s.solved = true → ∃ j, s.sol = some j ∧ j ∈ s.e.queue_ ∧
    Matches s.e.states_ t j ∧
    ∀ j1 ∈ s.e.queue_, Matches s.e.states_ t j1 →
      depthAt s.e.states_ j ≤ depthAt s.e.states_ j1
  hunsolved : s.solved = false → ∀ j ∈ s.e.queue_, ¬ Matches s.e.states_ t j

/-- The chain of predecessors stored in the table: the positions on the way from the
slot reached after `d` predecessor links to the position `p`, `p` last. -/
def trail (e : WaterJugSolverCoprime) : Nat → Pos → Option Path
  | 0, p => some [p]
  | d + 1, p =>
    (stateAt e.states_ (StateIndex e.X_ e.Y_ p)).bind fun st =>
      (trail e d st.prev).map fun l => l ++ [p]

/-- One move of the engine from a canonical position, as a relation on positions. -/
def EngineMove (X Y : Int) (p q : Pos) : Prop := Canon X Y p ∧ q ∈ successors X Y p

/-- Outcome of a successful engine `Solve` for target `t`: the answer slot holds a
position of total `t`, no discovered position of total `t` is less deep, and the
returned path is the chain of predecessors of the answer slot. -/
def Found (e : WaterJugSolverCoprime) (t : Int) (path : Path) : Prop :=
  ∃ j st, j ∈ e.queue_ ∧ stateAt e.states_ j = some st ∧ total st.pos = t ∧
    (∀ j1 ∈ e.queue_, Matches e.states_ t j1 → st.depth ≤ depthAt e.states_ j1) ∧
    trail e st.depth.toNat st.pos = some path

/-- Capacity of jug 1 of the engine that `WaterJugSolver(X, Y)` builds. -/
def engX (X Y : Int) : Int := min (X.tdiv (gcd X Y)) (Y.tdiv (gcd X Y))

/-- Capacity of jug 2 of the engine that `WaterJugSolver(X, Y)` builds. -/
def engY (X Y : Int) : Int := max (X.tdiv (gcd X Y)) (Y.tdiv (gcd X Y))

/-- A position is reached by `n` legal moves from the origin. -/
inductive FPath (X Y : Int) : Nat → Pos → Prop
  | origin : FPath X Y 0 (0, 0)
  | move {n : Nat} {p q : Pos} : FPath X Y n p → LegalMove X Y p q → FPath X Y (n + 1) q

/-- One of the four positions in which each jug is empty or full. -/
def Corner (X Y : Int) (p : Pos) : Prop :=
  (p.1 = 0 ∨ p.1 = X) ∧ (p.2 = 0 ∨ p.2 = Y)

/-- The targets the puzzle with capacities `X` and `Y` can produce. -/
def Solvable (X Y : Int) (t : Int) : Prop :=
  0 ≤ t ∧ t ≤ X + Y ∧ (Int.gcd X Y : Int) ∣ t

instance instDecidableSolvable (X Y t : Int) : Decidable (Solvable X Y t) :=
  inferInstanceAs (Decidable (_ ∧ _))

/-- What a successful `WaterJugSolver(X, Y).Solve(t)` returns: the rescaled image of a
chain of engine moves of minimal length from the origin to a position whose rescaled
total is `t`. -/
def Answer (X Y : Int) (t : Int) (path : Path) : Prop :=
  ∃ (p2 : Path) (d : Nat) (q : Pos), path = rescale (gcd X Y) p2 ∧ p2.length = d + 1 ∧
    p2.head? = some (0, 0) ∧ p2.getLast? = some q ∧ total q * gcd X Y = t ∧
    List.Chain' (EngineMove (engX X Y) (engY X Y)) p2 ∧
    EPath (engX X Y) (engY X Y) d q ∧
    ∀ n r, EPath (engX X Y) (engY X Y) n r → total r * gcd X Y = t → d ≤ n

/-- The solver `WaterJugSolver(X, Y)`, for capacities for which the constructor
succeeds. -/
def freshSolver (X Y : Int) (h : (WaterJugSolver.construct X Y).isSome = true) :
    WaterJugSolver :=
  (WaterJugSolver.construct X Y).get h

/-- The solver state after a call `Solve(t)` that returns. -/
def afterCall (w : WaterJugSolver) (fuel : Nat) (t : Int) (path : Path)
    (h : (w.Solve fuel t path).isSome = true) : WaterJugSolver :=
  ((w.Solve fuel t path).get h).1

/-- Pouring jug 1 into jug 2 until jug 1 is empty or jug 2 is full. -/
def pour12 (Y : Int) (p : Pos) : Pos :=
  (p.1 - min p.1 (Y - p.2), p.2 + min p.1 (Y - p.2))

/-- Pouring jug 2 into jug 1 until jug 2 is empty or jug 1 is full. -/
def pour21 (X : Int) (p : Pos) : Pos :=
  (p.1 + min p.2 (X - p.1), p.2 - min p.2 (X - p.1))

/-- The engine `e1` is a later stage of the engine `e`: same capacities, the cursor
has not gone back, the frontier of `e` is an initial segment of that of `e1`, and
every slot visited in `e` holds the same state in `e1`. -/
def Grows (e e1 : WaterJugSolverCoprime) : Prop :=
  e1.X_ = e.X_ ∧ e1.Y_ = e.Y_ ∧ e.queue_start_ ≤ e1.queue_start_ ∧
  (∃ added, e1.queue_ = e.queue_ ++ added) ∧
  ∀ k st, stateAt e.states_ k = some st → st.depth ≠ -1 → stateAt e1.states_ k = some st

/-- The loop of `main` over the targets given on the command line, with the printing
left out: the flag returned by each `Solve` call and the content of `path` after it. -/
def mainLoop (fuel : Nat) : WaterJugSolver → Path → List Int → Option (List (Bool × Path))
  | _, _, [] => some []
  | w, path, t :: ts =>
    (w.Solve fuel t path).bind fun r =>
      (mainLoop fuel r.1 r.2.2 ts).map fun rest => (r.2.1, r.2.2) :: rest

/-- The engine after `n` further iterations of the loop of `WaterJugSolverCoprime::Solve`.
The table and the frontier an iteration builds do not depend on the target, which is
only compared with the sums of the discovered positions. -/
def expansions : Nat → WaterJugSolverCoprime → Option WaterJugSolverCoprime
  | 0, e => some e
  | n + 1, e => (expand { e := e, solved := false, sol := none } 0).bind fun s =>
      expansions n s.e

/-! ## The `gcd` loop -/

theorem gcdLoop_nat (fuel : Nat) : ∀ (a b : Nat), b < fuel →
    gcdLoop fuel (a : Int) (b : Int) = ((Nat.gcd a b : Nat) : Int) := by
  induction fuel with
  | zero => intro a b h; omega
  | succ n ih =>
    intro a b hlt
    unfold gcdLoop
    by_cases hb0 : (b : Int) > 0
    · rw [if_pos hb0]
      have hb1 : 0 < b := by exact_mod_cast hb0
      have hmod : (a : Int).tmod (b : Int) = ((a % b : Nat) : Int) := by
        rw [Int.tmod_eq_emod (by omega) (by omega)]; norm_cast
      rw [hmod, ih b (a % b) (by have := Nat.mod_lt a hb1; omega)]
      congr 1
      rw [Nat.gcd_comm a b, Nat.gcd_rec b a, Nat.gcd_comm]
    · rw [if_neg hb0]
      have : b = 0 := by omega
      subst this
      simp

theorem gcd_eq_of_pos (a b : Int) (ha : 0 < a) (hb : 0 < b) :
    gcd a b = (Int.gcd a b : Int) := by
  unfold gcd
  rw [if_neg (by omega)]
  obtain ⟨m, rfl⟩ := Int.eq_ofNat_of_zero_le (le_of_lt ha)
  obtain ⟨n, rfl⟩ := Int.eq_ofNat_of_zero_le (le_of_lt hb)
  rw [gcdLoop_nat _ m n (by simp)]
  rfl

/-- The iteration budget of `gcd` is never the reason the loop stops: any larger
budget gives the same value. -/
theorem gcdLoop_stable (fuel : Nat) (a b : Int) (ha : 0 ≤ a) (hb : 0 ≤ b)
    (h : b.toNat < fuel) : gcdLoop fuel a b = gcdLoop (b.toNat + 1) a b := by
  obtain ⟨m, rfl⟩ := Int.eq_ofNat_of_zero_le ha
  obtain ⟨n, rfl⟩ := Int.eq_ofNat_of_zero_le hb
  rw [gcdLoop_nat _ m n (by simpa using h), gcdLoop_nat _ m n (by simp)]

theorem gcd_pos (a b : Int) : 1 ≤ gcd a b := by
  by_cases h : a ≤ 0 ∨ b ≤ 0
  · unfold gcd; rw [if_pos h]
  · have ha : 0 < a := by omega
    have hb : 0 < b := by omega
    rw [gcd_eq_of_pos a b ha hb]
    have : 0 < Int.gcd a b := Int.gcd_pos_of_ne_zero_left b (by omega)
    omega

/-! ## Table access -/

theorem stateAt_some {states : List State} {i : Int} {st : State}
    (h : stateAt states i = some st) : 0 ≤ i ∧ i < states.length := by
  unfold stateAt at h
  by_cases hi : i < 0
  · simp [hi] at h
  · rw [if_neg hi] at h
    have := (List.getElem?_eq_some_iff.mp h).1
    omega

theorem stateAt_isSome {states : List State} {i : Int} (h0 : 0 ≤ i)
    (h1 : i < states.length) : ∃ st, stateAt states i = some st := by
  unfold stateAt
  rw [if_neg (by omega)]
  have : i.toNat < states.length := by omega
  exact ⟨states[i.toNat], List.getElem?_eq_getElem this⟩

theorem stateAt_setAt_eq {states : List State} {i : Int} (v : State) (h0 : 0 ≤ i)
    (h1 : i < states.length) : stateAt (setAt states i v) i = some v := by
  unfold stateAt setAt
  rw [if_neg (by omega)]
  have : i.toNat < states.length := by omega
  simp [this]

theorem stateAt_setAt_ne {states : List State} {i j : Int} (v : State) (h0 : 0 ≤ i)
    (hij : i ≠ j) : stateAt (setAt states i v) j = stateAt states j := by
  unfold stateAt setAt
  by_cases hj : j < 0
  · simp [hj]
  · rw [if_neg hj, if_neg hj]
    have : i.toNat ≠ j.toNat := by omega
    simp [List.getElem?_set, this]

theorem setAt_setAt (states : List State) (i : Int) (v w : State) :
    setAt (setAt states i v) i w = setAt states i w := by
  unfold setAt
  simp [List.set_set]

theorem length_setAt (states : List State) (i : Int) (v : State) :
    (setAt states i v).length = states.length := by
  unfold setAt
  simp

theorem depthAt_of_some {states : List State} {k : Int} {st : State}
    (h : stateAt states k = some st) : depthAt states k = st.depth := by
  unfold depthAt
  rw [h]

/-! ## Canonical positions and the index bijection -/

theorem StateIndex_range {X Y : Int} (hX : 1 ≤ X) (hXY : X ≤ Y) {p : Pos}
    (hp : Canon X Y p) : 0 ≤ StateIndex X Y p ∧ StateIndex X Y p < 2 * (X + Y) := by
  obtain ⟨a, b⟩ := p
  unfold Canon at hp
  unfold StateIndex
  simp only at hp ⊢
  split_ifs <;> omega

theorem StateIndex_inj {X Y : Int} (hX : 1 ≤ X) (hXY : X ≤ Y) {p q : Pos}
    (hp : Canon X Y p) (hq : Canon X Y q)
    (h : StateIndex X Y p = StateIndex X Y q) : p = q := by
  obtain ⟨a, b⟩ := p
  obtain ⟨c, d⟩ := q
  unfold Canon at hp hq
  unfold StateIndex at h
  simp only at hp hq h
  simp only [Prod.mk.injEq]
  split_ifs at h <;> omega

theorem StateIndex_origin (X Y : Int) : StateIndex X Y (0, 0) = 0 := by
  simp [StateIndex]

theorem Canon_origin {X Y : Int} (hX : 1 ≤ X) (hXY : X ≤ Y) : Canon X Y (0, 0) := by
  unfold Canon; simp; omega

theorem Canon_successors {X Y : Int} (hX : 1 ≤ X) (hXY : X ≤ Y) {p q : Pos}
    (hp : Canon X Y p) (hq : q ∈ successors X Y p) : Canon X Y q := by
  obtain ⟨a, b⟩ := p
  unfold Canon at hp
  simp only at hp
  unfold successors OtherEnd at hq
  simp only [List.mem_append] at hq
  rcases hq with hq | hq | hq
  · split_ifs at hq <;> simp at hq <;> subst hq <;> unfold Canon <;>
      refine ⟨?_, ?_, ?_, ?_, ?_⟩ <;> dsimp only <;> omega
  · split_ifs at hq <;> simp at hq <;> subst hq <;> unfold Canon <;>
      refine ⟨?_, ?_, ?_, ?_, ?_⟩ <;> dsimp only <;> omega
  · split_ifs at hq <;> simp at hq <;> subst hq <;> unfold Canon <;>
      refine ⟨?_, ?_, ?_, ?_, ?_⟩ <;> dsimp only <;> omega

theorem total_successors_ne {X Y : Int} (hX : 1 ≤ X) (hXY : X ≤ Y) {p q : Pos}
    (hp : Canon X Y p) (hq : q ∈ successors X Y p) : q ≠ p := by
  obtain ⟨a, b⟩ := p
  unfold Canon at hp
  simp only at hp
  unfold successors OtherEnd at hq
  simp only [List.mem_append] at hq
  rcases hq with hq | hq | hq
  · split_ifs at hq <;> simp at hq <;> subst hq <;> intro h <;> simp only [Prod.mk.injEq] at h <;> omega
  · split_ifs at hq <;> simp at hq <;> subst hq <;> intro h <;> simp only [Prod.mk.injEq] at h <;> omega
  · split_ifs at hq <;> simp at hq <;> subst hq <;> intro h <;> simp only [Prod.mk.injEq] at h <;> omega

/-! ## The 32-bit sum -/

theorem wrapInt_eq {z : Int} (h0 : -2147483648 ≤ z) (h1 : z ≤ INT_MAX) : wrapInt z = z := by
  unfold INT_MAX at h1
  unfold wrapInt
  omega

theorem wrapInt_le {z : Int} (h0 : 0 ≤ z) : wrapInt z ≤ z := by
  unfold wrapInt
  omega

theorem wrapInt_neg {z : Int} (h0 : INT_MAX < z) (h1 : z ≤ 2 * INT_MAX) : wrapInt z < 0 := by
  unfold INT_MAX at h0 h1
  unfold wrapInt
  omega

/-! ## One call of `Explore` -/

theorem Explore_visited {e : WaterJugSolverCoprime} {src : Int} {q : Pos} {t : Int}
    {sol : Option Int} {d : State}
    (h : stateAt e.states_ (StateIndex e.X_ e.Y_ q) = some d) (hd : d.depth ≠ -1) :
    Explore e src q t sol = some (e, false, sol) := by
  unfold Explore
  simp [h, hd]

theorem Explore_fresh {e : WaterJugSolverCoprime} {src : Int} {q : Pos} {t : Int}
    {sol : Option Int} {d s : State}
    (h : stateAt e.states_ (StateIndex e.X_ e.Y_ q) = some d) (hd : d.depth = -1)
    (hs : stateAt e.states_ src = some s) (hsd : s.depth ≠ -1) :
    Explore e src q t sol =
      some (push e (StateIndex e.X_ e.Y_ q) ⟨q, s.pos, s.depth + 1⟩,
        decide (total q = t), if total q = t then some (StateIndex e.X_ e.Y_ q) else sol) := by
  have hne : StateIndex e.X_ e.Y_ q ≠ src := by
    intro heq
    rw [heq, hs] at h
    injection h with h
    subst h
    exact hsd hd
  have h0 := (stateAt_some h).1
  unfold Explore
  simp only [h, Option.some_bind, hd, ne_eq, not_true_eq_false, if_false]
  rw [stateAt_setAt_ne _ h0 hne, hs]
  simp only [Option.some_bind, setAt_setAt, total, push]
  by_cases ht : q.1 + q.2 = t
  · simp [ht]
  · simp [ht]

/-- `Explore` never touches a slot that is already visited, nor the capacities or
the cursor. -/
theorem Explore_frame {e e1 : WaterJugSolverCoprime} {src : Int} {q : Pos} {t : Int}
    {sol sol1 : Option Int} {b : Bool} (h : Explore e src q t sol = some (e1, b, sol1)) :
    e1.X_ = e.X_ ∧ e1.Y_ = e.Y_ ∧ e1.queue_start_ = e.queue_start_ ∧
    ∀ k st, stateAt e.states_ k = some st → st.depth ≠ -1 →
      stateAt e1.states_ k = some st := by
  unfold Explore at h
  rw [Option.bind_eq_some] at h
  obtain ⟨d, hd, h⟩ := h
  by_cases hdd : d.depth ≠ -1
  · rw [if_pos hdd] at h
    injection h with h
    injection h with h1 h2
    subst h1
    exact ⟨rfl, rfl, rfl, fun k st hk _ => hk⟩
  · rw [if_neg hdd] at h
    simp only at h
    rw [Option.bind_eq_some] at h
    obtain ⟨s, hs, h⟩ := h
    have h0 := (stateAt_some hd).1
    have key : ∀ k st, stateAt e.states_ k = some st → st.depth ≠ -1 →
        stateAt (setAt (setAt e.states_ (StateIndex e.X_ e.Y_ q) { d with pos := q })
          (StateIndex e.X_ e.Y_ q)
          { pos := q, prev := s.pos, depth := s.depth + 1 }) k = some st := by
      intro k st hk hst
      have hne : StateIndex e.X_ e.Y_ q ≠ k := by
        intro heq
        rw [heq, hk] at hd
        injection hd with hd
        subst hd
        exact hdd hst
      rw [stateAt_setAt_ne _ h0 hne, stateAt_setAt_ne _ h0 hne]
      exact hk
    split_ifs at h <;>
    · injection h with h
      injection h with h1 h2
      subst h1
      exact ⟨rfl, rfl, rfl, key⟩

theorem orExplore_frame {s s1 : Search} {src : Int} {q : Pos} {t : Int}
    (h : orExplore s src q t = some s1) :
    s1.e.X_ = s.e.X_ ∧ s1.e.Y_ = s.e.Y_ ∧ s1.e.queue_start_ = s.e.queue_start_ ∧
    ∀ k st, stateAt s.e.states_ k = some st → st.depth ≠ -1 →
      stateAt s1.e.states_ k = some st := by
  unfold orExplore at h
  rw [Option.map_eq_some'] at h
  obtain ⟨⟨e1, b, sol1⟩, hr, rfl⟩ := h
  exact Explore_frame hr

theorem exploreAll_frame {src : Int} {t : Int} (l : List Pos) :
    ∀ {s s1 : Search}, exploreAll src t s l = some s1 →
    s1.e.X_ = s.e.X_ ∧ s1.e.Y_ = s.e.Y_ ∧ s1.e.queue_start_ = s.e.queue_start_ ∧
    ∀ k st, stateAt s.e.states_ k = some st → st.depth ≠ -1 →
      stateAt s1.e.states_ k = some st := by
  induction l with
  | nil =>
    intro s s1 h
    simp only [exploreAll] at h
    injection h with h
    subst h
    exact ⟨rfl, rfl, rfl, fun k st hk _ => hk⟩
  | cons q rest ih =>
    intro s s1 h
    simp only [exploreAll] at h
    rw [Option.bind_eq_some] at h
    obtain ⟨s2, h2, h⟩ := h
    obtain ⟨a1, a2, a3, a4⟩ := orExplore_frame h2
    obtain ⟨b1, b2, b3, b4⟩ := ih h
    exact ⟨b1.trans a1, b2.trans a2, b3.trans a3, fun k st hk hst => b4 k st (a4 k st hk hst) hst⟩

theorem exploreAll_append {src : Int} {t : Int} (l1 l2 : List Pos) :
    ∀ s : Search, exploreAll src t s (l1 ++ l2) =
      (exploreAll src t s l1).bind fun s1 => exploreAll src t s1 l2 := by
  induction l1 with
  | nil => intro s; simp [exploreAll]
  | cons q rest ih =>
    intro s
    simp only [List.cons_append, exploreAll]
    cases orExplore s src q t with
    | none => simp
    | some s2 => simp [ih]

/-- One loop iteration is the exploration of the successor list of the popped
position. -/
theorem expand_eq_exploreAll {s : Search} {t : Int} {k : Int} {src : State}
    (hk : s.e.queue_[s.e.queue_start_]? = some k)
    (hsrc : stateAt s.e.states_ k = some src) (hd : src.depth ≠ -1) :
    expand s t =
      exploreAll k t { s with e := { s.e with queue_start_ := s.e.queue_start_ + 1 } }
        (successors s.e.X_ s.e.Y_ src.pos) := by
  unfold expand
  simp only [hk, Option.some_bind, hsrc]
  unfold successors
  rw [exploreAll_append]
  have e1 : ∀ (s0 : Search),
      (if src.pos.1 = 0 then orExplore s0 k (s0.e.X_, src.pos.2) t
       else if src.pos.1 = s0.e.X_ then orExplore s0 k (0, src.pos.2) t else some s0) =
      exploreAll k t s0 (if src.pos.1 = 0 then [(s0.e.X_, src.pos.2)]
        else if src.pos.1 = s0.e.X_ then [(0, src.pos.2)] else []) := by
    intro s0
    split_ifs <;> simp [exploreAll]
  have e2 : ∀ (s0 : Search),
      (if src.pos.2 = 0 then orExplore s0 k (src.pos.1, s0.e.Y_) t
       else if src.pos.2 = s0.e.Y_ then orExplore s0 k (src.pos.1, 0) t else some s0) =
      exploreAll k t s0 (if src.pos.2 = 0 then [(src.pos.1, s0.e.Y_)]
        else if src.pos.2 = s0.e.Y_ then [(src.pos.1, 0)] else []) := by
    intro s0
    split_ifs <;> simp [exploreAll]
  rw [e1]
  apply Option.bind_congr
  intro s1 hs1
  obtain ⟨a1, a2, a3, a4⟩ := exploreAll_frame _ (Option.mem_def.mp hs1)
  simp only at a1 a2 a4
  rw [exploreAll_append, e2, a2]
  apply Option.bind_congr
  intro s2 hs2
  obtain ⟨b1, b2, b3, b4⟩ := exploreAll_frame _ (Option.mem_def.mp hs2)
  rw [b1, b2, a1, a2, b4 k src (a4 k src hsrc hd) hd]
  simp only [Option.some_bind]
  have hO : OtherEnd s.e.X_ s.e.Y_ src =
      OtherEnd s.e.X_ s.e.Y_ { pos := src.pos, prev := src.pos, depth := 0 } := by
    unfold OtherEnd
    rfl
  rw [← hO]
  split_ifs <;> simp [exploreAll]

/-! ## Preservation of the invariants by a discovery -/

theorem Inv.slot {e : WaterJugSolverCoprime} (hI : Inv e) {k : Int} {s : State}
    (hk : k ∈ e.queue_) (hs : stateAt e.states_ k = some s) :
    0 ≤ s.depth ∧ Canon e.X_ e.Y_ s.pos ∧ StateIndex e.X_ e.Y_ s.pos = k := by
  obtain ⟨st, h1, h2, h3, h4⟩ := hI.hq k hk
  rw [hs] at h1
  injection h1 with h1
  subst h1
  exact ⟨h2, h3, h4⟩

theorem Inv.slot_of_visited {e : WaterJugSolverCoprime} (hI : Inv e) {k : Int} {s : State}
    (hs : stateAt e.states_ k = some s) (hd : s.depth ≠ -1) :
    k ∈ e.queue_ ∧ 0 ≤ s.depth ∧ Canon e.X_ e.Y_ s.pos ∧ StateIndex e.X_ e.Y_ s.pos = k :=
  ⟨hI.hvis k s hs hd, hI.slot (hI.hvis k s hs hd) hs⟩

theorem Inv.index_range {e : WaterJugSolverCoprime} (hI : Inv e) {q : Pos}
    (hq : Canon e.X_ e.Y_ q) : ∃ d, stateAt e.states_ (StateIndex e.X_ e.Y_ q) = some d := by
  have h := StateIndex_range hI.hX hI.hXY hq
  exact stateAt_isSome h.1 (by rw [hI.hlen]; exact h.2)

/-- A visited slot with the index of a canonical position holds that position. -/
theorem Inv.pos_eq {e : WaterJugSolverCoprime} (hI : Inv e) {q : Pos}
    (hq : Canon e.X_ e.Y_ q) {d : State}
    (hd : stateAt e.states_ (StateIndex e.X_ e.Y_ q) = some d) (hdd : d.depth ≠ -1) :
    d.pos = q := by
  obtain ⟨_, _, h3, h4⟩ := hI.slot_of_visited hd hdd
  exact StateIndex_inj hI.hX hI.hXY h3 hq h4

theorem push_stateAt_ne {e : WaterJugSolverCoprime} {di : Int} {d st : State}
    (hd : stateAt e.states_ di = some d) {j : Int} (hj : j ≠ di) :
    stateAt (push e di st).states_ j = stateAt e.states_ j := by
  unfold push
  exact stateAt_setAt_ne _ (stateAt_some hd).1 (Ne.symm hj)

theorem push_stateAt_self {e : WaterJugSolverCoprime} {di : Int} {d st : State}
    (hd : stateAt e.states_ di = some d) :
    stateAt (push e di st).states_ di = some st := by
  unfold push
  exact stateAt_setAt_eq _ (stateAt_some hd).1 (stateAt_some hd).2

theorem push_stateAt_of_visited {e : WaterJugSolverCoprime} {di : Int} {d st : State}
    (hd : stateAt e.states_ di = some d) (hdd : d.depth = -1) {j : Int} {sj : State}
    (hj : stateAt e.states_ j = some sj) (hjd : sj.depth ≠ -1) :
    stateAt (push e di st).states_ j = some sj := by
  have hne : j ≠ di := by
    intro heq
    rw [heq, hd] at hj
    injection hj with hj
    subst hj
    exact hjd hdd
  rw [push_stateAt_ne hd hne, hj]

theorem Inv.ne_of_mem {e : WaterJugSolverCoprime} (hI : Inv e) {di : Int} {d : State}
    (hd : stateAt e.states_ di = some d) (hdd : d.depth = -1) {j : Int}
    (hj : j ∈ e.queue_) : j ≠ di := by
  intro heq
  subst heq
  have := (hI.slot hj hd).1
  omega

theorem push_depthAt_of_mem {e : WaterJugSolverCoprime} (hI : Inv e) {di : Int}
    {d st : State} (hd : stateAt e.states_ di = some d) (hdd : d.depth = -1) {j : Int}
    (hj : j ∈ e.queue_) : depthAt (push e di st).states_ j = depthAt e.states_ j := by
  unfold depthAt
  rw [push_stateAt_ne hd (hI.ne_of_mem hd hdd hj)]

theorem push_depthAt_self {e : WaterJugSolverCoprime} {di : Int} {d st : State}
    (hd : stateAt e.states_ di = some d) :
    depthAt (push e di st).states_ di = st.depth := by
  unfold depthAt
  rw [push_stateAt_self hd]

theorem Inv_push {e : WaterJugSolverCoprime} (hI : Inv e) {k : Int} {s : State}
    (hk : k ∈ e.queue_) (hs : stateAt e.states_ k = some s) {q : Pos}
    (hq : q ∈ successors e.X_ e.Y_ s.pos) {d : State}
    (hd : stateAt e.states_ (StateIndex e.X_ e.Y_ q) = some d) (hdd : d.depth = -1) :
    Inv (push e (StateIndex e.X_ e.Y_ q) ⟨q, s.pos, s.depth + 1⟩) := by
  obtain ⟨hs0, hsC, hsI⟩ := hI.slot hk hs
  have hqC : Canon e.X_ e.Y_ q := Canon_successors hI.hX hI.hXY hsC hq
  have hne : ∀ j ∈ e.queue_, j ≠ StateIndex e.X_ e.Y_ q := fun j hj => hI.ne_of_mem hd hdd hj
  refine ⟨hI.hX, hI.hXY, ?_, ?_, ?_, ?_, ?_, ?_, ?_, ?_, ?_⟩
  · show ((setAt _ _ _).length : Int) = _
    rw [length_setAt]; exact hI.hlen
  · show e.queue_start_ ≤ (e.queue_ ++ [_]).length
    have := hI.hqs
    simp; omega
  · show (e.queue_ ++ [_]).Nodup
    rw [List.nodup_append]
    refine ⟨hI.hnodup, List.nodup_singleton _, ?_⟩
    intro a ha hb
    rw [List.mem_singleton] at hb
    exact hne a ha hb
  · intro j hj
    change j ∈ e.queue_ ++ [_] at hj
    rw [List.mem_append, List.mem_singleton] at hj
    rcases hj with hj | hj
    · obtain ⟨st, h1, h2, h3, h4⟩ := hI.hq j hj
      exact ⟨st, by rw [push_stateAt_ne hd (hne j hj)]; exact h1, h2, h3, h4⟩
    · subst hj
      exact ⟨_, push_stateAt_self hd, by show 0 ≤ s.depth + 1; omega, hqC, rfl⟩
  · intro j st hj hst
    show j ∈ e.queue_ ++ [_]
    rw [List.mem_append, List.mem_singleton]
    by_cases hjd : j = StateIndex e.X_ e.Y_ q
    · exact Or.inr hjd
    · rw [push_stateAt_ne hd hjd] at hj
      exact Or.inl (hI.hvis j st hj hst)
  · show (e.queue_ ++ [_]).head? = some (0 : Int)
    rw [List.head?_append, hI.hhead]
    rfl
  · intro j st hj hst
    by_cases hjd : j = StateIndex e.X_ e.Y_ q
    · subst hjd
      rw [push_stateAt_self hd] at hj
      injection hj with hj
      subst hj
      simp only at hst
      omega
    · rw [push_stateAt_ne hd hjd] at hj
      exact hI.hzero j st hj hst
  · have h0 : (0 : Int) ∈ e.queue_ := List.mem_of_mem_head? hI.hhead
    rw [push_depthAt_of_mem hI hd hdd h0]
    exact hI.horigin
  · intro j st hj hst
    by_cases hjd : j = StateIndex e.X_ e.Y_ q
    · subst hjd
      rw [push_stateAt_self hd] at hj
      injection hj with hj
      subst hj
      refine ⟨s, ?_, rfl, rfl, hq⟩
      show stateAt _ (StateIndex e.X_ e.Y_ s.pos) = some s
      rw [hsI, push_stateAt_ne hd (hne k hk)]
      exact hs
    · rw [push_stateAt_ne hd hjd] at hj
      obtain ⟨st1, h1, h2, h3, h4⟩ := hI.hprev j st hj hst
      refine ⟨st1, ?_, h2, h3, h4⟩
      exact push_stateAt_of_visited hd hdd h1 (by omega)

theorem Bfs_push {e : WaterJugSolverCoprime} (hI : Inv e) {c : Nat} (hB : Bfs e c)
    {k : Int} {s : State} (hc : e.queue_[c]? = some k)
    (hs : stateAt e.states_ k = some s) {q : Pos} {d : State}
    (hd : stateAt e.states_ (StateIndex e.X_ e.Y_ q) = some d) (hdd : d.depth = -1) :
    Bfs (push e (StateIndex e.X_ e.Y_ q) ⟨q, s.pos, s.depth + 1⟩) c := by
  have hk : k ∈ e.queue_ := List.getElem?_mem hc
  have hclt : c < e.queue_.length := (List.getElem?_eq_some_iff.mp hc).1
  have hdk : depthAt e.states_ k = s.depth := depthAt_of_some hs
  refine ⟨?_, ?_, ?_⟩
  · show (e.queue_ ++ [_]).Pairwise _
    rw [List.pairwise_append]
    refine ⟨?_, List.pairwise_singleton _ _, ?_⟩
    · refine hB.hsorted.imp_of_mem ?_
      intro a b ha hb hab
      rw [push_depthAt_of_mem hI hd hdd ha, push_depthAt_of_mem hI hd hdd hb]
      exact hab
    · intro a ha b hb
      rw [List.mem_singleton] at hb
      subst hb
      rw [push_depthAt_of_mem hI hd hdd ha, push_depthAt_self hd]
      have := hB.hspan k hc a ha
      simp only
      omega
  · intro h hh j hj
    change (e.queue_ ++ [_])[c]? = some h at hh
    rw [List.getElem?_append_left hclt, hc] at hh
    injection hh with hh
    subst hh
    change j ∈ e.queue_ ++ [_] at hj
    rw [List.mem_append, List.mem_singleton] at hj
    rw [push_depthAt_of_mem hI hd hdd hk, hdk]
    rcases hj with hj | hj
    · rw [push_depthAt_of_mem hI hd hdd hj]
      have := hB.hspan k hc j hj
      omega
    · subst hj
      rw [push_depthAt_self hd]
  · intro i j hi hij st hst r hr
    change (e.queue_ ++ [_])[i]? = some j at hij
    rw [List.getElem?_append_left (by omega)] at hij
    have hj : j ∈ e.queue_ := List.getElem?_mem hij
    rw [push_stateAt_ne hd (hI.ne_of_mem hd hdd hj)] at hst
    obtain ⟨st1, h1, h2, h3⟩ := hB.hclosed i j hi hij st hst r hr
    exact ⟨st1, push_stateAt_of_visited hd hdd h1 h2, h2, h3⟩

/-! ## One loop iteration -/

theorem Inv.queue_length_le {e : WaterJugSolverCoprime} (hI : Inv e) :
    (e.queue_.length : Int) ≤ 2 * (e.X_ + e.Y_) := by
  have hsub : e.queue_.toFinset ⊆ Finset.Ico (0 : Int) (2 * (e.X_ + e.Y_)) := by
    intro k hk
    rw [List.mem_toFinset] at hk
    obtain ⟨st, h1, _⟩ := hI.hq k hk
    have := stateAt_some h1
    rw [Finset.mem_Ico]
    refine ⟨this.1, ?_⟩
    rw [← hI.hlen]
    exact this.2
  have hcard := Finset.card_le_card hsub
  rw [List.toFinset_card_of_nodup hI.hnodup, Int.card_Ico] at hcard
  have hX := hI.hX
  have hXY := hI.hXY
  omega

theorem orExplore_Mid {s : Search} {k : Int} {c : Nat} {t : Int} {src : State} {q : Pos}
    (hM : Mid s k c t) (hs : stateAt s.e.states_ k = some src)
    (hq : q ∈ successors s.e.X_ s.e.Y_ src.pos) :
    ∃ s1, orExplore s k q t = some s1 ∧ Mid s1 k c t ∧
      ∃ st1, stateAt s1.e.states_ (StateIndex s.e.X_ s.e.Y_ q) = some st1 ∧
        st1.depth ≠ -1 ∧ st1.depth ≤ src.depth + 1 := by
  have hI := hM.inv
  have hk : k ∈ s.e.queue_ := List.getElem?_mem hM.hc
  obtain ⟨hs0, hsC, hsI⟩ := hI.slot hk hs
  have hqC : Canon s.e.X_ s.e.Y_ q := Canon_successors hI.hX hI.hXY hsC hq
  obtain ⟨d, hd⟩ := hI.index_range hqC
  have hdk : depthAt s.e.states_ k = src.depth := depthAt_of_some hs
  by_cases hdd : d.depth = -1
  · -- a discovery
    have hE := @Explore_fresh s.e k q t s.sol d src hd hdd hs (by omega)
    have hI1 := Inv_push hI hk hs hq hd hdd
    have hB1 := Bfs_push hI hM.bfs hM.hc hs hd hdd
    have hclt : c < s.e.queue_.length := (List.getElem?_eq_some_iff.mp hM.hc).1
    have hself : stateAt
        (push s.e (StateIndex s.e.X_ s.e.Y_ q) ⟨q, src.pos, src.depth + 1⟩).states_
        (StateIndex s.e.X_ s.e.Y_ q) = some ⟨q, src.pos, src.depth + 1⟩ :=
      push_stateAt_self hd
    have hold : ∀ j ∈ s.e.queue_, stateAt
        (push s.e (StateIndex s.e.X_ s.e.Y_ q) ⟨q, src.pos, src.depth + 1⟩).states_ j =
        stateAt s.e.states_ j :=
      fun j hj => push_stateAt_ne hd (hI.ne_of_mem hd hdd hj)
    refine ⟨_, by unfold orExplore; rw [hE]; rfl, ?_, ⟨_, hself, ?_, ?_⟩⟩
    · refine ⟨hI1, hB1, ?_, hM.hqs, ?_, ?_, ?_⟩
      · show (s.e.queue_ ++ [_])[c]? = some k
        rw [List.getElem?_append_left hclt]
        exact hM.hc
      · intro j hj hm
        change j ∈ s.e.queue_ ++ [_] at hj
        rw [List.mem_append, List.mem_singleton] at hj
        show depthAt (push _ _ _).states_ j = depthAt (push _ _ _).states_ k + 1
        rw [push_depthAt_of_mem hI hd hdd hk, hdk]
        rcases hj with hj | hj
        · rw [push_depthAt_of_mem hI hd hdd hj, ← hdk]
          apply hM.hmatch j hj
          obtain ⟨st, h1, h2⟩ := hm
          change stateAt (push _ _ _).states_ j = some st at h1
          rw [hold j hj] at h1
          exact ⟨st, h1, h2⟩
        · subst hj
          rw [push_depthAt_self hd]
      · intro hsol
        change (s.solved || decide (total q = t)) = true at hsol
        by_cases ht : total q = t
        · refine ⟨StateIndex s.e.X_ s.e.Y_ q, ?_, ?_, ⟨_, hself, ht⟩⟩
          · show (if total q = t then some (StateIndex s.e.X_ s.e.Y_ q) else s.sol) = _
            rw [if_pos ht]
          · show _ ∈ s.e.queue_ ++ [_]
            simp
        · have hsol1 : s.solved = true := by simpa [ht] using hsol
          obtain ⟨j, h1, h2, st, h3, h4⟩ := hM.hsolved hsol1
          refine ⟨j, ?_, ?_, ⟨st, ?_, h4⟩⟩
          · show (if total q = t then some (StateIndex s.e.X_ s.e.Y_ q) else s.sol) = _
            rw [if_neg ht]; exact h1
          · show _ ∈ s.e.queue_ ++ [_]
            exact List.mem_append_left _ h2
          · show stateAt (push _ _ _).states_ j = some st
            rw [hold j h2]; exact h3
      · intro hsol j hj hm
        change (s.solved || decide (total q = t)) = false at hsol
        rw [Bool.or_eq_false_iff] at hsol
        have ht : ¬ total q = t := by simpa using hsol.2
        change j ∈ s.e.queue_ ++ [_] at hj
        rw [List.mem_append, List.mem_singleton] at hj
        obtain ⟨st, h1, h2⟩ := hm
        change stateAt (push _ _ _).states_ j = some st at h1
        rcases hj with hj | hj
        · rw [hold j hj] at h1
          exact hM.hunsolved hsol.1 j hj ⟨st, h1, h2⟩
        · subst hj
          rw [hself] at h1
          injection h1 with h1
          subst h1
          exact ht h2
    · show src.depth + 1 ≠ -1
      omega
    · exact le_refl _
  · -- already visited
    have hE := @Explore_visited s.e k q t s.sol d hd hdd
    have hmem := hI.hvis _ d hd hdd
    refine ⟨s, ?_, hM, ⟨d, hd, hdd, ?_⟩⟩
    · unfold orExplore
      rw [hE]
      simp
    · have := hM.bfs.hspan k hM.hc _ hmem
      rw [depthAt_of_some hd, hdk] at this
      exact this

theorem exploreAll_Mid {k : Int} {c : Nat} {t : Int} {src : State} (l : List Pos) :
    ∀ {s : Search}, Mid s k c t → stateAt s.e.states_ k = some src →
    (∀ q ∈ l, q ∈ successors s.e.X_ s.e.Y_ src.pos) →
    ∃ s1, exploreAll k t s l = some s1 ∧ Mid s1 k c t ∧
      ∀ q ∈ l, ∃ st1, stateAt s1.e.states_ (StateIndex s.e.X_ s.e.Y_ q) = some st1 ∧
        st1.depth ≠ -1 ∧ st1.depth ≤ src.depth + 1 := by
  induction l with
  | nil =>
    intro s hM _ _
    exact ⟨s, rfl, hM, fun q hq => absurd hq (List.not_mem_nil q)⟩
  | cons q rest ih =>
    intro s hM hs hl
    obtain ⟨s1, h1, hM1, st1, hv1, hv2, hv3⟩ :=
      orExplore_Mid hM hs (hl q (List.mem_cons_self q rest))
    obtain ⟨a1, a2, a3, a4⟩ := orExplore_frame h1
    have hk : k ∈ s.e.queue_ := List.getElem?_mem hM.hc
    have hs1 : stateAt s1.e.states_ k = some src :=
      a4 k src hs (by have := (hM.inv.slot hk hs).1; omega)
    obtain ⟨s2, h2, hM2, hall⟩ := ih hM1 hs1 (by
      intro r hr
      rw [a1, a2]
      exact hl r (List.mem_cons_of_mem q hr))
    obtain ⟨b1, b2, b3, b4⟩ := exploreAll_frame rest h2
    refine ⟨s2, by simp only [exploreAll, h1, Option.some_bind, h2], hM2, ?_⟩
    intro r hr
    rw [List.mem_cons] at hr
    rcases hr with hr | hr
    · subst hr
      exact ⟨st1, b4 _ st1 hv1 hv2, hv2, hv3⟩
    · have := hall r hr
      rw [a1, a2] at this
      exact this

/-- One iteration of the loop keeps the loop invariant and moves the cursor by one. -/
theorem expand_LoopInv {s : Search} {t : Int} (hL : LoopInv s t)
    (hsolved : s.solved = false) (hlt : s.e.queue_start_ < s.e.queue_.length) :
    ∃ s1, expand s t = some s1 ∧ LoopInv s1 t ∧
      s1.e.queue_start_ = s.e.queue_start_ + 1 ∧ s1.e.X_ = s.e.X_ ∧ s1.e.Y_ = s.e.Y_ := by
  have hI := hL.inv
  have hB := hL.bfs
  obtain ⟨k, hk⟩ : ∃ k, s.e.queue_[s.e.queue_start_]? = some k :=
    ⟨_, List.getElem?_eq_getElem hlt⟩
  have hkm : k ∈ s.e.queue_ := List.getElem?_mem hk
  obtain ⟨src, hsrc, hsrc0, hsrcC, hsrcI⟩ := hI.hq k hkm
  rw [expand_eq_exploreAll hk hsrc (by omega)]
  have hM0 : Mid { s with e := { s.e with queue_start_ := s.e.queue_start_ + 1 } } k
      s.e.queue_start_ t := by
    refine ⟨⟨hI.hX, hI.hXY, hI.hlen, ?_, hI.hnodup, hI.hq, hI.hvis, hI.hhead, hI.hzero,
      hI.horigin, hI.hprev⟩, ⟨hB.hsorted, hB.hspan, hB.hclosed⟩, hk, rfl, ?_, ?_, ?_⟩
    · show s.e.queue_start_ + 1 ≤ s.e.queue_.length
      omega
    · intro j hj hm
      exact absurd hm (hL.hunsolved hsolved j hj)
    · intro h
      change s.solved = true at h
      rw [hsolved] at h
      exact absurd h (by simp)
    · intro _ j hj hm
      exact hL.hunsolved hsolved j hj hm
  obtain ⟨s1, h1, hM1, hall⟩ :=
    exploreAll_Mid (successors s.e.X_ s.e.Y_ src.pos) hM0 hsrc (fun q hq => hq)
  obtain ⟨a1, a2, a3, a4⟩ := exploreAll_frame _ h1
  simp only at a1 a2 a3 a4 hall
  have hsrc1 : stateAt s1.e.states_ k = some src := a4 k src hsrc (by omega)
  have hdk : depthAt s1.e.states_ k = src.depth := depthAt_of_some hsrc1
  refine ⟨s1, h1, ⟨hM1.inv, ⟨hM1.bfs.hsorted, ?_, ?_⟩, ?_, hM1.hunsolved⟩, a3, a1, a2⟩
  · -- span with respect to the next frontier entry
    intro h hh j hj
    rw [a3] at hh
    have h2 := hM1.bfs.hspan k hM1.hc j hj
    obtain ⟨hlt1, hget1⟩ := List.getElem?_eq_some_iff.mp hh
    obtain ⟨hlt0, hget0⟩ := List.getElem?_eq_some_iff.mp hM1.hc
    have h3 := (List.pairwise_iff_getElem.mp hM1.bfs.hsorted) s.e.queue_start_
      (s.e.queue_start_ + 1) hlt0 hlt1 (by omega)
    rw [hget0, hget1] at h3
    omega
  · -- closedness of the entry just expanded
    intro i j hi hij st hst r hr
    rw [a3] at hi
    by_cases hic : i < s.e.queue_start_
    · exact hM1.bfs.hclosed i j hic hij st hst r hr
    · have hieq : i = s.e.queue_start_ := by omega
      subst hieq
      rw [hM1.hc] at hij
      injection hij with hij
      subst hij
      rw [hsrc1] at hst
      injection hst with hst
      subst hst
      rw [a1, a2] at hr ⊢
      exact hall r hr
  · intro hs1
    obtain ⟨j, h1, h2, h3⟩ := hM1.hsolved hs1
    refine ⟨j, h1, h2, h3, ?_⟩
    intro j1 hj1 hm1
    rw [hM1.hmatch j h2 h3, hM1.hmatch j1 hj1 hm1]

/-! ## The cached lookup -/

theorem FindCachedSol_spec (states : List State) (t : Int) (sol : Option Int) :
    ∀ l : List Int, (∀ k ∈ l, ∃ st, stateAt states k = some st) →
    ∃ b sol1, FindCachedSol states t sol l = some (b, sol1) ∧
      (b = false → sol1 = sol ∧ ∀ k ∈ l, ¬ Matches states t k) ∧
      (b = true → ∃ j, sol1 = some j ∧ j ∈ l ∧ Matches states t j ∧
        (l.Pairwise (fun a b => depthAt states a ≤ depthAt states b) →
          ∀ j1 ∈ l, Matches states t j1 → depthAt states j ≤ depthAt states j1)) := by
  intro l
  induction l with
  | nil =>
    intro _
    exact ⟨false, sol, rfl, fun _ => ⟨rfl, fun k hk => absurd hk (List.not_mem_nil k)⟩,
      fun h => absurd h (by simp)⟩
  | cons k rest ih =>
    intro hall
    obtain ⟨st, hst⟩ := hall k (List.mem_cons_self k rest)
    obtain ⟨b, sol1, h1, h2, h3⟩ := ih (fun j hj => hall j (List.mem_cons_of_mem k hj))
    by_cases hm : st.pos.1 + st.pos.2 = t
    · refine ⟨true, some k, ?_, fun h => absurd h (by simp), fun _ => ?_⟩
      · simp [FindCachedSol, hst, hm]
      · refine ⟨k, rfl, List.mem_cons_self k rest, ⟨st, hst, hm⟩, ?_⟩
        intro hp j1 hj1 _
        rw [List.mem_cons] at hj1
        rcases hj1 with hj1 | hj1
        · rw [hj1]
        · exact (List.pairwise_cons.mp hp).1 j1 hj1
    · refine ⟨b, sol1, ?_, ?_, ?_⟩
      · simp [FindCachedSol, hst, hm, h1]
      · intro hb
        refine ⟨(h2 hb).1, ?_⟩
        intro j hj
        rw [List.mem_cons] at hj
        rcases hj with hj | hj
        · subst hj
          rintro ⟨st1, hs1, hs2⟩
          rw [hst] at hs1
          injection hs1 with hs1
          subst hs1
          exact hm hs2
        · exact (h2 hb).2 j hj
      · intro hb
        obtain ⟨j, e1, e2, e3, e4⟩ := h3 hb
        refine ⟨j, e1, List.mem_cons_of_mem k e2, e3, ?_⟩
        intro hp j1 hj1 hm1
        rw [List.mem_cons] at hj1
        rcases hj1 with hj1 | hj1
        · subst hj1
          obtain ⟨st1, hs1, hs2⟩ := hm1
          rw [hst] at hs1
          injection hs1 with hs1
          subst hs1
          exact absurd hs2 hm
        · exact e4 (List.pairwise_cons.mp hp).2 j1 hj1 hm1

/-! ## The search loop -/

theorem SolveLoop_done {t : Int} {fuel : Nat} {s : Search}
    (h : ¬ (s.solved = false ∧ s.e.queue_start_ < s.e.queue_.length)) :
    SolveLoop t fuel s = some s := by
  cases fuel with
  | zero => simp only [SolveLoop]; rw [if_neg h]
  | succ n => simp only [SolveLoop]; rw [if_neg h]

theorem SolveLoop_spec (t : Int) : ∀ (fuel : Nat) (s : Search), LoopInv s t →
    2 * (s.e.X_ + s.e.Y_) ≤ fuel + s.e.queue_start_ →
    ∃ s1, SolveLoop t fuel s = some s1 ∧ LoopInv s1 t ∧
      (s1.solved = false → s1.e.queue_.length ≤ s1.e.queue_start_) ∧
      s1.e.X_ = s.e.X_ ∧ s1.e.Y_ = s.e.Y_ ∧ (s.solved = true → s1 = s) := by
  intro fuel
  induction fuel with
  | zero =>
    intro s hL hf
    have hlen := hL.inv.queue_length_le
    have hc : ¬ (s.solved = false ∧ s.e.queue_start_ < s.e.queue_.length) := by
      rintro ⟨_, h⟩
      omega
    refine ⟨s, SolveLoop_done hc, hL, ?_, rfl, rfl, fun _ => rfl⟩
    intro _
    omega
  | succ n ih =>
    intro s hL hf
    by_cases hc : s.solved = false ∧ s.e.queue_start_ < s.e.queue_.length
    · obtain ⟨s1, h1, hL1, hq1, hX1, hY1⟩ := expand_LoopInv hL hc.1 hc.2
      obtain ⟨s2, h2, hL2, hq2, hX2, hY2, _⟩ := ih s1 hL1 (by rw [hX1, hY1, hq1]; omega)
      refine ⟨s2, ?_, hL2, hq2, hX2.trans hX1, hY2.trans hY1, ?_⟩
      · simp only [SolveLoop]
        rw [if_pos hc, h1]
        exact h2
      · intro h
        rw [hc.1] at h
        exact absurd h (by simp)
    · refine ⟨s, SolveLoop_done hc, hL, ?_, rfl, rfl, fun _ => rfl⟩
      intro hs
      by_contra hlt
      exact hc ⟨hs, by omega⟩

/-! ## Backtracking -/

theorem backtrack_eq_trail (e : WaterJugSolverCoprime) :
    ∀ (m : Nat) (junk : Path) (p : Pos) (rest : Path), junk.length = m →
    backtrack e m (junk ++ p :: rest) = (trail e m p).map fun l => l ++ rest := by
  intro m
  induction m with
  | zero =>
    intro junk p rest hj
    rw [List.length_eq_zero] at hj
    subst hj
    simp [backtrack, trail]
  | succ m ih =>
    intro junk p rest hj
    obtain ⟨junk1, x, rfl⟩ : ∃ junk1 x, junk = junk1 ++ [x] := by
      have hne : junk ≠ [] := by
        intro h
        rw [h] at hj
        simp at hj
      exact ⟨junk.dropLast, junk.getLast hne, (List.dropLast_append_getLast hne).symm⟩
    have hl : junk1.length = m := by simpa using hj
    have hget : (junk1 ++ [x] ++ p :: rest)[m + 1]? = some p := by
      rw [List.getElem?_append_right (by simp [hl])]
      simp [hl]
    have hset : ∀ v : Pos, (junk1 ++ [x] ++ p :: rest).set m v = junk1 ++ v :: p :: rest := by
      intro v
      rw [List.append_assoc, List.set_append_right _ _ (by omega)]
      simp [hl]
    simp only [backtrack, trail, hget, Option.some_bind]
    cases hst : stateAt e.states_ (StateIndex e.X_ e.Y_ p) with
    | none => simp
    | some st =>
      simp only [Option.some_bind, hset]
      rw [ih junk1 st.prev (p :: rest) hl]
      cases trail e m st.prev with
      | none => simp
      | some l => simp

theorem resize_set_last (path : Path) (n : Nat) (v : Pos) :
    ∃ junk : Path, junk.length = n ∧ (resize path (n + 1)).set n v = junk ++ [v] := by
  have hlen : (resize path (n + 1)).length = n + 1 := by
    unfold resize
    simp
    omega
  refine ⟨(resize path (n + 1)).take n, by simp [hlen], ?_⟩
  apply List.ext_getElem
  · simp [hlen]
  · intro i h1 h2
    simp only [List.length_set, hlen] at h1
    by_cases hi : i = n
    · subst hi
      rw [List.getElem_set_self, List.getElem_append_right (by simp [hlen])]
      simp [hlen]
    · rw [List.getElem_set_ne (by omega), List.getElem_append_left (by simp [hlen]; omega)]
      simp

theorem trail_spec {e : WaterJugSolverCoprime} (hI : Inv e) :
    ∀ (d : Nat) (j : Int) (st : State), stateAt e.states_ j = some st →
    st.depth = (d : Int) →
    ∃ l, trail e d st.pos = some l ∧ l.length = d + 1 ∧ l.head? = some (0, 0) ∧
      l.getLast? = some st.pos ∧ List.Chain' (EngineMove e.X_ e.Y_) l ∧
      EPath e.X_ e.Y_ d st.pos := by
  intro d
  induction d with
  | zero =>
    intro j st hst hd
    have hj0 : j = 0 := hI.hzero j st hst (by simpa using hd)
    subst hj0
    obtain ⟨_, _, hC, hS⟩ := hI.slot_of_visited hst (by omega)
    have hp : st.pos = (0, 0) :=
      StateIndex_inj hI.hX hI.hXY hC (Canon_origin hI.hX hI.hXY)
        (by rw [hS, StateIndex_origin])
    rw [hp]
    exact ⟨[(0, 0)], rfl, rfl, rfl, rfl, List.chain'_singleton _, EPath.origin⟩
  | succ d ih =>
    intro j st hst hd
    obtain ⟨_, _, hC, hS⟩ := hI.slot_of_visited hst (by omega)
    obtain ⟨st1, h1, h2, h3, h4⟩ := hI.hprev j st hst (by omega)
    obtain ⟨l, e1, e2, e3, e4, e5, e6⟩ := ih _ st1 h1 (by push_cast at hd; omega)
    rw [h2] at e1 e4 e6
    refine ⟨l ++ [st.pos], ?_, by simp [e2], ?_, by simp, ?_, EPath.move e6 h4⟩
    · simp only [trail]
      rw [hS, hst]
      simp [e1]
    · rw [List.head?_append, e3]
      rfl
    · refine List.Chain'.append e5 (List.chain'_singleton _) ?_
      intro x hx y hy
      rw [e4] at hx
      simp only [List.head?_cons, Option.mem_def, Option.some.injEq] at hx hy
      subst hx
      subst hy
      refine ⟨?_, h4⟩
      rw [← h2]
      exact (hI.slot_of_visited h1 (by omega)).2.2.1

/-! ## The engine's `Solve` -/

theorem Solve_spec {e : WaterJugSolverCoprime} (hI : Inv e) (hB : Bfs e e.queue_start_)
    (fuel : Nat) (t : Int) (path : Path)
    (hf : 2 * (e.X_ + e.Y_) ≤ fuel + e.queue_start_) :
    ∃ e1 b p1, e.Solve fuel t path = some (e1, b, p1) ∧ Inv e1 ∧
      Bfs e1 e1.queue_start_ ∧ e1.X_ = e.X_ ∧ e1.Y_ = e.Y_ ∧
      (b = false → p1 = path ∧ e1.queue_.length ≤ e1.queue_start_ ∧
        ∀ j ∈ e1.queue_, ¬ Matches e1.states_ t j) ∧
      (b = true → Found e1 t p1) ∧
      ((∃ j ∈ e.queue_, Matches e.states_ t j) → e1 = e ∧ b = true) := by
  obtain ⟨b0, sol0, hF, hF0, hF1⟩ := FindCachedSol_spec e.states_ t none e.queue_
    (fun k hk => by obtain ⟨st, h, _⟩ := hI.hq k hk; exact ⟨st, h⟩)
  have hL : LoopInv ⟨e, b0, sol0⟩ t := by
    refine ⟨hI, hB, ?_, ?_⟩
    · intro hb
      obtain ⟨j, h1, h2, h3, h4⟩ := hF1 hb
      exact ⟨j, h1, h2, h3, h4 hB.hsorted⟩
    · intro hb
      exact (hF0 hb).2
  obtain ⟨s1, hS, hL1, hq1, hX1, hY1, hsame⟩ := SolveLoop_spec t fuel ⟨e, b0, sol0⟩ hL hf
  have hcached : (∃ j ∈ e.queue_, Matches e.states_ t j) → b0 = true := by
    rintro ⟨j, hj, hm⟩
    by_contra hb
    have hb : b0 = false := by simpa using hb
    exact (hF0 hb).2 j hj hm
  unfold WaterJugSolverCoprime.Solve
  simp only [hF, Option.some_bind, hS]
  cases hsol : s1.solved with
  | false =>
    refine ⟨s1.e, false, path, by simp, hL1.inv, hL1.bfs, hX1, hY1,
      fun _ => ⟨rfl, hq1 hsol, hL1.hunsolved hsol⟩, fun h => absurd h (by simp), ?_⟩
    intro hc
    have := hsame (hcached hc)
    rw [this] at hsol
    rw [hcached hc] at hsol
    exact absurd hsol (by simp)
  | true =>
    obtain ⟨j, h1, h2, ⟨st, h3, h4⟩, h5⟩ := hL1.hsolved hsol
    obtain ⟨hd0, _, _⟩ := hL1.inv.slot h2 h3
    obtain ⟨l, e1, _⟩ := trail_spec hL1.inv st.depth.toNat j st h3 (by omega)
    have hn : (st.depth + 1).toNat = st.depth.toNat + 1 := by omega
    obtain ⟨junk, hj1, hj2⟩ := resize_set_last path st.depth.toNat st.pos
    have hbt : backtrack s1.e st.depth.toNat
        ((resize path (st.depth.toNat + 1)).set st.depth.toNat st.pos) = some l := by
      rw [hj2, backtrack_eq_trail s1.e _ junk st.pos [] hj1, e1]
      simp
    refine ⟨s1.e, true, l, ?_, hL1.inv, hL1.bfs, hX1, hY1, fun h => absurd h (by simp),
      fun _ => ⟨j, st, h2, h3, h4, ?_, e1⟩, ?_⟩
    · simp only [Bool.true_eq_false, if_false, h1, Option.some_bind, h3]
      rw [if_neg (by omega), hn]
      simp only [Nat.add_sub_cancel, hbt, Option.map_some']
    · intro j1 hj1 hm1
      have := h5 j1 hj1 hm1
      rw [depthAt_of_some h3] at this
      exact this
    · intro hc
      have := hsame (hcached hc)
      rw [this]
      exact ⟨rfl, rfl⟩

/-! ## Breadth-first order gives minimal depth -/

theorem EPath.canon {X Y : Int} (hX : 1 ≤ X) (hXY : X ≤ Y) {n : Nat} {q : Pos}
    (h : EPath X Y n q) : Canon X Y q := by
  induction h with
  | origin => exact Canon_origin hX hXY
  | move _ hq ih => exact Canon_successors hX hXY ih hq

theorem Bfs.depth_le {e : WaterJugSolverCoprime} (hI : Inv e)
    (hB : Bfs e e.queue_start_) {n : Nat} {q : Pos} (h : EPath e.X_ e.Y_ n q) :
    ∀ d, stateAt e.states_ (StateIndex e.X_ e.Y_ q) = some d →
      (d.depth ≠ -1 → d.depth ≤ n) ∧
      (d.depth = -1 → ∀ k ∈ e.queue_, depthAt e.states_ k ≤ n) := by
  induction h with
  | origin =>
    intro d hd
    rw [StateIndex_origin] at hd
    have h0 := hI.horigin
    rw [depthAt_of_some hd] at h0
    exact ⟨fun _ => by simp [h0], fun h => by omega⟩
  | @move n p q hp hq ih =>
    intro d hd
    have hpC := hp.canon hI.hX hI.hXY
    obtain ⟨dp, hdp⟩ := hI.index_range hpC
    obtain ⟨ih1, ih2⟩ := ih dp hdp
    have hall : (∀ k ∈ e.queue_, depthAt e.states_ k ≤ (n : Int) + 1) →
        (d.depth ≠ -1 → d.depth ≤ ((n + 1 : Nat) : Int)) ∧
        (d.depth = -1 → ∀ k ∈ e.queue_, depthAt e.states_ k ≤ ((n + 1 : Nat) : Int)) := by
      intro hk
      push_cast
      refine ⟨fun hv => ?_, fun _ => hk⟩
      have := hk _ (hI.hvis _ d hd hv)
      rw [depthAt_of_some hd] at this
      exact this
    by_cases hpv : dp.depth = -1
    · apply hall
      intro k hk
      have := ih2 hpv k hk
      omega
    · have hle := ih1 hpv
      have hpos : dp.pos = p := hI.pos_eq hpC hdp hpv
      obtain ⟨i, hi⟩ := List.getElem?_of_mem (hI.hvis _ dp hdp hpv)
      by_cases hic : i < e.queue_start_
      · obtain ⟨st1, h1, h2, h3⟩ := hB.hclosed i _ hic hi dp hdp q (by rw [hpos]; exact hq)
        rw [hd] at h1
        injection h1 with h1
        subst h1
        push_cast
        exact ⟨fun _ => by omega, fun h => absurd h h2⟩
      · apply hall
        intro k hk
        obtain ⟨hlt, hget⟩ := List.getElem?_eq_some_iff.mp hi
        have hlt0 : e.queue_start_ < e.queue_.length := by omega
        have hspan := hB.hspan _ (List.getElem?_eq_getElem hlt0) k hk
        have hsort : depthAt e.states_ e.queue_[e.queue_start_] ≤
            depthAt e.states_ (StateIndex e.X_ e.Y_ p) := by
          by_cases heq : i = e.queue_start_
          · subst heq
            rw [hget]
          · have := (List.pairwise_iff_getElem.mp hB.hsorted) e.queue_start_ i hlt0 hlt
              (by omega)
            rw [hget] at this
            exact this
        rw [depthAt_of_some hdp] at hsort
        omega

/-- When the whole frontier is expanded, every position the engine moves can
reach is discovered. -/
theorem Bfs.complete {e : WaterJugSolverCoprime} (hI : Inv e)
    (hB : Bfs e e.queue_start_) (hdone : e.queue_.length ≤ e.queue_start_)
    {n : Nat} {q : Pos} (h : EPath e.X_ e.Y_ n q) :
    ∃ d, stateAt e.states_ (StateIndex e.X_ e.Y_ q) = some d ∧ d.depth ≠ -1 ∧ d.pos = q := by
  induction h with
  | origin =>
    obtain ⟨d, hd⟩ := hI.index_range (Canon_origin hI.hX hI.hXY)
    have h0 := hI.horigin
    rw [StateIndex_origin] at hd
    rw [depthAt_of_some hd] at h0
    have hv : d.depth ≠ -1 := by omega
    rw [← StateIndex_origin e.X_ e.Y_] at hd
    exact ⟨d, hd, hv, hI.pos_eq (Canon_origin hI.hX hI.hXY) hd hv⟩
  | @move n p q hp hq ih =>
    obtain ⟨dp, hdp, hpv, hpos⟩ := ih
    obtain ⟨i, hi⟩ := List.getElem?_of_mem (hI.hvis _ dp hdp hpv)
    have hlt := (List.getElem?_eq_some_iff.mp hi).1
    obtain ⟨st1, h1, h2, _⟩ := hB.hclosed i _ (by omega) hi dp hdp q (by rw [hpos]; exact hq)
    have hqC := Canon_successors hI.hX hI.hXY (hp.canon hI.hX hI.hXY) hq
    exact ⟨st1, h1, h2, hI.pos_eq hqC h1 h2⟩

/-- A successful answer of the engine, in terms of engine moves only: the path is a
chain of engine moves from the origin to a position of total `t`, and no position
of total `t` is reachable by fewer engine moves. -/
theorem Found.spec {e : WaterJugSolverCoprime} (hI : Inv e) (hB : Bfs e e.queue_start_)
    {t : Int} {path : Path} (hF : Found e t path) :
    ∃ (d : Nat) (q : Pos), path.length = d + 1 ∧ path.head? = some (0, 0) ∧
      path.getLast? = some q ∧ total q = t ∧ List.Chain' (EngineMove e.X_ e.Y_) path ∧
      EPath e.X_ e.Y_ d q ∧ ∀ n r, EPath e.X_ e.Y_ n r → total r = t → d ≤ n := by
  obtain ⟨j, st, h1, h2, h3, h4, h5⟩ := hF
  obtain ⟨hd0, _, _⟩ := hI.slot h1 h2
  obtain ⟨l, e1, e2, e3, e4, e5, e6⟩ := trail_spec hI st.depth.toNat j st h2 (by omega)
  rw [h5] at e1
  injection e1 with e1
  subst e1
  refine ⟨st.depth.toNat, st.pos, e2, e3, e4, h3, e5, e6, ?_⟩
  intro n r hr ht
  have hrC := hr.canon hI.hX hI.hXY
  obtain ⟨d, hd⟩ := hI.index_range hrC
  obtain ⟨m1, m2⟩ := Bfs.depth_le hI hB hr d hd
  by_cases hv : d.depth = -1
  · have := m2 hv j h1
    rw [depthAt_of_some h2] at this
    omega
  · have hpos := hI.pos_eq hrC hd hv
    have := h4 _ (hI.hvis _ d hd hv) ⟨d, hd, by rw [hpos]; exact ht⟩
    rw [depthAt_of_some hd] at this
    have := m1 hv
    omega

theorem not_found_spec {e : WaterJugSolverCoprime} (hI : Inv e)
    (hB : Bfs e e.queue_start_) (hdone : e.queue_.length ≤ e.queue_start_) {t : Int}
    (hno : ∀ j ∈ e.queue_, ¬ Matches e.states_ t j) :
    ∀ n r, EPath e.X_ e.Y_ n r → total r ≠ t := by
  intro n r hr ht
  obtain ⟨d, hd, hv, hpos⟩ := Bfs.complete hI hB hdone hr
  exact hno _ (hI.hvis _ d hd hv) ⟨d, hd, by rw [hpos]; exact ht⟩

/-! ## The constructor and the reachable engine states -/

theorem stateAt_replicate {n : Nat} {s : State} {i : Int} {st : State}
    (h : stateAt (List.replicate n s) i = some st) : st = s := by
  unfold stateAt at h
  by_cases hi : i < 0
  · simp [hi] at h
  · rw [if_neg hi, List.getElem?_replicate] at h
    split_ifs at h
    injection h with h
    exact h.symm

theorem construct_bound {X Y : Int} {e : WaterJugSolverCoprime}
    (h : WaterJugSolverCoprime.construct X Y = some e) : 2 * (X + Y) ≤ INT_MAX := by
  unfold WaterJugSolverCoprime.construct at h
  by_contra hc
  simp only at h
  rw [if_pos (Or.inr (by omega))] at h
  exact absurd h (by simp)

theorem construct_spec {X Y : Int} (hX : 1 ≤ X) (hY : 1 ≤ Y)
    (hfit : 2 * (X + Y) ≤ INT_MAX) :
    ∃ e, WaterJugSolverCoprime.construct X Y = some e ∧ Inv e ∧ Bfs e 0 ∧
      e.queue_start_ = 0 ∧ e.X_ = min X Y ∧ e.Y_ = max X Y := by
  have hN : ¬ (2 * (X + Y) < 0 ∨ INT_MAX < 2 * (X + Y)) := by omega
  have hlen : (0 : Int) < ((List.replicate (2 * (X + Y)).toNat (State.ofDepth (-1))).length : Int) := by
    rw [List.length_replicate]
    omega
  have hread : stateAt (List.replicate (2 * (X + Y)).toNat (State.ofDepth (-1))) 0 =
      some (State.ofDepth (-1)) := by
    obtain ⟨st, hst⟩ := stateAt_isSome (le_refl 0) hlen
    rw [hst, stateAt_replicate hst]
  have hset : stateAt (setAt (List.replicate (2 * (X + Y)).toNat (State.ofDepth (-1))) 0
      ⟨(0, 0), (0, 0), 0⟩) 0 = some ⟨(0, 0), (0, 0), 0⟩ :=
    stateAt_setAt_eq _ (le_refl 0) hlen
  have hother : ∀ k st, stateAt (setAt (List.replicate (2 * (X + Y)).toNat (State.ofDepth (-1))) 0
      ⟨(0, 0), (0, 0), 0⟩) k = some st → st.depth ≠ -1 → k = 0 := by
    intro k st hk hd
    by_contra hk0
    rw [stateAt_setAt_ne _ (le_refl 0) (Ne.symm hk0)] at hk
    rw [stateAt_replicate hk] at hd
    exact hd rfl
  refine ⟨⟨min X Y, max X Y, 0, setAt (List.replicate (2 * (X + Y)).toNat (State.ofDepth (-1)))
    0 ⟨(0, 0), (0, 0), 0⟩, [0]⟩, ?_, ?_, ?_, rfl, rfl, rfl⟩
  · unfold WaterJugSolverCoprime.construct
    simp only [StateIndex_origin, if_neg hN, hread, Option.some_bind]
  · have h1 : 1 ≤ min X Y := by omega
    have h2 : min X Y ≤ max X Y := by omega
    refine ⟨h1, h2, ?_, ?_, ?_, ?_, ?_, ?_, ?_, ?_, ?_⟩
    · show ((setAt _ _ _).length : Int) = 2 * (min X Y + max X Y)
      rw [length_setAt, List.length_replicate]
      omega
    · show 0 ≤ [(0 : Int)].length
      simp
    · exact List.nodup_singleton _
    · intro k hk
      change k ∈ [(0 : Int)] at hk
      rw [List.mem_singleton] at hk
      subst hk
      exact ⟨_, hset, le_refl _, Canon_origin h1 h2, StateIndex_origin _ _⟩
    · intro k st hk hd
      show k ∈ [(0 : Int)]
      rw [List.mem_singleton]
      exact hother k st hk hd
    · rfl
    · intro k st hk hd
      exact hother k st hk (by omega)
    · exact depthAt_of_some hset
    · intro k st hk hd
      have hk0 := hother k st hk (by omega)
      subst hk0
      change stateAt (setAt _ 0 _) 0 = some st at hk
      rw [hset] at hk
      injection hk with hk
      subst hk
      simp at hd
  · refine ⟨List.pairwise_singleton _ _, ?_, ?_⟩
    · intro h hh k hk
      change [(0 : Int)][0]? = some h at hh
      change k ∈ [(0 : Int)] at hk
      simp at hh
      rw [List.mem_singleton] at hk
      subst hh
      subst hk
      omega
    · intro i k hi
      omega

theorem SolveLoop_mono (t : Int) : ∀ (fuel : Nat) (s r : Search),
    SolveLoop t fuel s = some r → ∀ fuel1, fuel ≤ fuel1 → SolveLoop t fuel1 s = some r := by
  intro fuel
  induction fuel with
  | zero =>
    intro s r h fuel1 _
    simp only [SolveLoop] at h
    by_cases hc : s.solved = false ∧ s.e.queue_start_ < s.e.queue_.length
    · rw [if_pos hc] at h
      exact absurd h (by simp)
    · rw [if_neg hc] at h
      rw [SolveLoop_done hc]
      exact h
  | succ n ih =>
    intro s r h fuel1 hle
    by_cases hc : s.solved = false ∧ s.e.queue_start_ < s.e.queue_.length
    · obtain ⟨m, rfl⟩ : ∃ m, fuel1 = m + 1 := ⟨fuel1 - 1, by omega⟩
      simp only [SolveLoop] at h ⊢
      rw [if_pos hc] at h ⊢
      rw [Option.bind_eq_some] at h ⊢
      obtain ⟨s1, h1, h2⟩ := h
      exact ⟨s1, h1, ih s1 r h2 m (by omega)⟩
    · rw [SolveLoop_done hc] at h ⊢
      exact h

/-- More iteration budget never changes a result of the engine's `Solve`. -/
theorem Solve_mono {e : WaterJugSolverCoprime} {fuel fuel1 : Nat} {t : Int} {path : Path}
    {r : WaterJugSolverCoprime × Bool × Path} (h : e.Solve fuel t path = some r)
    (hle : fuel ≤ fuel1) : e.Solve fuel1 t path = some r := by
  unfold WaterJugSolverCoprime.Solve at h ⊢
  rw [Option.bind_eq_some] at h ⊢
  obtain ⟨c, hc, h⟩ := h
  refine ⟨c, hc, ?_⟩
  rw [Option.bind_eq_some] at h ⊢
  obtain ⟨s, hs, h⟩ := h
  exact ⟨s, SolveLoop_mono t fuel _ s hs fuel1 hle, h⟩

/-- Every result of the engine's `Solve` in a state satisfying the invariants has the
properties of `Solve_spec`, whatever the budget it was computed with. -/
theorem Solve_some_spec {e : WaterJugSolverCoprime} (hI : Inv e)
    (hB : Bfs e e.queue_start_) {fuel : Nat} {t : Int} {path : Path}
    {e1 : WaterJugSolverCoprime} {b : Bool} {p1 : Path}
    (h : e.Solve fuel t path = some (e1, b, p1)) :
    Inv e1 ∧ Bfs e1 e1.queue_start_ ∧ e1.X_ = e.X_ ∧ e1.Y_ = e.Y_ ∧
      (b = false → p1 = path ∧ e1.queue_.length ≤ e1.queue_start_ ∧
        ∀ j ∈ e1.queue_, ¬ Matches e1.states_ t j) ∧
      (b = true → Found e1 t p1) ∧
      ((∃ j ∈ e.queue_, Matches e.states_ t j) → e1 = e ∧ b = true) := by
  obtain ⟨e2, b2, p2, h2, rest⟩ := Solve_spec hI hB (fuel + (2 * (e.X_ + e.Y_)).toNat) t path
    (by push_cast; omega)
  have := Solve_mono h (Nat.le_add_right fuel (2 * (e.X_ + e.Y_)).toNat)
  rw [h2] at this
  injection this with this
  injection this with a1 a2
  injection a2 with a2 a3
  subst a1
  subst a2
  subst a3
  exact rest

theorem EngineReachable.invariants {X Y : Int} (hX : 1 ≤ X) (hY : 1 ≤ Y)
    {e : WaterJugSolverCoprime} (h : EngineReachable X Y e) :
    Inv e ∧ Bfs e e.queue_start_ ∧ e.X_ = min X Y ∧ e.Y_ = max X Y := by
  induction h with
  | fresh hc =>
    obtain ⟨e0, h0, hI, hB, hq, hx, hy⟩ := construct_spec hX hY (construct_bound hc)
    rw [h0] at hc
    injection hc with hc
    subst hc
    rw [hq]
    exact ⟨hI, hB, hx, hy⟩
  | call _ hs ih =>
    obtain ⟨hI, hB, hx, hy⟩ := ih
    obtain ⟨hI1, hB1, hx1, hy1, _⟩ := Solve_some_spec hI hB hs
    exact ⟨hI1, hB1, hx1.trans hx, hy1.trans hy⟩

/-! ## Reachable totals for coprime capacities -/

theorem mem_successors_fill1 (X Y y : Int) : (X, y) ∈ successors X Y (0, y) := by
  unfold successors
  simp

theorem mem_successors_fill2 (X Y x : Int) : (x, Y) ∈ successors X Y (x, 0) := by
  unfold successors
  simp

theorem mem_successors_empty2 {X Y : Int} (hY : Y ≠ 0) (x : Int) :
    (x, 0) ∈ successors X Y (x, Y) := by
  unfold successors
  simp [hY]

theorem mem_successors_other {X Y : Int} {p : Pos} (h0 : p.1 + p.2 ≠ 0)
    (h1 : p.1 + p.2 ≠ X + Y) :
    OtherEnd X Y { pos := p, prev := p, depth := 0 } ∈ successors X Y p := by
  unfold successors
  simp [h0, h1]

/-- From `(0, y)` the engine reaches `(0, y1)` with `y1` congruent to `y + X`
modulo `Y`: fill jug 1 and pour it into jug 2, emptying jug 2 when it is full. -/
theorem EPath_add {X Y : Int} (hX : 1 ≤ X) (hXY : X ≤ Y) {n : Nat} {y : Int}
    (h : EPath X Y n (0, y)) (hy0 : 0 ≤ y) (hyY : y ≤ Y) :
    ∃ m y1, EPath X Y m (0, y1) ∧ 0 ≤ y1 ∧ y1 ≤ Y ∧ Y ∣ (y + X - y1) := by
  have hfill : EPath X Y (n + 1) (X, y) := EPath.move h (mem_successors_fill1 X Y y)
  by_cases hfull : y = Y
  · rw [hfull] at hfill
    have h2 : EPath X Y (n + 2) (X, 0) := EPath.move hfill (mem_successors_empty2 (by omega) X)
    have h3 := EPath.move h2 (mem_successors_other (X := X) (Y := Y) (p := (X, 0))
      (by simp; omega) (by simp; omega))
    have ho : OtherEnd X Y { pos := (X, 0), prev := (X, 0), depth := 0 } = (0, X) := by
      unfold OtherEnd
      simp only
      rw [if_neg (by omega), if_pos (by omega), if_neg (by omega)]
    rw [ho] at h3
    exact ⟨_, X, h3, by omega, hXY, ⟨1, by rw [hfull]; ring⟩⟩
  · have h2 := EPath.move hfill (mem_successors_other (X := X) (Y := Y) (p := (X, y))
      (by simp; omega) (by simp; omega))
    by_cases hfit : X + y ≤ Y
    · have ho : OtherEnd X Y { pos := (X, y), prev := (X, y), depth := 0 } = (0, y + X) := by
        unfold OtherEnd
        simp only
        rw [if_neg (by omega)]
        by_cases hy : X + y ≤ X
        · rw [if_pos hy, if_neg (by omega)]
          have : y = 0 := by omega
          subst this
          simp
        · rw [if_neg hy, if_neg (by omega), if_pos hfit]
          simp only [Prod.mk.injEq, true_and]
          omega
      rw [ho] at h2
      exact ⟨_, y + X, h2, by omega, by omega, ⟨0, by ring⟩⟩
    · have ho : OtherEnd X Y { pos := (X, y), prev := (X, y), depth := 0 } =
          (X + y - Y, Y) := by
        unfold OtherEnd
        simp only
        rw [if_neg (by omega), if_neg (by omega), if_neg (by omega), if_neg hfit]
      rw [ho] at h2
      have h3 := EPath.move h2 (mem_successors_empty2 (by omega) (X + y - Y))
      have h4 := EPath.move h3 (mem_successors_other (X := X) (Y := Y) (p := (X + y - Y, 0))
        (by simp; omega) (by simp; omega))
      have ho2 : OtherEnd X Y { pos := (X + y - Y, 0), prev := (X + y - Y, 0), depth := 0 } =
          (0, X + y - Y) := by
        unfold OtherEnd
        simp only
        rw [if_neg (by omega), if_pos (by omega), if_neg (by omega)]
      rw [ho2] at h4
      exact ⟨_, X + y - Y, h4, by omega, by omega, ⟨1, by ring⟩⟩

theorem EPath_mul {X Y : Int} (hX : 1 ≤ X) (hXY : X ≤ Y) (k : Nat) :
    ∃ m y, EPath X Y m (0, y) ∧ 0 ≤ y ∧ y ≤ Y ∧ Y ∣ ((k : Int) * X - y) := by
  induction k with
  | zero => exact ⟨0, 0, EPath.origin, le_refl _, by omega, ⟨0, by ring⟩⟩
  | succ k ih =>
    obtain ⟨m, y, h1, h2, h3, h4⟩ := ih
    obtain ⟨m1, y1, g1, g2, g3, g4⟩ := EPath_add hX hXY h1 h2 h3
    refine ⟨m1, y1, g1, g2, g3, ?_⟩
    have : ((k + 1 : Nat) : Int) * X - y1 = ((k : Int) * X - y) + (y + X - y1) := by
      push_cast
      ring
    rw [this]
    exact dvd_add h4 g4

/-- With coprime capacities every volume up to `Y` can be brought into jug 2 alone. -/
theorem EPath_second {X Y : Int} (hX : 1 ≤ X) (hXY : X ≤ Y) (hco : Int.gcd X Y = 1)
    {s : Int} (hs0 : 0 ≤ s) (hsY : s ≤ Y) : ∃ n, EPath X Y n (0, s) := by
  by_cases h0 : s = 0
  · subst h0
    exact ⟨0, EPath.origin⟩
  by_cases hY : s = Y
  · subst hY
    exact ⟨1, EPath.move EPath.origin (mem_successors_fill2 X s 0)⟩
  have hbez := Int.gcd_eq_gcd_ab X Y
  rw [hco] at hbez
  have hYpos : 0 < Y := by omega
  have hk0 : 0 ≤ (Int.gcdA X Y * s) % Y := Int.emod_nonneg _ (by omega)
  obtain ⟨m, y, h1, h2, h3, h4⟩ := EPath_mul hX hXY ((Int.gcdA X Y * s) % Y).toNat
  rw [Int.toNat_of_nonneg hk0] at h4
  have hdiv : Y ∣ (Int.gcdA X Y * s) % Y * X - s := by
    have e1 : (Int.gcdA X Y * s) % Y = Int.gcdA X Y * s - Y * ((Int.gcdA X Y * s) / Y) := by
      have := Int.emod_add_ediv (Int.gcdA X Y * s) Y
      omega
    have hb : X * Int.gcdA X Y + Y * Int.gcdB X Y = 1 := by
      rw [← hbez]
      simp
    refine ⟨-(((Int.gcdA X Y * s) / Y) * X) - Int.gcdB X Y * s, ?_⟩
    rw [e1]
    linear_combination s * hb
  have hsy : Y ∣ s - y := by
    have : s - y = ((Int.gcdA X Y * s) % Y * X - y) - ((Int.gcdA X Y * s) % Y * X - s) := by
      ring
    rw [this]
    exact dvd_sub h4 hdiv
  obtain ⟨c, hc⟩ := hsy
  have hc0 : c = 0 := by
    by_contra hne
    have : c ≤ -1 ∨ 1 ≤ c := by omega
    rcases this with hneg | hpos
    · have : Y * c ≤ Y * (-1) := Int.mul_le_mul_of_nonneg_left hneg (by omega)
      omega
    · have : Y * 1 ≤ Y * c := Int.mul_le_mul_of_nonneg_left hpos (by omega)
      omega
  rw [hc0] at hc
  have : y = s := by omega
  subst this
  exact ⟨m, h1⟩

/-- With coprime capacities the engine moves reach every total in `[0, X + Y]`. -/
theorem EPath_total {X Y : Int} (hX : 1 ≤ X) (hXY : X ≤ Y) (hco : Int.gcd X Y = 1)
    {t : Int} (ht0 : 0 ≤ t) (htF : t ≤ X + Y) : ∃ n q, EPath X Y n q ∧ total q = t := by
  by_cases hle : t ≤ Y
  · obtain ⟨n, h⟩ := EPath_second hX hXY hco ht0 hle
    exact ⟨n, (0, t), h, by simp [total]⟩
  · obtain ⟨n, h⟩ := EPath_second hX hXY hco (s := t - X) (by omega) (by omega)
    exact ⟨n + 1, (X, t - X), EPath.move h (mem_successors_fill1 X Y (t - X)),
      by simp [total]⟩

theorem gcd_facts {X Y : Int} (hX : 0 < X) (hY : 0 < Y) :
    1 ≤ gcd X Y ∧ gcd X Y = (Int.gcd X Y : Int) ∧ X.tdiv (gcd X Y) * gcd X Y = X ∧
    Y.tdiv (gcd X Y) * gcd X Y = Y ∧ 1 ≤ X.tdiv (gcd X Y) ∧ 1 ≤ Y.tdiv (gcd X Y) ∧
    Int.gcd (X.tdiv (gcd X Y)) (Y.tdiv (gcd X Y)) = 1 := by
  have hg := gcd_eq_of_pos X Y hX hY
  have hpos : 0 < Int.gcd X Y := Int.gcd_pos_of_ne_zero_left Y (by omega)
  have hgpos : (0 : Int) < (Int.gcd X Y : Int) := by exact_mod_cast hpos
  have hdX : (Int.gcd X Y : Int) ∣ X := Int.gcd_dvd_left
  have hdY : (Int.gcd X Y : Int) ∣ Y := Int.gcd_dvd_right
  have hX1 : X.tdiv (Int.gcd X Y) = X / (Int.gcd X Y : Int) :=
    Int.tdiv_eq_ediv (by omega) (by omega)
  have hY1 : Y.tdiv (Int.gcd X Y) = Y / (Int.gcd X Y : Int) :=
    Int.tdiv_eq_ediv (by omega) (by omega)
  have hX2 : X / (Int.gcd X Y : Int) * (Int.gcd X Y : Int) = X := Int.ediv_mul_cancel hdX
  have hY2 : Y / (Int.gcd X Y : Int) * (Int.gcd X Y : Int) = Y := Int.ediv_mul_cancel hdY
  rw [hg, hX1, hY1]
  refine ⟨by omega, rfl, hX2, hY2, ?_, ?_, Int.gcd_div_gcd_div_gcd hpos⟩
  · by_contra h
    have h0 : X / (Int.gcd X Y : Int) ≤ 0 := by omega
    have := Int.mul_le_mul_of_nonneg_right h0 (le_of_lt hgpos)
    rw [hX2] at this
    omega
  · by_contra h
    have h0 : Y / (Int.gcd X Y : Int) ≤ 0 := by omega
    have := Int.mul_le_mul_of_nonneg_right h0 (le_of_lt hgpos)
    rw [hY2] at this
    omega

theorem engXY_facts {X Y : Int} (hX : 0 < X) (hY : 0 < Y) :
    1 ≤ engX X Y ∧ engX X Y ≤ engY X Y ∧ Int.gcd (engX X Y) (engY X Y) = 1 ∧
    engX X Y * gcd X Y = min X Y ∧ engY X Y * gcd X Y = max X Y ∧
    engX X Y + engY X Y = X.tdiv (gcd X Y) + Y.tdiv (gcd X Y) := by
  obtain ⟨h1, _, h3, h4, h5, h6, h7⟩ := gcd_facts hX hY
  unfold engX engY
  have hmono : ∀ a b : Int, a ≤ b → a * gcd X Y ≤ b * gcd X Y :=
    fun a b hab => Int.mul_le_mul_of_nonneg_right hab (by omega)
  rcases le_total (X.tdiv (gcd X Y)) (Y.tdiv (gcd X Y)) with h | h
  · have := hmono _ _ h
    rw [h3, h4] at this
    rw [min_eq_left h, max_eq_right h, min_eq_left this, max_eq_right this]
    exact ⟨h5, h, h7, h3, h4, rfl⟩
  · have := hmono _ _ h
    rw [h3, h4] at this
    rw [min_eq_right h, max_eq_left h, min_eq_right this, max_eq_left this]
    exact ⟨h6, h, by rw [Int.gcd_comm]; exact h7, h4, h3, by ring⟩

theorem rescale_one (path : Path) : rescale 1 path = path := by
  unfold rescale
  simp

/-- The three ways a call of `WaterJugSolver::Solve` can return. -/
theorem WaterJugSolver.Solve_cases {w w1 : WaterJugSolver} {fuel : Nat} {t : Int}
    {path p1 : Path} {b : Bool} (h : w.Solve fuel t path = some (w1, b, p1)) :
    ((t < 0 ∨ t > w.F_ ∨ (w.r_ > 1 ∧ t.tmod w.r_ ≠ 0)) ∧ w1 = w ∧ b = false ∧ p1 = path) ∨
    (¬ (t < 0 ∨ t > w.F_ ∨ (w.r_ > 1 ∧ t.tmod w.r_ ≠ 0)) ∧
      ∃ e1 p2, w.algo.Solve fuel (t.tdiv w.r_) path = some (e1, b, p2) ∧
        w1 = { w with algo := e1 } ∧ p1 = if b = true then rescale w.r_ p2 else p2) := by
  unfold WaterJugSolver.Solve at h
  by_cases h1 : t < 0 ∨ t > w.F_
  · rw [if_pos h1] at h
    injection h with h
    injection h with a1 a2
    injection a2 with a2 a3
    exact Or.inl ⟨by tauto, a1.symm, a2.symm, a3.symm⟩
  · rw [if_neg h1] at h
    by_cases h2 : w.r_ > 1 ∧ t.tmod w.r_ ≠ 0
    · rw [if_pos h2] at h
      injection h with h
      injection h with a1 a2
      injection a2 with a2 a3
      exact Or.inl ⟨by tauto, a1.symm, a2.symm, a3.symm⟩
    · rw [if_neg h2, Option.bind_eq_some] at h
      obtain ⟨⟨e1, b2, p2⟩, hr, h⟩ := h
      refine Or.inr ⟨by tauto, e1, p2, ?_⟩
      simp only at h
      cases b2 with
      | false =>
        simp only [if_true] at h
        injection h with h
        injection h with a1 a2
        injection a2 with a2 a3
        subst a1; subst a2; subst a3
        exact ⟨hr, rfl, by simp⟩
      | true =>
        simp only [Bool.true_eq_false, if_false] at h
        by_cases hr1 : w.r_ ≠ 1
        · rw [if_pos hr1] at h
          injection h with h
          injection h with a1 a2
          injection a2 with a2 a3
          subst a1; subst a2; subst a3
          exact ⟨hr, rfl, by simp⟩
        · rw [if_neg hr1] at h
          injection h with h
          injection h with a1 a2
          injection a2 with a2 a3
          subst a1; subst a2; subst a3
          have : w.r_ = 1 := by omega
          exact ⟨hr, rfl, by simp [this, rescale_one]⟩

theorem Reachable.inv {X Y : Int} (hX : 0 < X) (hY : 0 < Y) {w : WaterJugSolver}
    (h : Reachable X Y w) :
    w.F_ = wrapInt (X + Y) ∧ w.r_ = gcd X Y ∧ Inv w.algo ∧
    Bfs w.algo w.algo.queue_start_ ∧ w.algo.X_ = engX X Y ∧ w.algo.Y_ = engY X Y := by
  obtain ⟨_, _, _, _, h5, h6, _⟩ := gcd_facts hX hY
  induction h with
  | fresh hc =>
    unfold WaterJugSolver.construct at hc
    rw [Option.map_eq_some'] at hc
    obtain ⟨a, ha, rfl⟩ := hc
    obtain ⟨e0, h0, hI, hB, hq, hx, hy⟩ := construct_spec h5 h6 (construct_bound ha)
    rw [h0] at ha
    injection ha with ha
    subst ha
    refine ⟨rfl, rfl, hI, ?_, hx, hy⟩
    show Bfs e0 e0.queue_start_
    rw [hq]
    exact hB
  | call _ hs ih =>
    obtain ⟨hF, hr, hI, hB, hx, hy⟩ := ih
    rcases WaterJugSolver.Solve_cases hs with ⟨_, rfl, _, _⟩ | ⟨_, e1, p2, he, rfl, _⟩
    · exact ⟨hF, hr, hI, hB, hx, hy⟩
    · obtain ⟨hI1, hB1, hx1, hy1, _⟩ := Solve_some_spec hI hB he
      exact ⟨hF, hr, hI1, hB1, hx1.trans hx, hy1.trans hy⟩

/-! ## Outcome of `WaterJugSolver::Solve` in reachable states -/

theorem guard_iff {X Y : Int} (hX : 0 < X) (hY : 0 < Y) (t : Int) :
    (t < 0 ∨ t > X + Y ∨ (gcd X Y > 1 ∧ t.tmod (gcd X Y) ≠ 0)) ↔ ¬ Solvable X Y t := by
  obtain ⟨h1, h2, _⟩ := gcd_facts hX hY
  unfold Solvable
  rw [← h2]
  by_cases ht : t < 0
  · constructor
    · intro _ h
      omega
    · intro _
      exact Or.inl ht
  · have hmod : t.tmod (gcd X Y) = t % gcd X Y := Int.tmod_eq_emod (by omega) (by omega)
    rw [hmod, Int.dvd_iff_emod_eq_zero]
    by_cases hg : gcd X Y > 1
    · constructor
      · rintro (h | h | h) <;> intro hs <;> omega
      · intro h
        by_contra hc
        apply h
        refine ⟨by omega, by omega, ?_⟩
        by_contra hm
        exact hc (Or.inr (Or.inr ⟨hg, hm⟩))
    · have hg1 : gcd X Y = 1 := by omega
      rw [hg1]
      constructor
      · rintro (h | h | h) <;> intro hs <;> omega
      · intro h
        by_contra hc
        apply h
        exact ⟨by omega, by omega, by omega⟩

/-- The guards of `WaterJugSolver::Solve` with the stored, possibly wrapped sum. -/
theorem guard_wrap_iff {X Y : Int} (hX : 0 < X) (hY : 0 < Y) (t : Int) :
    (t < 0 ∨ t > wrapInt (X + Y) ∨ (gcd X Y > 1 ∧ t.tmod (gcd X Y) ≠ 0)) ↔
      ¬ (Solvable X Y t ∧ t ≤ wrapInt (X + Y)) := by
  have hle : wrapInt (X + Y) ≤ X + Y := wrapInt_le (by omega)
  have hg := guard_iff hX hY t
  constructor
  · rintro (h | h | h)
    · rintro ⟨hs, _⟩
      exact hg.mp (Or.inl h) hs
    · rintro ⟨_, hs⟩
      omega
    · rintro ⟨hs, _⟩
      exact hg.mp (Or.inr (Or.inr h)) hs
  · intro h
    by_cases hF : t ≤ wrapInt (X + Y)
    · have hns : ¬ Solvable X Y t := fun hs => h ⟨hs, hF⟩
      rcases hg.mpr hns with h1 | h1 | h1
      · exact Or.inl h1
      · exact Or.inr (Or.inl (by omega))
      · exact Or.inr (Or.inr h1)
    · exact Or.inr (Or.inl (by omega))

theorem Solvable.target {X Y : Int} (hX : 0 < X) (hY : 0 < Y) {t : Int}
    (h : Solvable X Y t) :
    t.tdiv (gcd X Y) * gcd X Y = t ∧ 0 ≤ t.tdiv (gcd X Y) ∧
    t.tdiv (gcd X Y) ≤ engX X Y + engY X Y := by
  obtain ⟨h1, h2, h3, h4, h5, h6, _⟩ := gcd_facts hX hY
  obtain ⟨_, _, _, _, _, hsum⟩ := engXY_facts hX hY
  obtain ⟨t0, tF, td⟩ := h
  rw [← h2] at td
  have hdiv : t.tdiv (gcd X Y) = t / gcd X Y := Int.tdiv_eq_ediv t0 (by omega)
  have hmul : t / gcd X Y * gcd X Y = t := Int.ediv_mul_cancel td
  rw [hsum, hdiv]
  refine ⟨hmul, ?_, ?_⟩
  · by_contra hneg
    have h0 : t / gcd X Y ≤ -1 := by omega
    have := Int.mul_le_mul_of_nonneg_right h0 (show (0 : Int) ≤ gcd X Y by omega)
    rw [hmul] at this
    omega
  · by_contra hbig
    have h0 : X.tdiv (gcd X Y) + Y.tdiv (gcd X Y) + 1 ≤ t / gcd X Y := by omega
    have := Int.mul_le_mul_of_nonneg_right h0 (show (0 : Int) ≤ gcd X Y by omega)
    rw [hmul, add_mul, add_mul, h3, h4] at this
    omega

theorem mul_gcd_cancel {X Y : Int} (hX : 0 < X) (hY : 0 < Y) {a b : Int}
    (h : a * gcd X Y = b * gcd X Y) : a = b := by
  have h1 := (gcd_facts hX hY).1
  exact Int.eq_of_mul_eq_mul_right (by omega) h

/-- Properties of every result of `WaterJugSolver::Solve` in a reachable state. -/
theorem Solver_some_spec {X Y : Int} (hX : 0 < X) (hY : 0 < Y) {w w1 : WaterJugSolver}
    (hw : Reachable X Y w) {fuel : Nat} {t : Int} {path p1 : Path} {b : Bool}
    (h : w.Solve fuel t path = some (w1, b, p1)) :
    (b = true ↔ Solvable X Y t ∧ t ≤ wrapInt (X + Y)) ∧
    (b = false → p1 = path ∧ w1 = w) ∧ (b = true → Answer X Y t p1) := by
  obtain ⟨hF, hr, hI, hB, hx, hy⟩ := hw.inv hX hY
  obtain ⟨g1, g2, g3, g4, g5, g6⟩ := engXY_facts hX hY
  have hguard := guard_wrap_iff hX hY t
  rcases WaterJugSolver.Solve_cases h with ⟨hg, rfl, rfl, rfl⟩ | ⟨hg, e1, p2, he, rfl, hp⟩
  · rw [hF, hr] at hg
    refine ⟨⟨fun hb => absurd hb (by simp), fun hs => absurd hs (hguard.mp hg)⟩,
      fun _ => ⟨rfl, rfl⟩, fun hb => absurd hb (by simp)⟩
  · rw [hF, hr] at hg
    have hboth : Solvable X Y t ∧ t ≤ wrapInt (X + Y) := by
      by_contra hn
      exact hg (hguard.mpr hn)
    have hsolv : Solvable X Y t := hboth.1
    obtain ⟨ht1, ht2, ht3⟩ := hsolv.target hX hY
    rw [hr] at he hp
    obtain ⟨hI1, hB1, hx1, hy1, hfalse, htrue, _⟩ := Solve_some_spec hI hB he
    cases b with
    | false =>
      exfalso
      obtain ⟨_, hdone, hno⟩ := hfalse rfl
      have hnone := not_found_spec hI1 hB1 hdone hno
      rw [hx1, hy1, hx, hy] at hnone
      obtain ⟨n, q, hq, hqt⟩ := EPath_total g1 g2 g3 ht2 ht3
      exact hnone n q hq hqt
    | true =>
      refine ⟨⟨fun _ => hboth, fun _ => rfl⟩, fun hb => absurd hb (by simp), fun _ => ?_⟩
      obtain ⟨d, q, a1, a2, a3, a4, a5, a6, a7⟩ := (htrue rfl).spec hI1 hB1
      rw [hx1, hy1, hx, hy] at a5 a6 a7
      refine ⟨p2, d, q, by simpa using hp, a1, a2, a3, by rw [a4]; exact ht1, a5, a6, ?_⟩
      intro n r hr1 hr2
      apply a7 n r hr1
      rw [← ht1] at hr2
      exact mul_gcd_cancel hX hY hr2

/-- With an iteration budget of `2 * (X + Y)` the call returns a result. -/
theorem Solver_total {X Y : Int} (hX : 0 < X) (hY : 0 < Y) {w : WaterJugSolver}
    (hw : Reachable X Y w) {fuel : Nat} (hf : 2 * (X + Y) ≤ fuel) (t : Int) (path : Path) :
    ∃ w1 b p1, w.Solve fuel t path = some (w1, b, p1) := by
  obtain ⟨hF, hr, hI, hB, hx, hy⟩ := hw.inv hX hY
  obtain ⟨h1, h2, h3, h4, h5, h6, _⟩ := gcd_facts hX hY
  obtain ⟨_, _, _, _, _, hsum⟩ := engXY_facts hX hY
  have hXle : X.tdiv (gcd X Y) ≤ X := by
    have := Int.mul_le_mul_of_nonneg_left h1 (show (0 : Int) ≤ X.tdiv (gcd X Y) by omega)
    rw [h3] at this
    omega
  have hYle : Y.tdiv (gcd X Y) ≤ Y := by
    have := Int.mul_le_mul_of_nonneg_left h1 (show (0 : Int) ≤ Y.tdiv (gcd X Y) by omega)
    rw [h4] at this
    omega
  obtain ⟨e1, b, p1, he, _⟩ := Solve_spec hI hB fuel (t.tdiv w.r_) path
    (by rw [hx, hy, hsum]; omega)
  unfold WaterJugSolver.Solve
  by_cases c1 : t < 0 ∨ t > w.F_
  · rw [if_pos c1]
    exact ⟨_, _, _, rfl⟩
  · rw [if_neg c1]
    by_cases c2 : w.r_ > 1 ∧ t.tmod w.r_ ≠ 0
    · rw [if_pos c2]
      exact ⟨_, _, _, rfl⟩
    · rw [if_neg c2, he]
      simp only [Option.some_bind]
      split_ifs <;> exact ⟨_, _, _, rfl⟩

theorem Solver_mono {w : WaterJugSolver} {fuel fuel1 : Nat} {t : Int} {path : Path}
    {r : WaterJugSolver × Bool × Path} (h : w.Solve fuel t path = some r)
    (hle : fuel ≤ fuel1) : w.Solve fuel1 t path = some r := by
  unfold WaterJugSolver.Solve at h ⊢
  by_cases c1 : t < 0 ∨ t > w.F_
  · rw [if_pos c1] at h ⊢
    exact h
  · rw [if_neg c1] at h ⊢
    by_cases c2 : w.r_ > 1 ∧ t.tmod w.r_ ≠ 0
    · rw [if_pos c2] at h ⊢
      exact h
    · rw [if_neg c2] at h ⊢
      rw [Option.bind_eq_some] at h ⊢
      obtain ⟨a, ha, h⟩ := h
      exact ⟨a, Solve_mono ha hle, h⟩

/-- The length of an answer is determined by the capacities and the target. -/
theorem Answer.length_unique {X Y t : Int} {p1 p2 : Path} (h1 : Answer X Y t p1)
    (h2 : Answer X Y t p2) : p1.length = p2.length := by
  obtain ⟨a, d, q, a0, a1, _, _, a4, _, a6, a7⟩ := h1
  obtain ⟨b, d1, q1, b0, b1, _, _, b4, _, b6, b7⟩ := h2
  have e1 := a7 d1 q1 b6 b4
  have e2 := b7 d q a6 a4
  rw [a0, b0]
  unfold rescale
  simp only [List.length_map]
  omega

theorem Solver_guard {w : WaterJugSolver} {t : Int}
    (hg : t < 0 ∨ t > w.F_ ∨ (w.r_ > 1 ∧ t.tmod w.r_ ≠ 0)) (fuel : Nat) (path : Path) :
    w.Solve fuel t path = some (w, false, path) := by
  unfold WaterJugSolver.Solve
  by_cases c1 : t < 0 ∨ t > w.F_
  · rw [if_pos c1]
  · rw [if_neg c1, if_pos (by tauto)]

/-- Two flags decided by the same condition are equal. -/
theorem flag_eq {b b2 : Bool} {P : Prop} (h1 : b = true ↔ P) (h2 : b2 = true ↔ P) :
    b2 = b := by
  cases b
  · cases b2
    · rfl
    · exact absurd (h1.mpr (h2.mp rfl)) (by simp)
  · cases b2
    · exact absurd (h2.mpr (h1.mp rfl)) (by simp)
    · rfl

/-- When `X + Y` does not fit `int`, the stored sum is negative and every target is
rejected by the first guard of `WaterJugSolver::Solve`. -/
theorem Solver_overflow {X Y : Int} (hX : 0 < X) (hY : 0 < Y) (hXm : X ≤ INT_MAX)
    (hYm : Y ≤ INT_MAX) (hF : INT_MAX < X + Y) {w : WaterJugSolver} (hw : Reachable X Y w)
    (fuel : Nat) (t : Int) (path : Path) :
    w.F_ < 0 ∧ w.Solve fuel t path = some (w, false, path) := by
  obtain ⟨h1, _⟩ := hw.inv hX hY
  have hneg : w.F_ < 0 := by
    rw [h1]
    exact wrapInt_neg hF (by omega)
  refine ⟨hneg, Solver_guard ?_ fuel path⟩
  by_cases ht : t < 0
  · exact Or.inl ht
  · exact Or.inr (Or.inl (by omega))

/-! ## Engine moves and legal moves of the puzzle -/

theorem EngineMove.legal {X Y : Int} (hX : 1 ≤ X) (hXY : X ≤ Y) {p q : Pos}
    (h : EngineMove X Y p q) : LegalMove X Y p q := by
  obtain ⟨hp, hq⟩ := h
  obtain ⟨a, b⟩ := p
  obtain ⟨c, d⟩ := q
  unfold Canon at hp
  unfold successors OtherEnd at hq
  unfold LegalMove
  simp only [List.mem_append] at hq
  simp only [Prod.mk.injEq] at hp ⊢
  rcases hq with hq | hq | hq <;> split_ifs at hq <;>
    simp only [List.mem_singleton, List.not_mem_nil, Prod.mk.injEq] at hq <;> omega

theorem LegalMove.cases_aux {X Y : Int} (hX : 1 ≤ X) (hXY : X ≤ Y) {a b c d : Int}
    (hp : Canon X Y (a, b)) (hs : (c, d) ∉ successors X Y (a, b)) (hqp : (c, d) ≠ (a, b))
    (h : (c = X ∧ d = b) ∨ (c = a ∧ d = Y) ∨ (c = 0 ∧ d = b) ∨ (c = a ∧ d = 0) ∨
      (c = a - min a (Y - b) ∧ d = b + min a (Y - b)) ∨
      (c = a + min b (X - a) ∧ d = b - min b (X - a))) :
    ((c = 0 ∨ c = X) ∧ (d = 0 ∨ d = Y)) ∧ ¬ ((a = 0 ∨ a = X) ∧ (b = 0 ∨ b = Y)) := by
  unfold Canon at hp
  unfold successors OtherEnd at hs
  simp only [List.mem_append, not_or] at hs
  simp only [Prod.mk.injEq, ne_eq] at hp hqp
  obtain ⟨hs1, hs2, hs3⟩ := hs
  have hmin1 : (min a (Y - b) = a ∧ a ≤ Y - b) ∨ (min a (Y - b) = Y - b ∧ Y - b ≤ a) := by
    omega
  have hmin2 : (min b (X - a) = b ∧ b ≤ X - a) ∨ (min b (X - a) = X - a ∧ X - a ≤ b) := by
    omega
  obtain ⟨p1, p2, p3, p4, p5⟩ := hp
  rcases h with ⟨hc, hd⟩ | ⟨hc, hd⟩ | ⟨hc, hd⟩ | ⟨hc, hd⟩ | ⟨hc, hd⟩ | ⟨hc, hd⟩ <;>
    subst c <;> subst d
  · -- fill jug 1
    clear hs2 hs3 hmin1 hmin2
    split_ifs at hs1 <;>
      simp only [List.mem_singleton, List.not_mem_nil, Prod.mk.injEq, not_false_eq_true,
        and_self, and_true, true_and, not_true_eq_false] at hs1 <;> omega
  · -- fill jug 2
    clear hs1 hs3 hmin1 hmin2
    split_ifs at hs2 <;>
      simp only [List.mem_singleton, List.not_mem_nil, Prod.mk.injEq, not_false_eq_true,
        and_self, and_true, true_and, not_true_eq_false] at hs2 <;> omega
  · -- empty jug 1
    clear hs2 hs3 hmin1 hmin2
    split_ifs at hs1 <;>
      simp only [List.mem_singleton, List.not_mem_nil, Prod.mk.injEq, not_false_eq_true,
        and_self, and_true, true_and, not_true_eq_false] at hs1 <;> omega
  · -- empty jug 2
    clear hs1 hs3 hmin1 hmin2
    split_ifs at hs2 <;>
      simp only [List.mem_singleton, List.not_mem_nil, Prod.mk.injEq, not_false_eq_true,
        and_self, and_true, true_and, not_true_eq_false] at hs2 <;> omega
  · -- pour jug 1 into jug 2
    clear hs1 hs2 hmin2
    rcases hmin1 with ⟨hm, hm1⟩ | ⟨hm, hm1⟩ <;> rw [hm] at hs3 hqp ⊢ <;> clear hm <;>
      split_ifs at hs3 <;>
      simp only [List.mem_singleton, List.not_mem_nil, Prod.mk.injEq, not_false_eq_true,
        and_self, and_true, true_and, not_true_eq_false] at hs3 <;> omega
  · -- pour jug 2 into jug 1
    clear hs1 hs2 hmin1
    rcases hmin2 with ⟨hm, hm1⟩ | ⟨hm, hm1⟩ <;> rw [hm] at hs3 hqp ⊢ <;> clear hm <;>
      split_ifs at hs3 <;>
      simp only [List.mem_singleton, List.not_mem_nil, Prod.mk.injEq, not_false_eq_true,
        and_self, and_true, true_and, not_true_eq_false] at hs3 <;> omega

theorem LegalMove.cases {X Y : Int} (hX : 1 ≤ X) (hXY : X ≤ Y) {p q : Pos}
    (hp : Canon X Y p) (h : LegalMove X Y p q) :
    EngineMove X Y p q ∨ q = p ∨ (Corner X Y q ∧ ¬ Corner X Y p) := by
  by_cases hs : q ∈ successors X Y p
  · exact Or.inl ⟨hp, hs⟩
  by_cases hqp : q = p
  · exact Or.inr (Or.inl hqp)
  refine Or.inr (Or.inr ?_)
  obtain ⟨a, b⟩ := p
  obtain ⟨c, d⟩ := q
  unfold LegalMove at h
  simp only [Prod.mk.injEq] at h
  exact LegalMove.cases_aux hX hXY hp hs hqp h

theorem EPath_corner {X Y : Int} {c : Pos} (hc : Corner X Y c) :
    ∃ m, m ≤ 2 ∧ EPath X Y m c := by
  obtain ⟨a, b⟩ := c
  unfold Corner at hc
  simp only at hc
  have h10 : EPath X Y 1 (X, 0) := EPath.move EPath.origin (mem_successors_fill1 X Y 0)
  rcases hc with ⟨ha | ha, hb | hb⟩ <;> subst a <;> subst b
  · exact ⟨0, by omega, EPath.origin⟩
  · exact ⟨1, by omega, EPath.move EPath.origin (mem_successors_fill2 X Y 0)⟩
  · exact ⟨1, by omega, h10⟩
  · exact ⟨2, by omega, EPath.move h10 (mem_successors_fill2 X Y X)⟩

theorem EPath.two_le {X Y : Int} {m : Nat} {p : Pos} (h : EPath X Y m p)
    (hp : ¬ Corner X Y p) : 2 ≤ m := by
  cases h with
  | origin =>
    exfalso
    apply hp
    unfold Corner
    simp
  | move h1 hq =>
    cases h1 with
    | origin =>
      exfalso
      apply hp
      unfold successors at hq
      simp at hq
      unfold Corner
      rcases hq with hq | hq <;> subst hq <;> simp
    | move _ _ => omega

/-- Every position that legal moves reach is reached by at most as many engine
moves: a legal move the engine does not try leads to a corner, and a corner is at
most two engine moves from the origin. -/
theorem FPath.toEPath {X Y : Int} (hX : 1 ≤ X) (hXY : X ≤ Y) {n : Nat} {q : Pos}
    (h : FPath X Y n q) : ∃ m, m ≤ n ∧ EPath X Y m q := by
  induction h with
  | origin => exact ⟨0, le_refl _, EPath.origin⟩
  | @move n p q _ hl ih =>
    obtain ⟨m, hm, hp⟩ := ih
    rcases hl.cases hX hXY (hp.canon hX hXY) with h1 | h1 | ⟨h1, h2⟩
    · exact ⟨m + 1, by omega, EPath.move hp h1.2⟩
    · subst h1
      exact ⟨m, by omega, hp⟩
    · obtain ⟨k, hk, hq⟩ := EPath_corner h1
      have := hp.two_le h2
      exact ⟨k, by omega, hq⟩

theorem LegalMove.scale {X Y g : Int} (hg : 0 ≤ g) {p q : Pos} (h : LegalMove X Y p q) :
    LegalMove (X * g) (Y * g) (p.1 * g, p.2 * g) (q.1 * g, q.2 * g) := by
  obtain ⟨a, b⟩ := p
  unfold LegalMove at h ⊢
  simp only at h ⊢
  have m1 : min (a * g) (Y * g - b * g) = min a (Y - b) * g := by
    rw [← sub_mul, min_mul_of_nonneg _ _ hg]
  have m2 : min (b * g) (X * g - a * g) = min b (X - a) * g := by
    rw [← sub_mul, min_mul_of_nonneg _ _ hg]
  rw [m1, m2]
  rcases h with h | h | h | h | h | h <;> subst h
  · exact Or.inl rfl
  · exact Or.inr (Or.inl rfl)
  · exact Or.inr (Or.inr (Or.inl (Prod.ext (zero_mul g) rfl)))
  · exact Or.inr (Or.inr (Or.inr (Or.inl (Prod.ext rfl (zero_mul g)))))
  · exact Or.inr (Or.inr (Or.inr (Or.inr (Or.inl (Prod.ext (sub_mul _ _ _) (add_mul _ _ _))))))
  · exact Or.inr (Or.inr (Or.inr (Or.inr (Or.inr (Prod.ext (add_mul _ _ _) (sub_mul _ _ _))))))

theorem LegalMove.unscale {X Y g : Int} (hg : 0 ≤ g) {p q : Pos}
    (h : LegalMove (X * g) (Y * g) (p.1 * g, p.2 * g) q) :
    ∃ q1 : Pos, q = (q1.1 * g, q1.2 * g) ∧ LegalMove X Y p q1 := by
  obtain ⟨a, b⟩ := p
  unfold LegalMove at h
  simp only at h
  have m1 : min (a * g) (Y * g - b * g) = min a (Y - b) * g := by
    rw [← sub_mul, min_mul_of_nonneg _ _ hg]
  have m2 : min (b * g) (X * g - a * g) = min b (X - a) * g := by
    rw [← sub_mul, min_mul_of_nonneg _ _ hg]
  rw [m1, m2] at h
  unfold LegalMove
  rcases h with h | h | h | h | h | h <;> subst h
  · exact ⟨(X, b), rfl, Or.inl rfl⟩
  · exact ⟨(a, Y), rfl, Or.inr (Or.inl rfl)⟩
  · exact ⟨(0, b), Prod.ext (zero_mul g).symm rfl, Or.inr (Or.inr (Or.inl rfl))⟩
  · exact ⟨(a, 0), Prod.ext rfl (zero_mul g).symm, Or.inr (Or.inr (Or.inr (Or.inl rfl)))⟩
  · exact ⟨(a - min a (Y - b), b + min a (Y - b)),
      Prod.ext (sub_mul _ _ _).symm (add_mul _ _ _).symm,
      Or.inr (Or.inr (Or.inr (Or.inr (Or.inl rfl))))⟩
  · exact ⟨(a + min b (X - a), b - min b (X - a)),
      Prod.ext (add_mul _ _ _).symm (sub_mul _ _ _).symm,
      Or.inr (Or.inr (Or.inr (Or.inr (Or.inr rfl))))⟩

theorem LegalMove.swap {X Y : Int} {p q : Pos} (h : LegalMove X Y p q) :
    LegalMove Y X (p.2, p.1) (q.2, q.1) := by
  obtain ⟨a, b⟩ := p
  unfold LegalMove at h ⊢
  simp only at h ⊢
  rcases h with h | h | h | h | h | h <;> subst h
  · exact Or.inr (Or.inl rfl)
  · exact Or.inl rfl
  · exact Or.inr (Or.inr (Or.inr (Or.inl rfl)))
  · exact Or.inr (Or.inr (Or.inl rfl))
  · exact Or.inr (Or.inr (Or.inr (Or.inr (Or.inr rfl))))
  · exact Or.inr (Or.inr (Or.inr (Or.inr (Or.inl rfl))))

theorem FPath.divide {X Y g : Int} (hg : 0 < g) {n : Nat} {q : Pos}
    (h : FPath (X * g) (Y * g) n q) :
    ∃ q1 : Pos, q = (q1.1 * g, q1.2 * g) ∧ FPath X Y n q1 := by
  induction h with
  | origin => exact ⟨(0, 0), by simp, FPath.origin⟩
  | move _ hl ih =>
    obtain ⟨p1, rfl, hp1⟩ := ih
    obtain ⟨q1, hq1, hl1⟩ := hl.unscale (le_of_lt hg)
    exact ⟨q1, hq1, FPath.move hp1 hl1⟩

theorem FPath.exchange {X Y : Int} {n : Nat} {q : Pos} (h : FPath X Y n q) :
    FPath Y X n (q.2, q.1) := by
  induction h with
  | origin => exact FPath.origin
  | move _ hl ih => exact FPath.move ih hl.swap

/-- A valid path of the puzzle, read as a number of legal moves to its last position. -/
theorem FPath_of_valid {X Y : Int} : ∀ (seq : Path) (q : Pos), ValidPath X Y seq →
    seq.getLast? = some q → ∃ n, seq.length = n + 1 ∧ FPath X Y n q := by
  intro seq
  induction seq using List.reverseRecOn with
  | nil =>
    intro q _ hl
    simp at hl
  | append_singleton l a ih =>
    intro q hv hl
    rw [List.getLast?_concat] at hl
    injection hl with hl
    subst hl
    obtain ⟨hh, hc⟩ := hv
    rcases List.eq_nil_or_concat l with hnil | ⟨l1, b, hl1⟩
    · subst hnil
      simp at hh
      subst hh
      exact ⟨0, rfl, FPath.origin⟩
    · rw [List.concat_eq_append] at hl1
      subst hl1
      rw [List.chain'_append] at hc
      obtain ⟨c1, _, c3⟩ := hc
      have hb : (l1 ++ [b]).getLast? = some b := List.getLast?_concat l1
      have hhead : (l1 ++ [b]).head? = some (0, 0) := by
        rw [List.head?_append_of_ne_nil _ (by simp)] at hh
        exact hh
      obtain ⟨n, hn, hp⟩ := ih b ⟨hhead, c1⟩ hb
      refine ⟨n + 1, by simp at hn ⊢; omega, FPath.move hp ?_⟩
      exact c3 b (by rw [hb]; rfl) a (by simp)

theorem ValidPath.exchange_jugs {X Y : Int} {seq : Path} (h : ValidPath X Y seq) :
    ValidPath Y X (seq.map fun p => (p.2, p.1)) := by
  obtain ⟨hh, hc⟩ := h
  refine ⟨by rw [List.head?_map, hh]; rfl, ?_⟩
  rw [List.chain'_map]
  exact hc.imp fun a b hab => hab.swap

theorem ValidPath.rescale {X Y g : Int} (hg : 0 ≤ g) {seq : Path} (h : ValidPath X Y seq) :
    ValidPath (X * g) (Y * g) (rescale g seq) := by
  obtain ⟨hh, hc⟩ := h
  unfold WaterJug.rescale
  refine ⟨by rw [List.head?_map, hh]; simp, ?_⟩
  rw [List.chain'_map]
  exact hc.imp fun a b hab => hab.scale hg

/-! ## Answers as paths of the puzzle -/

theorem Answer.last {X Y t : Int} {p1 : Path} (h : Answer X Y t p1) :
    p1 ≠ [] ∧ ∃ q : Pos, p1.getLast? = some q ∧ total q = t := by
  obtain ⟨p2, d, q, h0, h1, _, h3, h4, _⟩ := h
  subst h0
  unfold rescale
  refine ⟨?_, (q.1 * gcd X Y, q.2 * gcd X Y), by rw [List.getLast?_map, h3]; rfl, ?_⟩
  · intro hnil
    rw [List.map_eq_nil_iff] at hnil
    rw [hnil] at h1
    simp at h1
  · unfold total at h4 ⊢
    simp only
    rw [← h4]
    ring

/-- An answer is a valid path of the puzzle whose jug 1 is the smaller jug. -/
theorem Answer.valid {X Y : Int} (hX : 0 < X) (hY : 0 < Y) {t : Int} {p1 : Path}
    (h : Answer X Y t p1) : ValidPath (min X Y) (max X Y) p1 := by
  obtain ⟨g1, g2, _, g4, g5, _⟩ := engXY_facts hX hY
  have hg := (gcd_facts hX hY).1
  obtain ⟨p2, d, q, h0, _, h2, _, _, h5, _⟩ := h
  subst h0
  rw [← g4, ← g5]
  exact ValidPath.rescale (g := gcd X Y) (by omega) ⟨h2, h5.imp fun a b hab => hab.legal g1 g2⟩

/-- No sequence of legal moves of the puzzle with capacities `X`, `Y` that ends in a
position of total `t` is shorter than an answer. -/
theorem Answer.minimal {X Y : Int} (hX : 0 < X) (hY : 0 < Y) {t : Int} {p1 : Path}
    (h : Answer X Y t p1) {seq : Path} {q : Pos} (hv : ValidPath X Y seq)
    (hl : seq.getLast? = some q) (ht : total q = t) : p1.length ≤ seq.length := by
  obtain ⟨g1, g2, _, _, _, _⟩ := engXY_facts hX hY
  obtain ⟨hg, _, hgX, hgY, _⟩ := gcd_facts hX hY
  obtain ⟨p2, d, q0, h0, h1, _, _, _, _, _, hmin⟩ := h
  obtain ⟨n, hn, hf⟩ := FPath_of_valid seq q hv hl
  have hf0 : FPath (X.tdiv (gcd X Y) * gcd X Y) (Y.tdiv (gcd X Y) * gcd X Y) n q := by
    rw [hgX, hgY]
    exact hf
  obtain ⟨q1, hq1, hf1⟩ := FPath.divide (g := gcd X Y) (by omega) hf0
  have htot : total q1 * gcd X Y = t := by
    rw [← ht, hq1]
    unfold total
    simp only
    ring
  have key : ∃ r, FPath (engX X Y) (engY X Y) n r ∧ total r = total q1 := by
    unfold engX engY
    rcases le_total (X.tdiv (gcd X Y)) (Y.tdiv (gcd X Y)) with hle | hle
    · rw [min_eq_left hle, max_eq_right hle]
      exact ⟨q1, hf1, rfl⟩
    · rw [min_eq_right hle, max_eq_left hle]
      exact ⟨(q1.2, q1.1), hf1.exchange, by unfold total; simp only; ring⟩
  obtain ⟨r, hr, hrt⟩ := key
  obtain ⟨m, hm, he⟩ := hr.toEPath g1 g2
  have := hmin m r he (by rw [hrt]; exact htot)
  rw [h0, hn]
  unfold rescale
  rw [List.length_map, h1]
  omega

/-- An answer is attained by a sequence of legal moves of the puzzle with
capacities `X`, `Y` (the answer itself, with the coordinates exchanged when jug 1 is
the larger jug). -/
theorem Answer.attained {X Y : Int} (hX : 0 < X) (hY : 0 < Y) {t : Int} {p1 : Path}
    (h : Answer X Y t p1) :
    ∃ (seq : Path) (q : Pos), ValidPath X Y seq ∧ seq.getLast? = some q ∧ total q = t ∧
      seq.length = p1.length := by
  have hv := h.valid hX hY
  obtain ⟨_, q, hq, hqt⟩ := h.last
  rcases le_total X Y with hle | hle
  · rw [min_eq_left hle, max_eq_right hle] at hv
    exact ⟨p1, q, hv, hq, hqt, rfl⟩
  · rw [min_eq_right hle, max_eq_left hle] at hv
    refine ⟨p1.map fun p => (p.2, p.1), (q.2, q.1), hv.exchange_jugs, ?_, ?_, by simp⟩
    · rw [List.getLast?_map, hq]
      rfl
    · rw [← hqt]
      unfold total
      simp only
      ring

/-! ## The caller's path, and the cached origin -/

theorem backtrack_resize (e : WaterJugSolverCoprime) (path : Path) (m : Nat) (v : Pos) :
    backtrack e m ((resize path (m + 1)).set m v) = trail e m v := by
  obtain ⟨junk, hj1, hj2⟩ := resize_set_last path m v
  rw [hj2, backtrack_eq_trail e m junk v [] hj1]
  cases trail e m v with
  | none => rfl
  | some l => simp

/-- The engine's `Solve` leaves `*path` alone when it fails, and when it succeeds the
returned path does not depend on what `*path` held before the call. -/
theorem Solve_path_frame {e e1 : WaterJugSolverCoprime} {fuel : Nat} {t : Int}
    {pa p1 : Path} {b : Bool} (h : e.Solve fuel t pa = some (e1, b, p1)) (pb : Path) :
    (b = false → p1 = pa) ∧
    e.Solve fuel t pb = some (e1, b, if b = true then p1 else pb) := by
  unfold WaterJugSolverCoprime.Solve at h ⊢
  rw [Option.bind_eq_some] at h
  obtain ⟨c, hc, h⟩ := h
  rw [Option.bind_eq_some] at h
  obtain ⟨s, hs, h⟩ := h
  simp only [hc, hs, Option.some_bind]
  by_cases hsol : s.solved = false
  · rw [if_pos hsol] at h ⊢
    injection h with h
    injection h with a1 a2
    injection a2 with a2 a3
    subst a1; subst a2; subst a3
    exact ⟨fun _ => rfl, by simp⟩
  · rw [if_neg hsol] at h ⊢
    rw [Option.bind_eq_some] at h
    obtain ⟨solIdx, h1, h⟩ := h
    rw [Option.bind_eq_some] at h
    obtain ⟨sol, h2, h⟩ := h
    simp only at h
    by_cases hn : sol.depth + 1 ≤ 0
    · rw [if_pos hn] at h
      exact absurd h (by simp)
    · rw [if_neg hn, Option.map_eq_some'] at h
      obtain ⟨p, hp, h⟩ := h
      injection h with a1 a2
      injection a2 with a2 a3
      subst a1; subst a2; subst a3
      have hm : (sol.depth + 1).toNat = ((sol.depth + 1).toNat - 1) + 1 := by omega
      rw [hm, Nat.add_sub_cancel, backtrack_resize] at hp
      refine ⟨fun hb => absurd hb (by simp), ?_⟩
      simp only [h1, Option.some_bind, h2, if_neg hn]
      rw [hm, Nat.add_sub_cancel, backtrack_resize, hp]
      simp

theorem Solver_path_frame {w w1 : WaterJugSolver} {fuel : Nat} {t : Int}
    {pa p1 : Path} {b : Bool} (h : w.Solve fuel t pa = some (w1, b, p1)) (pb : Path) :
    (b = false → p1 = pa) ∧
    w.Solve fuel t pb = some (w1, b, if b = true then p1 else pb) := by
  rcases WaterJugSolver.Solve_cases h with ⟨hg, hw1, hb, hp1⟩ | ⟨hg, e1, p2, he, rfl, hp⟩
  · subst w1
    subst b
    subst p1
    refine ⟨fun _ => rfl, ?_⟩
    unfold WaterJugSolver.Solve
    by_cases c1 : t < 0 ∨ t > w.F_
    · rw [if_pos c1]
      simp
    · rw [if_neg c1, if_pos (by tauto)]
      simp
  · obtain ⟨f1, f2⟩ := Solve_path_frame he pb
    have c1 : ¬ (t < 0 ∨ t > w.F_) := by tauto
    have c2 : ¬ (w.r_ > 1 ∧ t.tmod w.r_ ≠ 0) := by tauto
    unfold WaterJugSolver.Solve
    rw [if_neg c1, if_neg c2, f2]
    cases b with
    | false =>
      simp only [Bool.false_eq_true, if_false] at hp ⊢
      refine ⟨fun _ => by rw [hp]; exact f1 rfl, ?_⟩
      simp
    | true =>
      simp only [if_true] at hp ⊢
      refine ⟨fun hb => absurd hb (by simp), ?_⟩
      subst hp
      by_cases hr : w.r_ ≠ 1
      · simp [hr]
      · have : w.r_ = 1 := by omega
        simp [this, rescale_one]

/-- Target 0 is answered from the cache by the origin, whatever the budget. -/
theorem Solve_zero {e : WaterJugSolverCoprime} (hI : Inv e) (fuel : Nat) (path : Path) :
    e.Solve fuel 0 path = some (e, true, [(0, 0)]) := by
  obtain ⟨rest, hq⟩ : ∃ rest, e.queue_ = 0 :: rest := by
    have := hI.hhead
    cases hqq : e.queue_ with
    | nil => rw [hqq] at this; simp at this
    | cons a l =>
      rw [hqq] at this
      simp at this
      exact ⟨l, by rw [this]⟩
  have h0 : (0 : Int) ∈ e.queue_ := by rw [hq]; exact List.mem_cons_self _ _
  obtain ⟨st, hst, _, hC, hS⟩ := hI.hq 0 h0
  have hd : st.depth = 0 := by
    have := hI.horigin
    rw [depthAt_of_some hst] at this
    exact this
  have hp : st.pos = (0, 0) :=
    StateIndex_inj hI.hX hI.hXY hC (Canon_origin hI.hX hI.hXY) (by rw [hS, StateIndex_origin])
  have hF : FindCachedSol e.states_ 0 none e.queue_ = some (true, some 0) := by
    rw [hq]
    simp [FindCachedSol, hst, hp]
  unfold WaterJugSolverCoprime.Solve
  rw [hF]
  simp only [Option.some_bind]
  rw [SolveLoop_done (by simp)]
  simp only [Option.some_bind, Bool.true_eq_false, if_false, hst, hd, hp]
  rw [if_neg (by omega)]
  have : ((0 : Int) + 1).toNat = 0 + 1 := rfl
  rw [this, Nat.add_sub_cancel, backtrack_resize]
  rfl

/-! ## The claims -/

theorem tdiv_gcd_eq {X Y : Int} (hX : 0 < X) (hY : 0 < Y) :
    X.tdiv (gcd X Y) = X / (Int.gcd X Y : Int) ∧
    Y.tdiv (gcd X Y) = Y / (Int.gcd X Y : Int) := by
  obtain ⟨h1, h2, _⟩ := gcd_facts hX hY
  rw [h2] at h1 ⊢
  exact ⟨Int.tdiv_eq_ediv (by omega) (by omega), Int.tdiv_eq_ediv (by omega) (by omega)⟩

/-- The constructor of `WaterJugSolver` succeeds when the table of the reduced engine
fits `int`. -/
theorem construct_some {X Y : Int} (hX : 0 < X) (hY : 0 < Y)
    (hN : 2 * (X / (Int.gcd X Y : Int) + Y / (Int.gcd X Y : Int)) ≤ INT_MAX) :
    ∃ w, WaterJugSolver.construct X Y = some w := by
  obtain ⟨_, _, _, _, h5, h6, _⟩ := gcd_facts hX hY
  obtain ⟨d1, d2⟩ := tdiv_gcd_eq hX hY
  obtain ⟨e, he, _⟩ := construct_spec h5 h6 (by rw [d1, d2]; exact hN)
  unfold WaterJugSolver.construct
  simp only
  rw [he]
  exact ⟨_, rfl⟩

theorem freshSolver_eq (X Y : Int) (h : (WaterJugSolver.construct X Y).isSome = true) :
    WaterJugSolver.construct X Y = some (freshSolver X Y h) :=
  (Option.some_get h).symm

theorem Reachable.freshSolver (X Y : Int)
    (h : (WaterJugSolver.construct X Y).isSome = true) :
    Reachable X Y (freshSolver X Y h) :=
  Reachable.fresh (freshSolver_eq X Y h)

theorem Reachable.afterCall {X Y : Int} {w : WaterJugSolver} (hw : Reachable X Y w)
    (fuel : Nat) (t : Int) (path : Path) (h : (w.Solve fuel t path).isSome = true) :
    Reachable X Y (afterCall w fuel t path h) :=
  @Reachable.call X Y w _ fuel t path ((w.Solve fuel t path).get h).2.2
    ((w.Solve fuel t path).get h).2.1 hw (Option.some_get h).symm

/-- C1 as stated fails when `X + Y` does not fit `int`: for `X = Y = 2^30` the stored sum
`F_` is `-2^31`, and the fresh `WaterJugSolver(X, Y)` rejects the target 0, a multiple
of `gcd(X, Y)` with `0 ≤ 0 ≤ X + Y`, whatever the iteration budget.  It also fails when
the table size of the reduced engine does not fit `int`: for `X = 2^30`, `Y = 1` the
constructor builds no solver. -/
theorem C1_counterexample :
    (∃ w, WaterJugSolver.construct 1073741824 1073741824 = some w ∧
      w.F_ = -2147483648 ∧
      (∀ (fuel : Nat) (path : Path), w.Solve fuel 0 path = some (w, false, path)) ∧
      ((Int.gcd 1073741824 1073741824 : Int) ∣ 0) ∧
      (0 : Int) ≤ 1073741824 + 1073741824) ∧
    WaterJugSolver.construct 1073741824 1 = none := by
  refine ⟨?_, by decide⟩
  obtain ⟨w, hw⟩ := @construct_some 1073741824 1073741824 (by decide) (by decide) (by decide)
  have hF : w.F_ = -2147483648 := by
    rw [(Reachable.inv (by decide) (by decide) (Reachable.fresh hw)).1]
    decide
  refine ⟨w, hw, hF, ?_, by decide, by decide⟩
  intro fuel path
  exact Solver_guard (Or.inr (Or.inl (by rw [hF]; decide))) fuel path

/-- C1 (amended): for capacities `X, Y > 0` such that `X + Y` and the table size
`2 (X/d + Y/d)` of the reduced engine, `d = gcd(X, Y)`, fit `int`, and a target
`0 ≤ t ≤ X + Y`, `Solve(t)` on a freshly constructed `WaterJugSolver(X, Y)` returns (an
iteration budget of `2 * (X + Y)` is enough) and its flag is true if and only if `t`
is a multiple of `gcd(X, Y)`. -/
theorem C1_fresh_solve_iff_multiple_of_gcd (X Y : Int) (hX : 0 < X) (hY : 0 < Y)
    (hF : X + Y ≤ INT_MAX)
    (hN : 2 * (X / (Int.gcd X Y : Int) + Y / (Int.gcd X Y : Int)) ≤ INT_MAX) (t : Int)
    (ht0 : 0 ≤ t) (htF : t ≤ X + Y) (fuel : Nat) (hf : 2 * (X + Y) ≤ fuel) (path : Path) :
    ∃ w w1 b p1, WaterJugSolver.construct X Y = some w ∧
      w.Solve fuel t path = some (w1, b, p1) ∧
      (b = true ↔ (Int.gcd X Y : Int) ∣ t) := by
  obtain ⟨w, hw⟩ := construct_some hX hY hN
  have hr := Reachable.fresh hw
  obtain ⟨w1, b, p1, hs⟩ := Solver_total hX hY hr hf t path
  obtain ⟨h1, _, _⟩ := Solver_some_spec hX hY hr hs
  refine ⟨w, w1, b, p1, hw, hs, ?_⟩
  rw [h1, wrapInt_eq (by omega) hF]
  unfold Solvable
  tauto

theorem C1_witness :
    ∃ w w1 b p1, WaterJugSolver.construct 3 5 = some w ∧
      w.Solve 16 4 [] = some (w1, b, p1) ∧ (b = true ↔ (Int.gcd 3 5 : Int) ∣ 4) :=
  C1_fresh_solve_iff_multiple_of_gcd 3 5 (by decide) (by decide) (by decide) (by decide) 4
    (by decide) (by decide) 16 (by decide) []

/-- The instance of C1 named in the claim, evaluated: capacities `(3, 5)`, target 4. -/
theorem C1_example_3_5_4 :
    ∃ w w1, WaterJugSolver.construct 3 5 = some w ∧
      w.Solve 16 4 [] = some (w1, true,
        [(0, 0), (3, 0), (0, 3), (3, 3), (1, 5), (1, 0), (0, 1), (3, 1)]) :=
  ⟨_, _, rfl, rfl⟩

/-- C2: for capacities `X, Y > 0`, in every solver state reachable by earlier `Solve`
calls and for every target `t`: whenever `Solve(t)` returns true, the returned path is
non-empty and its last position `(a, b)` satisfies `a + b = t`. -/
theorem C2_last_position_has_total (X Y : Int) (hX : 0 < X) (hY : 0 < Y)
    (w : WaterJugSolver) (hw : Reachable X Y w) (fuel : Nat) (t : Int) (path : Path)
    (w1 : WaterJugSolver) (p1 : Path) (h : w.Solve fuel t path = some (w1, true, p1)) :
    p1 ≠ [] ∧ ∃ a b, p1.getLast? = some (a, b) ∧ a + b = t := by
  obtain ⟨_, _, h3⟩ := Solver_some_spec hX hY hw h
  obtain ⟨g1, q, g2, g3⟩ := (h3 rfl).last
  exact ⟨g1, q.1, q.2, g2, g3⟩

theorem C2_witness :
    ∃ w w1 p1, WaterJugSolver.construct 3 5 = some w ∧
      w.Solve 16 4 [] = some (w1, true, p1) ∧
      (p1 ≠ [] ∧ ∃ a b, p1.getLast? = some (a, b) ∧ a + b = 4) :=
  ⟨_, _, _, rfl, rfl,
    C2_last_position_has_total 3 5 (by decide) (by decide) _ (Reachable.fresh rfl) 16 4 []
      _ _ rfl⟩

/-- C3 as stated fails when jug 1 is the larger jug: `WaterJugSolver(5, 3).Solve(5)`
returns `[(0,0), (0,5)]`, which puts 5 units into jug 2 of capacity 3 and is not a
legal move for capacities `(5, 3)`. -/
theorem C3_counterexample :
    ∃ w w1, WaterJugSolver.construct 5 3 = some w ∧
      w.Solve 16 5 [] = some (w1, true, [(0, 0), (0, 5)]) ∧
      ¬ ValidPath 5 3 [(0, 0), (0, 5)] :=
  ⟨_, _, rfl, rfl, fun h => absurd (List.chain'_pair.mp h.2) (by decide)⟩

/-- C3 (amended): for capacities `X, Y > 0`, every path returned by `Solve` in a reachable
solver state starts at `(0,0)` and every consecutive pair is one legal move (fill,
empty or pour) of the puzzle in which jug 1 is the smaller jug, of capacity
`min X Y`, and jug 2 the larger one, of capacity `max X Y`. -/
theorem C3_valid_path_smaller_jug_first (X Y : Int) (hX : 0 < X) (hY : 0 < Y)
    (w : WaterJugSolver) (hw : Reachable X Y w) (fuel : Nat) (t : Int) (path : Path)
    (w1 : WaterJugSolver) (p1 : Path) (h : w.Solve fuel t path = some (w1, true, p1)) :
    p1.head? = some (0, 0) ∧ List.Chain' (LegalMove (min X Y) (max X Y)) p1 := by
  obtain ⟨_, _, h3⟩ := Solver_some_spec hX hY hw h
  exact (h3 rfl).valid hX hY

theorem C3_witness :
    ∃ w w1 p1, WaterJugSolver.construct 5 3 = some w ∧
      w.Solve 16 7 [] = some (w1, true, p1) ∧
      (p1.head? = some (0, 0) ∧ List.Chain' (LegalMove (min 5 3) (max 5 3)) p1) :=
  ⟨_, _, _, rfl, rfl,
    C3_valid_path_smaller_jug_first 5 3 (by decide) (by decide) _ (Reachable.fresh rfl) 16 7 []
      _ _ rfl⟩

/-- C4: for capacities `X, Y > 0`, in every reachable solver state and for every target
`t`, the path returned by a successful `Solve(t)` has the minimum number of positions
(hence of moves) among all sequences of legal moves (fill either jug, empty either
jug, pour either way, from any position) that start at `(0,0)` and end in a position
of coordinate sum `t`: some such sequence has exactly that length and none is shorter. -/
theorem C4_minimal_number_of_moves (X Y : Int) (hX : 0 < X) (hY : 0 < Y)
    (w : WaterJugSolver) (hw : Reachable X Y w) (fuel : Nat) (t : Int) (path : Path)
    (w1 : WaterJugSolver) (p1 : Path) (h : w.Solve fuel t path = some (w1, true, p1)) :
    (∃ (seq : Path) (q : Pos), ValidPath X Y seq ∧ seq.getLast? = some q ∧ total q = t ∧
      seq.length = p1.length) ∧
    ∀ (seq : Path) (q : Pos), ValidPath X Y seq → seq.getLast? = some q → total q = t →
      p1.length ≤ seq.length := by
  obtain ⟨_, _, h3⟩ := Solver_some_spec hX hY hw h
  exact ⟨(h3 rfl).attained hX hY, fun seq q hv hl ht => (h3 rfl).minimal hX hY hv hl ht⟩

theorem C4_witness :
    ∃ w w1 p1, WaterJugSolver.construct 4 9 = some w ∧
      w.Solve 26 2 [] = some (w1, true, p1) ∧ p1.length = 12 ∧
      ((∃ (seq : Path) (q : Pos), ValidPath 4 9 seq ∧ seq.getLast? = some q ∧ total q = 2 ∧
        seq.length = p1.length) ∧
      ∀ (seq : Path) (q : Pos), ValidPath 4 9 seq → seq.getLast? = some q → total q = 2 →
        p1.length ≤ seq.length) :=
  ⟨_, _, _, rfl, rfl, rfl,
    C4_minimal_number_of_moves 4 9 (by decide) (by decide) _ (Reachable.fresh rfl) 26 2 []
      _ _ rfl⟩

/-- C5: for capacities `X, Y > 0` with `d = gcd(X, Y)`, in every reachable solver state,
`Solve(t)` returns false, leaving the solver and the caller's path as they were,
whenever `t < 0`, or `t > X + Y`, or `d > 1` and `t` is not a multiple of `d`. -/
theorem C5_invalid_target_rejected (X Y : Int) (hX : 0 < X) (hY : 0 < Y)
    (w : WaterJugSolver) (hw : Reachable X Y w) (fuel : Nat) (t : Int) (path : Path)
    (h : t < 0 ∨ X + Y < t ∨ (1 < (Int.gcd X Y : Int) ∧ ¬ (Int.gcd X Y : Int) ∣ t)) :
    w.Solve fuel t path = some (w, false, path) := by
  obtain ⟨hF, hr, _⟩ := hw.inv hX hY
  have hns : ¬ (Solvable X Y t ∧ t ≤ wrapInt (X + Y)) := by
    unfold Solvable
    rintro ⟨⟨a, b, c⟩, _⟩
    rcases h with h | h | h
    · omega
    · omega
    · exact h.2 c
  have hg := (guard_wrap_iff hX hY t).mpr hns
  rw [← hF, ← hr] at hg
  unfold WaterJugSolver.Solve
  by_cases c1 : t < 0 ∨ t > w.F_
  · rw [if_pos c1]
  · rw [if_neg c1, if_pos (by tauto)]

theorem C5_witness :
    ∃ w, WaterJugSolver.construct 4 6 = some w ∧ w.Solve 0 5 [] = some (w, false, []) :=
  ⟨_, rfl,
    C5_invalid_target_rejected 4 6 (by decide) (by decide) _ (Reachable.fresh rfl) 0 5 []
      (Or.inr (Or.inr (by decide)))⟩

/-- The second witness of C5 named in the claim: capacities `(5, 5)`, target 3. -/
theorem C5_example_5_5_3 :
    ∃ w, WaterJugSolver.construct 5 5 = some w ∧ w.Solve 0 3 [] = some (w, false, []) :=
  ⟨_, rfl, rfl⟩

/-- The engine that `WaterJugSolver(X, Y)` builds is the one `WaterJugSolver(X/d, Y/d)`
builds, `d = gcd(X, Y)`. -/
theorem construct_reduced {X Y : Int} (hX : 0 < X) (hY : 0 < Y) {w w0 : WaterJugSolver}
    (hw : WaterJugSolver.construct X Y = some w)
    (hw0 : WaterJugSolver.construct (X / (Int.gcd X Y : Int)) (Y / (Int.gcd X Y : Int))
      = some w0) :
    w0.algo = w.algo ∧ w0.r_ = 1 ∧ w.r_ = (Int.gcd X Y : Int) ∧
    0 < X / (Int.gcd X Y : Int) ∧ 0 < Y / (Int.gcd X Y : Int) := by
  obtain ⟨h1, h2, h3, h4, h5, h6, h7⟩ := gcd_facts hX hY
  have hXd : X.tdiv (gcd X Y) = X / (Int.gcd X Y : Int) := by
    rw [h2]
    exact Int.tdiv_eq_ediv (by omega) (by omega)
  have hYd : Y.tdiv (gcd X Y) = Y / (Int.gcd X Y : Int) := by
    rw [h2]
    exact Int.tdiv_eq_ediv (by omega) (by omega)
  rw [← hXd, ← hYd] at hw0 ⊢
  have hg1 : gcd (X.tdiv (gcd X Y)) (Y.tdiv (gcd X Y)) = 1 := by
    rw [gcd_eq_of_pos _ _ (by omega) (by omega), h7]
    rfl
  unfold WaterJugSolver.construct at hw hw0
  simp only at hw hw0
  rw [hg1, Int.tdiv_one, Int.tdiv_one] at hw0
  rw [Option.map_eq_some'] at hw hw0
  obtain ⟨a, ha, rfl⟩ := hw
  obtain ⟨a0, ha0, rfl⟩ := hw0
  rw [ha] at ha0
  injection ha0 with ha0
  exact ⟨ha0.symm, rfl, h2, by omega, by omega⟩

/-- C6 as stated fails when `X + Y` does not fit `int`: for `X = Y = 2^30`, `d = 2^30`
and the multiple `t = 0` of `d`, the fresh `WaterJugSolver(X, Y)` rejects `Solve(0)` (its
stored sum is `-2^31`) while the fresh `WaterJugSolver(X/d, Y/d) = WaterJugSolver(1, 1)`
answers `Solve(0/d)` with true.  It also fails when the table size of the reduced
engine does not fit `int`: for `X = 2^30`, `Y = 1` neither constructor builds a
solver. -/
theorem C6_counterexample :
    (WaterJugSolver.construct 1073741824 1 = none ∧
      WaterJugSolver.construct (1073741824 / (Int.gcd 1073741824 1 : Int))
        (1 / (Int.gcd 1073741824 1 : Int)) = none) ∧
    ∃ w w0, WaterJugSolver.construct 1073741824 1073741824 = some w ∧
      WaterJugSolver.construct
        (1073741824 / (Int.gcd 1073741824 1073741824 : Int))
        (1073741824 / (Int.gcd 1073741824 1073741824 : Int)) = some w0 ∧
      (∀ (fuel : Nat) (path : Path), w.Solve fuel 0 path = some (w, false, path)) ∧
      (∀ (fuel : Nat) (path : Path),
        w0.Solve fuel (0 / (Int.gcd 1073741824 1073741824 : Int)) path =
          some (w0, true, [(0, 0)])) ∧
      ((Int.gcd 1073741824 1073741824 : Int) ∣ 0) := by
  refine ⟨⟨by decide, by decide⟩, ?_⟩
  obtain ⟨w, hw⟩ := @construct_some 1073741824 1073741824 (by decide) (by decide) (by decide)
  have hd : (1073741824 : Int) / (Int.gcd 1073741824 1073741824 : Int) = 1 := by decide
  rw [hd]
  refine ⟨w, _, hw, rfl, ?_, ?_, by decide⟩
  · intro fuel path
    exact (Solver_overflow (by decide) (by decide) (by decide) (by decide) (by decide)
      (Reachable.fresh hw) fuel 0 path).2
  · intro fuel path
    have h0 : (0 : Int) / (Int.gcd 1073741824 1073741824 : Int) = 0 := Int.zero_ediv _
    rw [h0]
    have hI := (Reachable.inv (by decide) (by decide)
      (@Reachable.fresh 1 1 _ rfl)).2.2.1
    unfold WaterJugSolver.Solve
    rw [if_neg (by decide), if_neg (by decide), Int.zero_tdiv, Solve_zero hI]
    rfl

/-- C6 (amended): for `X, Y > 0` such that `X + Y` and the table size `2 (X/d + Y/d)` of
the reduced engine, `d = gcd(X, Y)`, fit `int`, and every multiple `t` of `d`, a fresh
`WaterJugSolver(X, Y).Solve(t)` returns the same flag as a fresh
`WaterJugSolver(X/d, Y/d).Solve(t/d)`, and on success its path is that path with both
coordinates of every position multiplied by `d`. -/
theorem C6_reduction_correct (X Y : Int) (hX : 0 < X) (hY : 0 < Y)
    (hF : X + Y ≤ INT_MAX)
    (hN : 2 * (X / (Int.gcd X Y : Int) + Y / (Int.gcd X Y : Int)) ≤ INT_MAX) (t : Int)
    (ht : (Int.gcd X Y : Int) ∣ t) (fuel : Nat) (hf : 2 * (X + Y) ≤ fuel) (path : Path) :
    ∃ w w0 w1 w2 b p p0, WaterJugSolver.construct X Y = some w ∧
      WaterJugSolver.construct (X / (Int.gcd X Y : Int)) (Y / (Int.gcd X Y : Int)) = some w0 ∧
      w.Solve fuel t path = some (w1, b, p) ∧
      w0.Solve fuel (t / (Int.gcd X Y : Int)) path = some (w2, b, p0) ∧
      (b = true → p = rescale (Int.gcd X Y : Int) p0) := by
  obtain ⟨h1, h2, h3, h4, h5, h6, h7⟩ := gcd_facts hX hY
  have hXd : X.tdiv (gcd X Y) = X / (Int.gcd X Y : Int) := by
    rw [h2]
    exact Int.tdiv_eq_ediv (by omega) (by omega)
  have hYd : Y.tdiv (gcd X Y) = Y / (Int.gcd X Y : Int) := by
    rw [h2]
    exact Int.tdiv_eq_ediv (by omega) (by omega)
  have hX0 : 0 < X / (Int.gcd X Y : Int) := by omega
  have hY0 : 0 < Y / (Int.gcd X Y : Int) := by omega
  have hXle : X / (Int.gcd X Y : Int) ≤ X := by
    have := Int.mul_le_mul_of_nonneg_left h1 (show (0 : Int) ≤ X.tdiv (gcd X Y) by omega)
    rw [h3] at this
    omega
  have hYle : Y / (Int.gcd X Y : Int) ≤ Y := by
    have := Int.mul_le_mul_of_nonneg_left h1 (show (0 : Int) ≤ Y.tdiv (gcd X Y) by omega)
    rw [h4] at this
    omega
  have hco : Int.gcd (X / (Int.gcd X Y : Int)) (Y / (Int.gcd X Y : Int)) = 1 := by
    rw [← hXd, ← hYd]
    exact h7
  obtain ⟨w, hw⟩ := construct_some hX hY hN
  obtain ⟨w0, hw0⟩ := construct_some hX0 hY0 (by
    rw [hco]
    simp only [Nat.cast_one, Int.ediv_one]
    have := Int.ediv_le_self X (le_of_lt hX)
    omega)
  obtain ⟨e1, e2, e3, _, _⟩ := construct_reduced hX hY hw hw0
  have hr := Reachable.fresh hw
  have hr0 := Reachable.fresh hw0
  obtain ⟨w1, b, p, hs⟩ := Solver_total hX hY hr hf t path
  obtain ⟨w2, b0, p0, hs0⟩ := Solver_total hX0 hY0 hr0
    (show 2 * (X / (Int.gcd X Y : Int) + Y / (Int.gcd X Y : Int)) ≤ (fuel : Int) by omega)
    (t / (Int.gcd X Y : Int)) path
  obtain ⟨a1, _, _⟩ := Solver_some_spec hX hY hr hs
  obtain ⟨b1, _, _⟩ := Solver_some_spec hX0 hY0 hr0 hs0
  have hgpos : (0 : Int) < (Int.gcd X Y : Int) := by omega
  have hmul : t / (Int.gcd X Y : Int) * (Int.gcd X Y : Int) = t := Int.ediv_mul_cancel ht
  have hXm : X / (Int.gcd X Y : Int) * (Int.gcd X Y : Int) = X := by rw [← hXd, ← h2]; exact h3
  have hYm : Y / (Int.gcd X Y : Int) * (Int.gcd X Y : Int) = Y := by rw [← hYd, ← h2]; exact h4
  have hsolv : Solvable X Y t ↔
      Solvable (X / (Int.gcd X Y : Int)) (Y / (Int.gcd X Y : Int)) (t / (Int.gcd X Y : Int)) := by
    unfold Solvable
    rw [hco]
    constructor
    · rintro ⟨c1, c2, _⟩
      refine ⟨?_, ?_, by simp⟩
      · by_contra hneg
        have h0 : t / (Int.gcd X Y : Int) ≤ -1 := by omega
        have := Int.mul_le_mul_of_nonneg_right h0 (le_of_lt hgpos)
        rw [hmul] at this
        omega
      · by_contra hbig
        have h0 : X / (Int.gcd X Y : Int) + Y / (Int.gcd X Y : Int) + 1 ≤
            t / (Int.gcd X Y : Int) := by omega
        have := Int.mul_le_mul_of_nonneg_right h0 (le_of_lt hgpos)
        rw [hmul, add_mul, add_mul, hXm, hYm] at this
        omega
    · rintro ⟨c1, c2, _⟩
      refine ⟨?_, ?_, ht⟩
      · have := Int.mul_le_mul_of_nonneg_right c1 (le_of_lt hgpos)
        rw [hmul] at this
        omega
      · have := Int.mul_le_mul_of_nonneg_right c2 (le_of_lt hgpos)
        rw [hmul, add_mul, hXm, hYm] at this
        exact this
  have hw1 : wrapInt (X + Y) = X + Y := wrapInt_eq (by omega) hF
  have hw2 : wrapInt (X / (Int.gcd X Y : Int) + Y / (Int.gcd X Y : Int)) =
      X / (Int.gcd X Y : Int) + Y / (Int.gcd X Y : Int) :=
    wrapInt_eq (by omega) (by omega)
  rw [hw1] at a1
  rw [hw2] at b1
  have hb : b0 = b := by
    apply flag_eq (P := Solvable X Y t) _ _
    · rw [a1]
      exact ⟨fun h => h.1, fun h => ⟨h, h.2.1⟩⟩
    · rw [b1, hsolv]
      exact ⟨fun h => h.1, fun h => ⟨h, h.2.1⟩⟩
  subst hb
  refine ⟨w, w0, w1, w2, b0, p, p0, hw, hw0, hs, hs0, ?_⟩
  intro hbt
  subst hbt
  rcases WaterJugSolver.Solve_cases hs with ⟨_, _, hbf, _⟩ | ⟨hg, e, q, he, _, hp⟩
  · exact absurd hbf (by simp)
  rcases WaterJugSolver.Solve_cases hs0 with ⟨_, _, hbf, _⟩ | ⟨hg0, e0, q0, he0, _, hp0⟩
  · exact absurd hbf (by simp)
  have ht0 : 0 ≤ t := by
    by_contra hneg
    exact hg (Or.inl (by omega))
  have htd : t.tdiv w.r_ = (t / (Int.gcd X Y : Int)).tdiv w0.r_ := by
    rw [e2, e3, Int.tdiv_one]
    exact Int.tdiv_eq_ediv ht0 (by omega)
  rw [e1, ← htd, he] at he0
  injection he0 with he0
  injection he0 with _ he0
  injection he0 with _ he0
  simp only [if_true] at hp hp0
  rw [hp, hp0, e2, e3, rescale_one, he0]

theorem C6_witness :
    ∃ w w0 w1 w2 b p p0, WaterJugSolver.construct 6 10 = some w ∧
      WaterJugSolver.construct (6 / (Int.gcd 6 10 : Int)) (10 / (Int.gcd 6 10 : Int)) = some w0 ∧
      w.Solve 32 4 [] = some (w1, b, p) ∧
      w0.Solve 32 (4 / (Int.gcd 6 10 : Int)) [] = some (w2, b, p0) ∧
      (b = true → p = rescale (Int.gcd 6 10 : Int) p0) :=
  C6_reduction_correct 6 10 (by decide) (by decide) (by decide) (by decide) 4 (by decide) 32
    (by decide) []

/-- The concrete instance of C6 named in the claim, evaluated. -/
theorem C6_example_6_10_4 :
    ∃ w w0 w1 w2, WaterJugSolver.construct 6 10 = some w ∧
      WaterJugSolver.construct 3 5 = some w0 ∧
      w.Solve 32 4 [] = some (w1, true, [(0, 0), (0, 10), (6, 4), (0, 4)]) ∧
      w0.Solve 32 2 [] = some (w2, true, [(0, 0), (0, 5), (3, 2), (0, 2)]) :=
  ⟨_, _, _, _, rfl, rfl, rfl, rfl⟩

/-- C7: for `X, Y > 0`, every target `t` and every reachable solver state, calling
`Solve(t)` twice in succession returns (an iteration budget of `2 * (X + Y)` is enough)
the same flag both times and, on success, paths of the same length. -/
theorem C7_repeated_query_idempotent (X Y : Int) (hX : 0 < X) (hY : 0 < Y)
    (w : WaterJugSolver) (hw : Reachable X Y w) (t : Int) (f1 f2 : Nat)
    (hf1 : 2 * (X + Y) ≤ f1) (hf2 : 2 * (X + Y) ≤ f2) (pa pb : Path) :
    ∃ w1 w2 b p1 p2, w.Solve f1 t pa = some (w1, b, p1) ∧
      w1.Solve f2 t pb = some (w2, b, p2) ∧ (b = true → p1.length = p2.length) := by
  obtain ⟨w1, b, p1, hs1⟩ := Solver_total hX hY hw hf1 t pa
  have hw1 := Reachable.call hw hs1
  obtain ⟨w2, b2, p2, hs2⟩ := Solver_total hX hY hw1 hf2 t pb
  obtain ⟨a1, _, a3⟩ := Solver_some_spec hX hY hw hs1
  obtain ⟨b1, _, b3⟩ := Solver_some_spec hX hY hw1 hs2
  have hb : b2 = b := flag_eq a1 b1
  subst hb
  exact ⟨w1, w2, b2, p1, p2, hs1, hs2, fun h => (a3 h).length_unique (b3 h)⟩

theorem C7_witness :
    ∃ w, WaterJugSolver.construct 1 1 = some w ∧
      ∃ w1 w2 b p1 p2, w.Solve 4 1 [] = some (w1, b, p1) ∧
        w1.Solve 4 1 [] = some (w2, b, p2) ∧ (b = true → p1.length = p2.length) :=
  ⟨_, rfl,
    C7_repeated_query_idempotent 1 1 (by decide) (by decide) _ (Reachable.fresh rfl) 1 4 4
      (by decide) (by decide) [] []⟩

/-- C8: for `X, Y > 0`, every target `t` and every solver state reached by any finite
sequence of earlier `Solve` calls, `Solve(t)` returns the same flag and, on success, a
path of the same length as `Solve(t)` on a freshly constructed `WaterJugSolver(X, Y)`. -/
theorem C8_no_cross_contamination (X Y : Int) (hX : 0 < X) (hY : 0 < Y)
    (w : WaterJugSolver) (hw : Reachable X Y w) (w0 : WaterJugSolver)
    (hw0 : WaterJugSolver.construct X Y = some w0) (t : Int) (f1 f2 : Nat)
    (hf1 : 2 * (X + Y) ≤ f1) (hf2 : 2 * (X + Y) ≤ f2) (pa pb : Path) :
    ∃ w1 w2 b p1 p2, w.Solve f1 t pa = some (w1, b, p1) ∧
      w0.Solve f2 t pb = some (w2, b, p2) ∧ (b = true → p1.length = p2.length) := by
  have hr0 := Reachable.fresh hw0
  obtain ⟨w1, b, p1, hs1⟩ := Solver_total hX hY hw hf1 t pa
  obtain ⟨w2, b2, p2, hs2⟩ := Solver_total hX hY hr0 hf2 t pb
  obtain ⟨a1, _, a3⟩ := Solver_some_spec hX hY hw hs1
  obtain ⟨b1, _, b3⟩ := Solver_some_spec hX hY hr0 hs2
  have hb : b2 = b := flag_eq a1 b1
  subst hb
  exact ⟨w1, w2, b2, p1, p2, hs1, hs2, fun h => (a3 h).length_unique (b3 h)⟩

theorem C8_witness :
    ∃ w1 w2 b p1 p2,
      (afterCall (afterCall (freshSolver 3 5 (by decide)) 16 7 [] (by decide)) 16 1 []
        (by decide)).Solve 16 2 [] = some (w1, b, p1) ∧
      (freshSolver 3 5 (by decide)).Solve 16 2 [] = some (w2, b, p2) ∧
      (b = true → p1.length = p2.length) :=
  C8_no_cross_contamination 3 5 (by decide) (by decide) _
    (((Reachable.freshSolver 3 5 (by decide)).afterCall 16 7 [] (by decide)).afterCall
      16 1 [] (by decide))
    _ (freshSolver_eq 3 5 (by decide)) 2 16 16 (by decide) (by decide) [] []

/-- C9: in every solver state, for every target and every initial content of `*path`:
if `Solve` returns false, `*path` is exactly what it was before the call; if it returns
true, the returned path is the same whatever `*path` held before, so nothing of a
previous answer survives in it. -/
theorem C9_path_untouched_or_overwritten (w : WaterJugSolver) (fuel : Nat) (t : Int)
    (pa : Path) (w1 : WaterJugSolver) (b : Bool) (p1 : Path)
    (h : w.Solve fuel t pa = some (w1, b, p1)) :
    (b = false → p1 = pa) ∧
    (b = true → ∀ pb : Path, w.Solve fuel t pb = some (w1, true, p1)) := by
  refine ⟨(Solver_path_frame h pa).1, ?_⟩
  intro hb pb
  have := (Solver_path_frame h pb).2
  rw [hb] at this
  simpa using this

theorem C9_witness :
    ∃ w w1 b p1, WaterJugSolver.construct 2 3 = some w ∧
      w.Solve 10 1 [(7, 7), (8, 8), (9, 9), (6, 6), (5, 5)] = some (w1, b, p1) ∧
      ((b = false → p1 = [(7, 7), (8, 8), (9, 9), (6, 6), (5, 5)]) ∧
       (b = true → ∀ pb : Path, w.Solve 10 1 pb = some (w1, true, p1))) :=
  ⟨_, _, _, _, rfl, rfl, C9_path_untouched_or_overwritten _ 10 1 _ _ _ _ rfl⟩

/-- C10 as stated fails when `X + Y` does not fit `int`: the fresh
`WaterJugSolver(2^30, 2^30)` stores the sum `-2^31` and rejects `Solve(0)`, whatever the
iteration budget. -/
theorem C10_counterexample :
    ∃ w, WaterJugSolver.construct 1073741824 1073741824 = some w ∧
      Reachable 1073741824 1073741824 w ∧ w.F_ < 0 ∧
      ∀ (fuel : Nat) (path : Path), w.Solve fuel 0 path = some (w, false, path) := by
  obtain ⟨w, hw⟩ := @construct_some 1073741824 1073741824 (by decide) (by decide) (by decide)
  have hr := Reachable.fresh hw
  have h := @Solver_overflow 1073741824 1073741824 (by decide) (by decide) (by decide)
    (by decide) (by decide) w hr
  exact ⟨w, hw, hr, (h 0 0 []).1, fun fuel path => (h fuel 0 path).2⟩

/-- C10 (amended): for capacities `X, Y > 0` whose sum `X + Y` fits `int`, in every
reachable solver state and with any iteration budget (even none), `Solve(0)` returns
true with the path `[(0,0)]` and leaves the solver as it was: no frontier entry is
expanded. -/
theorem C10_target_zero_immediate (X Y : Int) (hX : 0 < X) (hY : 0 < Y)
    (hF : X + Y ≤ INT_MAX) (w : WaterJugSolver) (hw : Reachable X Y w) (fuel : Nat)
    (path : Path) :
    w.Solve fuel 0 path = some (w, true, [(0, 0)]) := by
  obtain ⟨hFw, hr, hI, _⟩ := hw.inv hX hY
  rw [wrapInt_eq (by omega) hF] at hFw
  have hg := (gcd_facts hX hY).1
  unfold WaterJugSolver.Solve
  rw [if_neg (by omega), if_neg (by simp), Int.zero_tdiv, Solve_zero hI]
  simp only [Option.some_bind, Bool.true_eq_false, if_false]
  split_ifs <;> simp [rescale]

theorem C10_witness :
    ∃ w, WaterJugSolver.construct 1 1 = some w ∧ w.Solve 0 0 [] = some (w, true, [(0, 0)]) :=
  ⟨_, rfl,
    C10_target_zero_immediate 1 1 (by decide) (by decide) (by decide) _
      (Reachable.fresh rfl) 0 []⟩

/-! ## The index bijection, onto -/

theorem OtherEnd_pour {X Y : Int} (hX : 1 ≤ X) (hXY : X ≤ Y) (x y : Int)
    (hc : Canon X Y (x, y)) (h0 : ¬ (x = 0 ∧ y = 0)) (h1 : ¬ (x = X ∧ y = Y)) (pv : Pos)
    (d : Int) :
    Canon X Y (OtherEnd X Y ⟨(x, y), pv, d⟩) ∧
    (OtherEnd X Y ⟨(x, y), pv, d⟩).1 + (OtherEnd X Y ⟨(x, y), pv, d⟩).2 = x + y ∧
    OtherEnd X Y ⟨(x, y), pv, d⟩ ≠ (x, y) ∧
    (OtherEnd X Y ⟨(x, y), pv, d⟩ = pour12 Y (x, y) ∨
      OtherEnd X Y ⟨(x, y), pv, d⟩ = pour21 X (x, y)) ∧
    (pour12 Y (x, y) = OtherEnd X Y ⟨(x, y), pv, d⟩ ∨ pour12 Y (x, y) = (x, y)) ∧
    (pour21 X (x, y) = OtherEnd X Y ⟨(x, y), pv, d⟩ ∨ pour21 X (x, y) = (x, y)) := by
  unfold Canon at hc
  dsimp only at hc
  have hmin1 : (min x (Y - y) = x ∧ x ≤ Y - y) ∨ (min x (Y - y) = Y - y ∧ Y - y ≤ x) := by
    omega
  have hmin2 : (min y (X - x) = y ∧ y ≤ X - x) ∨ (min y (X - x) = X - x ∧ X - x ≤ y) := by
    omega
  unfold OtherEnd pour12 pour21 Canon
  dsimp only
  rcases hmin1 with ⟨m1, m1b⟩ | ⟨m1, m1b⟩ <;> rcases hmin2 with ⟨m2, m2b⟩ | ⟨m2, m2b⟩ <;>
    rw [m1, m2] <;> clear m1 m2 <;> split_ifs <;>
    refine ⟨⟨?_, ?_, ?_, ?_, ?_⟩, ?_, ?_, ?_, ?_, ?_⟩ <;>
    (try rw [ne_eq]) <;> (try rw [Prod.mk.injEq]) <;> (try rw [Prod.mk.injEq]) <;> omega

/-! ## Monotone growth of the cache -/

theorem Grows.refl (e : WaterJugSolverCoprime) : Grows e e :=
  ⟨rfl, rfl, le_refl _, ⟨[], by simp⟩, fun _ _ h _ => h⟩

theorem Grows.trans {e e1 e2 : WaterJugSolverCoprime} (h1 : Grows e e1) (h2 : Grows e1 e2) :
    Grows e e2 := by
  obtain ⟨a1, a2, a3, ⟨l1, a4⟩, a5⟩ := h1
  obtain ⟨b1, b2, b3, ⟨l2, b4⟩, b5⟩ := h2
  refine ⟨b1.trans a1, b2.trans a2, le_trans a3 b3, ⟨l1 ++ l2, ?_⟩, ?_⟩
  · rw [b4, a4, List.append_assoc]
  · intro k st hk hd
    exact b5 k st (a5 k st hk hd) hd

theorem Explore_grows {e e1 : WaterJugSolverCoprime} {src : Int} {q : Pos} {t : Int}
    {sol sol1 : Option Int} {b : Bool} (h : Explore e src q t sol = some (e1, b, sol1)) :
    Grows e e1 ∧ e1.queue_start_ = e.queue_start_ := by
  obtain ⟨a1, a2, a3, a4⟩ := Explore_frame h
  refine ⟨⟨a1, a2, le_of_eq a3.symm, ?_, a4⟩, a3⟩
  unfold Explore at h
  rw [Option.bind_eq_some] at h
  obtain ⟨d, hd, h⟩ := h
  by_cases hdd : d.depth ≠ -1
  · rw [if_pos hdd] at h
    injection h with h
    injection h with h1 h2
    subst h1
    exact ⟨[], by simp⟩
  · rw [if_neg hdd] at h
    simp only at h
    rw [Option.bind_eq_some] at h
    obtain ⟨s, hs, h⟩ := h
    split_ifs at h <;>
    · injection h with h
      injection h with h1 h2
      subst h1
      exact ⟨[StateIndex e.X_ e.Y_ q], rfl⟩

theorem orExplore_grows {s s1 : Search} {src : Int} {q : Pos} {t : Int}
    (h : orExplore s src q t = some s1) :
    Grows s.e s1.e ∧ s1.e.queue_start_ = s.e.queue_start_ := by
  unfold orExplore at h
  rw [Option.map_eq_some'] at h
  obtain ⟨⟨e1, b, sol1⟩, hr, rfl⟩ := h
  exact Explore_grows hr

theorem stage_grows {s s1 : Search} {src : Int} {t : Int} {c1 c2 : Prop} [Decidable c1]
    [Decidable c2] {q1 q2 : Pos}
    (h : (if c1 then orExplore s src q1 t else if c2 then orExplore s src q2 t else some s)
      = some s1) :
    Grows s.e s1.e ∧ s1.e.queue_start_ = s.e.queue_start_ := by
  split_ifs at h
  · exact orExplore_grows h
  · exact orExplore_grows h
  · injection h with h
    subst h
    exact ⟨Grows.refl _, rfl⟩

/-- One loop iteration, in any engine state: the cursor moves by exactly one and the
cache grows. -/
theorem expand_grows {s s1 : Search} {t : Int} (h : expand s t = some s1) :
    Grows s.e s1.e ∧ s1.e.queue_start_ = s.e.queue_start_ + 1 := by
  unfold expand at h
  rw [Option.bind_eq_some] at h
  obtain ⟨k, _, h⟩ := h
  simp only at h
  rw [Option.bind_eq_some] at h
  obtain ⟨src, _, h⟩ := h
  rw [Option.bind_eq_some] at h
  obtain ⟨sa, ha, h⟩ := h
  rw [Option.bind_eq_some] at h
  obtain ⟨sb, hb, h⟩ := h
  obtain ⟨ga, qa⟩ := stage_grows ha
  obtain ⟨gb, qb⟩ := stage_grows hb
  have g0 : Grows s.e { s.e with queue_start_ := s.e.queue_start_ + 1 } :=
    ⟨rfl, rfl, Nat.le_succ _, ⟨[], by simp⟩, fun _ _ h _ => h⟩
  simp only at ga qa
  have gab : Grows s.e sb.e := g0.trans (ga.trans gb)
  have qab : sb.e.queue_start_ = s.e.queue_start_ + 1 := by rw [qb, qa]
  split_ifs at h
  · injection h with h
    subst h
    exact ⟨gab, qab⟩
  · rw [Option.bind_eq_some] at h
    obtain ⟨src2, _, h⟩ := h
    obtain ⟨gc, qc⟩ := orExplore_grows h
    exact ⟨gab.trans gc, by rw [qc, qab]⟩

theorem SolveLoop_grows (t : Int) : ∀ (fuel : Nat) (s s1 : Search),
    SolveLoop t fuel s = some s1 →
    Grows s.e s1.e ∧
    SolveLoop t (s1.e.queue_start_ - s.e.queue_start_) s = some s1 := by
  intro fuel
  induction fuel with
  | zero =>
    intro s s1 h
    simp only [SolveLoop] at h
    split_ifs at h with hc
    injection h with h
    subst h
    exact ⟨Grows.refl _, SolveLoop_done hc⟩
  | succ n ih =>
    intro s s1 h
    by_cases hc : s.solved = false ∧ s.e.queue_start_ < s.e.queue_.length
    · simp only [SolveLoop] at h
      rw [if_pos hc, Option.bind_eq_some] at h
      obtain ⟨s2, h2, h⟩ := h
      obtain ⟨g2, q2⟩ := expand_grows h2
      obtain ⟨g3, h3⟩ := ih s2 s1 h
      refine ⟨g2.trans g3, ?_⟩
      have hle := g3.2.2.1
      have : s1.e.queue_start_ - s.e.queue_start_ =
          (s1.e.queue_start_ - s2.e.queue_start_) + 1 := by omega
      rw [this]
      simp only [SolveLoop]
      rw [if_pos hc, h2]
      exact h3
    · rw [SolveLoop_done hc] at h
      injection h with h
      subst h
      exact ⟨Grows.refl _, SolveLoop_done hc⟩

/-- A call of the engine's `Solve`, in any engine state: the cache grows, and the number
of loop iterations the call performs is the distance the cursor moves. -/
theorem Solve_grows {e e1 : WaterJugSolverCoprime} {fuel : Nat} {t : Int} {path p1 : Path}
    {b : Bool} (h : e.Solve fuel t path = some (e1, b, p1)) :
    Grows e e1 ∧ e.Solve (e1.queue_start_ - e.queue_start_) t path = some (e1, b, p1) := by
  unfold WaterJugSolverCoprime.Solve at h ⊢
  rw [Option.bind_eq_some] at h
  obtain ⟨c, hc, h⟩ := h
  rw [Option.bind_eq_some] at h
  obtain ⟨s, hs, h⟩ := h
  obtain ⟨g, hs1⟩ := SolveLoop_grows t fuel _ s hs
  simp only at g hs1
  have he1 : s.e = e1 := by
    split_ifs at h
    · injection h with h
      injection h with a1 _
    · rw [Option.bind_eq_some] at h
      obtain ⟨solIdx, _, h⟩ := h
      rw [Option.bind_eq_some] at h
      obtain ⟨sol, _, h⟩ := h
      simp only at h
      split_ifs at h
      rw [Option.map_eq_some'] at h
      obtain ⟨p, _, h⟩ := h
      injection h with a1 _
  subst he1
  refine ⟨g, ?_⟩
  rw [hc]
  simp only [Option.some_bind]
  rw [hs1]
  exact h

/-! ## The cached lookup returns the first match -/

theorem FindCachedSol_first (states : List State) (t : Int) (sol : Option Int) :
    ∀ (l1 : List Int) (j : Int) (l2 : List Int) (st : State),
    (∀ k ∈ l1, (∃ s, stateAt states k = some s) ∧ ¬ Matches states t k) →
    stateAt states j = some st → total st.pos = t →
    FindCachedSol states t sol (l1 ++ j :: l2) = some (true, some j) := by
  intro l1
  induction l1 with
  | nil =>
    intro j l2 st _ hst ht
    unfold total at ht
    simp [FindCachedSol, hst, ht]
  | cons k rest ih =>
    intro j l2 st hall hst ht
    obtain ⟨⟨s, hs⟩, hno⟩ := hall k (List.mem_cons_self k rest)
    have hne : ¬ s.pos.1 + s.pos.2 = t := fun h => hno ⟨s, hs, h⟩
    simp only [List.cons_append, FindCachedSol, hs, Option.some_bind, ne_eq, hne,
      not_false_eq_true, if_true]
    exact ih j l2 st (fun k1 hk1 => hall k1 (List.mem_cons_of_mem k hk1)) hst ht

theorem exists_first_match (states : List State) (t : Int) :
    ∀ l : List Int, (∃ j ∈ l, Matches states t j) →
    ∃ l1 j l2, l = l1 ++ j :: l2 ∧ Matches states t j ∧ ∀ k ∈ l1, ¬ Matches states t k := by
  intro l
  induction l with
  | nil =>
    rintro ⟨j, hj, _⟩
    exact absurd hj (List.not_mem_nil j)
  | cons a rest ih =>
    rintro ⟨j, hj, hm⟩
    by_cases ha : Matches states t a
    · exact ⟨[], a, rest, rfl, ha, fun k hk => absurd hk (List.not_mem_nil k)⟩
    · rw [List.mem_cons] at hj
      rcases hj with hj | hj
      · subst hj
        exact absurd hm ha
      · obtain ⟨l1, j1, l2, h1, h2, h3⟩ := ih ⟨j, hj, hm⟩
        refine ⟨a :: l1, j1, l2, by rw [h1]; rfl, h2, ?_⟩
        intro k hk
        rw [List.mem_cons] at hk
        rcases hk with hk | hk
        · subst hk
          exact ha
        · exact h3 k hk

/-- When the frontier holds a position of total `t`, the engine's `Solve(t)` answers
with the predecessor chain of the first such entry and changes nothing, whatever the
iteration budget. -/
theorem Solve_cached {e : WaterJugSolverCoprime} (hI : Inv e) {t : Int}
    {l1 l2 : List Int} {j : Int} {st : State} (hq : e.queue_ = l1 ++ j :: l2)
    (hst : stateAt e.states_ j = some st) (ht : total st.pos = t)
    (hno : ∀ k ∈ l1, ¬ Matches e.states_ t k) (fuel : Nat) (path : Path) :
    ∃ p1, e.Solve fuel t path = some (e, true, p1) ∧
      trail e st.depth.toNat st.pos = some p1 ∧ p1.getLast? = some st.pos ∧
      (p1.length : Int) = st.depth + 1 := by
  have hj : j ∈ e.queue_ := by rw [hq]; simp
  obtain ⟨hd0, _, _⟩ := hI.slot hj hst
  obtain ⟨l, e1, e2, _, e4, _⟩ := trail_spec hI st.depth.toNat j st hst (by omega)
  have hF : FindCachedSol e.states_ t none e.queue_ = some (true, some j) := by
    rw [hq]
    apply FindCachedSol_first e.states_ t none l1 j l2 st _ hst ht
    intro k hk
    obtain ⟨s, hs, _⟩ := hI.hq k (by rw [hq]; exact List.mem_append_left _ hk)
    exact ⟨⟨s, hs⟩, hno k hk⟩
  refine ⟨l, ?_, e1, e4, by rw [e2]; push_cast; omega⟩
  unfold WaterJugSolverCoprime.Solve
  rw [hF]
  simp only [Option.some_bind]
  rw [SolveLoop_done (by simp)]
  simp only [Option.some_bind, Bool.true_eq_false, if_false, hst]
  rw [if_neg (by omega)]
  have hn : (st.depth + 1).toNat = st.depth.toNat + 1 := by omega
  rw [hn, Nat.add_sub_cancel, backtrack_resize, e1]
  rfl

/-- Every position on a chain of engine moves from the origin is canonical. -/
theorem chain_canon {X Y : Int} (hX : 1 ≤ X) (hXY : X ≤ Y) :
    ∀ (l : Path) (a : Pos), Canon X Y a → List.Chain (EngineMove X Y) a l →
    ∀ p ∈ l, Canon X Y p := by
  intro l
  induction l with
  | nil =>
    intro a _ _ p hp
    exact absurd hp (List.not_mem_nil p)
  | cons b rest ih =>
    intro a ha hc p hp
    rw [List.chain_cons] at hc
    have hb : Canon X Y b := Canon_successors hX hXY ha hc.1.2
    rw [List.mem_cons] at hp
    rcases hp with hp | hp
    · subst hp
      exact hb
    · exact ih b hb hc.2 p hp

theorem chain'_canon {X Y : Int} (hX : 1 ≤ X) (hXY : X ≤ Y) {l : Path}
    (hh : l.head? = some (0, 0)) (hc : List.Chain' (EngineMove X Y) l) :
    ∀ p ∈ l, Canon X Y p := by
  cases l with
  | nil => simp at hh
  | cons a rest =>
    simp only [List.head?_cons, Option.some.injEq] at hh
    subst hh
    intro p hp
    rw [List.mem_cons] at hp
    rcases hp with hp | hp
    · subst hp
      exact Canon_origin hX hXY
    · exact chain_canon hX hXY rest (0, 0) (Canon_origin hX hXY) hc p hp

/-! ## One expansion discovers at most one position of a given total -/

/-- With capacities `X < Y`, the positions handed to `Explore` in one iteration have
pairwise different coordinate sums. -/
theorem successors_total_inj {X Y : Int} (hX : 1 ≤ X) (hXY : X < Y) {p q1 q2 : Pos}
    (hp : Canon X Y p) (h1 : q1 ∈ successors X Y p) (h2 : q2 ∈ successors X Y p)
    (ht : total q1 = total q2) : q1 = q2 := by
  obtain ⟨a, b⟩ := p
  obtain ⟨a1, b1⟩ := q1
  obtain ⟨a2, b2⟩ := q2
  unfold Canon at hp
  unfold total at ht
  simp only at hp ht
  unfold successors OtherEnd at h1 h2
  simp only [List.mem_append] at h1 h2
  rw [Prod.mk.injEq]
  rcases h1 with h1 | h1 | h1 <;> rcases h2 with h2 | h2 | h2 <;>
    split_ifs at h1 h2 <;> simp at h1 h2 <;> omega

theorem orExplore_sole {s s1 : Search} {k : Int} {c : Nat} {t : Int} {src : State} {q : Pos}
    {X Y : Int} (hx : s.e.X_ = X) (hy : s.e.Y_ = Y) (hlt : X < Y)
    (hM : Mid s k c t) (hs : stateAt s.e.states_ k = some src)
    (hq : q ∈ successors X Y src.pos)
    (hU : ∀ j ∈ s.e.queue_, Matches s.e.states_ t j →
      s.sol = some j ∧ ∃ r ∈ successors X Y src.pos, total r = t ∧ StateIndex X Y r = j)
    (h1 : orExplore s k q t = some s1) :
    ∀ j ∈ s1.e.queue_, Matches s1.e.states_ t j →
      s1.sol = some j ∧ ∃ r ∈ successors X Y src.pos, total r = t ∧ StateIndex X Y r = j := by
  have hI := hM.inv
  have hk : k ∈ s.e.queue_ := List.getElem?_mem hM.hc
  obtain ⟨hs0, hsC, hsI⟩ := hI.slot hk hs
  subst hx
  subst hy
  have hqC : Canon s.e.X_ s.e.Y_ q := Canon_successors hI.hX hI.hXY hsC hq
  obtain ⟨d, hd⟩ := hI.index_range hqC
  by_cases hdd : d.depth = -1
  · have hE := @Explore_fresh s.e k q t s.sol d src hd hdd hs (by omega)
    unfold orExplore at h1
    rw [hE] at h1
    simp only [Option.map_some'] at h1
    injection h1 with h1
    subst h1
    have hself : stateAt
        (push s.e (StateIndex s.e.X_ s.e.Y_ q) ⟨q, src.pos, src.depth + 1⟩).states_
        (StateIndex s.e.X_ s.e.Y_ q) = some ⟨q, src.pos, src.depth + 1⟩ :=
      push_stateAt_self hd
    have hold : ∀ j ∈ s.e.queue_, stateAt
        (push s.e (StateIndex s.e.X_ s.e.Y_ q) ⟨q, src.pos, src.depth + 1⟩).states_ j =
        stateAt s.e.states_ j :=
      fun j hj => push_stateAt_ne hd (hI.ne_of_mem hd hdd hj)
    intro j hj hm
    change j ∈ s.e.queue_ ++ [_] at hj
    rw [List.mem_append, List.mem_singleton] at hj
    obtain ⟨st, h1, h2⟩ := hm
    change stateAt (push _ _ _).states_ j = some st at h1
    show (if total q = t then some (StateIndex s.e.X_ s.e.Y_ q) else s.sol) = some j ∧ _
    rcases hj with hj | hj
    · rw [hold j hj] at h1
      obtain ⟨hsol, r, hr, hrt, hri⟩ := hU j hj ⟨st, h1, h2⟩
      have hne : ¬ total q = t := by
        intro ht
        have hrq : r = q := successors_total_inj hI.hX hlt hsC hr hq (by rw [hrt, ht])
        rw [hrq] at hri
        exact hI.ne_of_mem hd hdd hj hri.symm
      rw [if_neg hne]
      exact ⟨hsol, r, hr, hrt, hri⟩
    · subst hj
      rw [hself] at h1
      injection h1 with h1
      subst h1
      have ht : total q = t := h2
      rw [if_pos ht]
      exact ⟨rfl, q, hq, ht, rfl⟩
  · have hE := @Explore_visited s.e k q t s.sol d hd hdd
    unfold orExplore at h1
    rw [hE] at h1
    simp only [Option.map_some'] at h1
    injection h1 with h1
    subst h1
    exact hU

theorem exploreAll_sole {k : Int} {c : Nat} {t : Int} {src : State} {X Y : Int}
    (hlt : X < Y) (l : List Pos) :
    ∀ {s s1 : Search}, s.e.X_ = X → s.e.Y_ = Y → Mid s k c t →
    stateAt s.e.states_ k = some src → (∀ q ∈ l, q ∈ successors X Y src.pos) →
    (∀ j ∈ s.e.queue_, Matches s.e.states_ t j →
      s.sol = some j ∧ ∃ r ∈ successors X Y src.pos, total r = t ∧ StateIndex X Y r = j) →
    exploreAll k t s l = some s1 →
    ∀ j ∈ s1.e.queue_, Matches s1.e.states_ t j →
      s1.sol = some j ∧ ∃ r ∈ successors X Y src.pos, total r = t ∧ StateIndex X Y r = j := by
  induction l with
  | nil =>
    intro s s1 _ _ _ _ _ hU h
    simp only [exploreAll] at h
    injection h with h
    subst h
    exact hU
  | cons q rest ih =>
    intro s s1 hx hy hM hs hl hU h
    simp only [exploreAll] at h
    rw [Option.bind_eq_some] at h
    obtain ⟨s2, h2, h⟩ := h
    have hq : q ∈ successors s.e.X_ s.e.Y_ src.pos := by
      rw [hx, hy]
      exact hl q (List.mem_cons_self q rest)
    obtain ⟨s2a, h2a, hM2, _⟩ := orExplore_Mid hM hs hq
    rw [h2] at h2a
    injection h2a with h2a
    subst h2a
    obtain ⟨a1, a2, a3, a4⟩ := orExplore_frame h2
    have hkm : k ∈ s.e.queue_ := List.getElem?_mem hM.hc
    have hs2 : stateAt s2.e.states_ k = some src :=
      a4 k src hs (by have := (hM.inv.slot hkm hs).1; omega)
    have hU2 := orExplore_sole hx hy hlt hM hs (hl q (List.mem_cons_self q rest)) hU h2
    exact ih (a1.trans hx) (a2.trans hy) hM2 hs2
      (fun r hr => hl r (List.mem_cons_of_mem q hr)) hU2 h

/-- One iteration of the loop with capacities `X_ < Y_`, started with no position of
total `t` in the frontier: afterwards every frontier entry of total `t` is `sol`. -/
theorem expand_sole {s s1 : Search} {t : Int} (hL : LoopInv s t) (hXY : s.e.X_ < s.e.Y_)
    (hsolved : s.solved = false) (hlt : s.e.queue_start_ < s.e.queue_.length)
    (h : expand s t = some s1) :
    ∀ j ∈ s1.e.queue_, Matches s1.e.states_ t j → s1.sol = some j := by
  have hI := hL.inv
  have hB := hL.bfs
  obtain ⟨k, hk⟩ : ∃ k, s.e.queue_[s.e.queue_start_]? = some k :=
    ⟨_, List.getElem?_eq_getElem hlt⟩
  have hkm : k ∈ s.e.queue_ := List.getElem?_mem hk
  obtain ⟨src, hsrc, hsrc0, hsrcC, hsrcI⟩ := hI.hq k hkm
  rw [expand_eq_exploreAll hk hsrc (by omega)] at h
  have hM0 : Mid { s with e := { s.e with queue_start_ := s.e.queue_start_ + 1 } } k
      s.e.queue_start_ t := by
    refine ⟨⟨hI.hX, hI.hXY, hI.hlen, ?_, hI.hnodup, hI.hq, hI.hvis, hI.hhead, hI.hzero,
      hI.horigin, hI.hprev⟩, ⟨hB.hsorted, hB.hspan, hB.hclosed⟩, hk, rfl, ?_, ?_, ?_⟩
    · show s.e.queue_start_ + 1 ≤ s.e.queue_.length
      omega
    · intro j hj hm
      exact absurd hm (hL.hunsolved hsolved j hj)
    · intro h
      change s.solved = true at h
      rw [hsolved] at h
      exact absurd h (by simp)
    · intro _ j hj hm
      exact hL.hunsolved hsolved j hj hm
  intro j hj hm
  exact (@exploreAll_sole k s.e.queue_start_ t src s.e.X_ s.e.Y_ hXY
    (successors s.e.X_ s.e.Y_ src.pos)
    { s with e := { s.e with queue_start_ := s.e.queue_start_ + 1 } } s1 rfl rfl hM0 hsrc
    (fun q hq => hq)
    (fun j hj hm => absurd hm (hL.hunsolved hsolved j hj)) h j hj hm).1

theorem SolveLoop_sole (t : Int) : ∀ (fuel : Nat) (s s1 : Search), LoopInv s t →
    s.e.X_ < s.e.Y_ → s.solved = false → SolveLoop t fuel s = some s1 →
    ∀ j ∈ s1.e.queue_, Matches s1.e.states_ t j → s1.sol = some j := by
  intro fuel
  induction fuel with
  | zero =>
    intro s s1 hL _ hs h
    simp only [SolveLoop] at h
    split_ifs at h with hc
    injection h with h
    subst h
    intro j hj hm
    exact absurd hm (hL.hunsolved hs j hj)
  | succ n ih =>
    intro s s1 hL hXY hs h
    by_cases hc : s.solved = false ∧ s.e.queue_start_ < s.e.queue_.length
    · simp only [SolveLoop] at h
      rw [if_pos hc, Option.bind_eq_some] at h
      obtain ⟨s2, h2, h⟩ := h
      obtain ⟨s2a, h2a, hL2, _, hX2, hY2⟩ := expand_LoopInv hL hc.1 hc.2
      rw [h2] at h2a
      injection h2a with h2a
      subst h2a
      have hU2 := expand_sole hL hXY hc.1 hc.2 h2
      by_cases hs2 : s2.solved = false
      · exact ih s2 s1 hL2 (by rw [hX2, hY2]; exact hXY) hs2 h
      · rw [SolveLoop_done (fun hh => hs2 hh.1)] at h
        injection h with h
        subst h
        exact hU2
    · rw [SolveLoop_done hc] at h
      injection h with h
      subst h
      intro j hj hm
      exact absurd hm (hL.hunsolved hs j hj)

/-- With capacities `X_ < Y_`, a successful `Solve(t)` of the engine returns the chain of
predecessors of the first frontier entry of total `t`, in the frontier after the
call. -/
theorem Solve_first {e e1 : WaterJugSolverCoprime} (hI : Inv e) (hB : Bfs e e.queue_start_)
    (hXY : e.X_ < e.Y_) {fuel : Nat} {t : Int} {path p1 : Path}
    (h : e.Solve fuel t path = some (e1, true, p1)) :
    ∃ l1 j l2 st, e1.queue_ = l1 ++ j :: l2 ∧ stateAt e1.states_ j = some st ∧
      total st.pos = t ∧ (∀ k ∈ l1, ¬ Matches e1.states_ t k) ∧
      trail e1 st.depth.toNat st.pos = some p1 := by
  by_cases hm : ∃ j ∈ e.queue_, Matches e.states_ t j
  · obtain ⟨l1, j, l2, hq, ⟨st, hst, ht⟩, hno⟩ := exists_first_match e.states_ t e.queue_ hm
    obtain ⟨p2, hs, htr, _⟩ := Solve_cached hI hq hst ht hno fuel path
    rw [hs] at h
    injection h with h
    injection h with a1 a2
    injection a2 with _ a3
    subst a1
    subst a3
    exact ⟨l1, j, l2, st, hq, hst, ht, hno, htr⟩
  · obtain ⟨b0, sol0, hF, hF0, hF1⟩ := FindCachedSol_spec e.states_ t none e.queue_
      (fun k hk => by obtain ⟨st, h, _⟩ := hI.hq k hk; exact ⟨st, h⟩)
    have hb0 : b0 = false := by
      by_contra hb
      have hb : b0 = true := by simpa using hb
      obtain ⟨j, _, h2, h3, _⟩ := hF1 hb
      exact hm ⟨j, h2, h3⟩
    subst hb0
    have hL : LoopInv ⟨e, false, sol0⟩ t :=
      ⟨hI, hB, fun hb => absurd hb (by simp), fun hb => (hF0 hb).2⟩
    unfold WaterJugSolverCoprime.Solve at h
    rw [hF] at h
    simp only [Option.some_bind] at h
    rw [Option.bind_eq_some] at h
    obtain ⟨s, hs, h⟩ := h
    have hU := SolveLoop_sole t fuel _ s hL hXY rfl hs
    obtain ⟨s1a, hs1a, hL1, _⟩ := SolveLoop_spec t (fuel + (2 * (e.X_ + e.Y_)).toNat)
      ⟨e, false, sol0⟩ hL (by push_cast; omega)
    have := SolveLoop_mono t fuel _ s hs _ (Nat.le_add_right fuel (2 * (e.X_ + e.Y_)).toNat)
    rw [hs1a] at this
    injection this with this
    subst this
    by_cases hsol : s1a.solved = false
    · rw [if_pos hsol] at h
      injection h with h
      injection h with _ a2
      injection a2 with a2 _
      exact absurd a2 (by simp)
    · rw [if_neg hsol, Option.bind_eq_some] at h
      obtain ⟨solIdx, h1, h⟩ := h
      rw [Option.bind_eq_some] at h
      obtain ⟨sol, h2, h⟩ := h
      by_cases hn : sol.depth + 1 ≤ 0
      · rw [if_pos hn] at h
        exact absurd h (by simp)
      · rw [if_neg hn, Option.map_eq_some'] at h
        obtain ⟨p, hp, h⟩ := h
        injection h with a1 a2
        injection a2 with _ a3
        subst a1
        subst a3
        have hmm : (sol.depth + 1).toNat = ((sol.depth + 1).toNat - 1) + 1 := by omega
        rw [hmm, Nat.add_sub_cancel, backtrack_resize] at hp
        have hsol1 : s1a.solved = true := by simpa using hsol
        obtain ⟨j0, g1, g2, g3, _⟩ := hL1.hsolved hsol1
        obtain ⟨l1, j, l2, hq, ⟨st, hst, ht⟩, hno⟩ :=
          exists_first_match s1a.e.states_ t s1a.e.queue_ ⟨j0, g2, g3⟩
        have hj : j ∈ s1a.e.queue_ := by rw [hq]; simp
        have := hU j hj ⟨st, hst, ht⟩
        rw [h1] at this
        injection this with this
        subst this
        rw [h2] at hst
        injection hst with hst
        subst hst
        refine ⟨l1, solIdx, l2, sol, hq, h2, ht, hno, ?_⟩
        have hd : sol.depth.toNat = (sol.depth + 1).toNat - 1 := by omega
        rw [hd]
        exact hp

/-! ## The cache is built in one fixed order -/

/-- The engine that `Explore` leaves does not depend on the target or on `*sol`. -/
theorem Explore_engine {e e1 : WaterJugSolverCoprime} {src : Int} {q : Pos} {t : Int}
    {sol sol1 : Option Int} {b : Bool} (h : Explore e src q t sol = some (e1, b, sol1))
    (t1 : Int) (sola : Option Int) :
    ∃ b1 sol2, Explore e src q t1 sola = some (e1, b1, sol2) := by
  unfold Explore at h ⊢
  rw [Option.bind_eq_some] at h
  obtain ⟨d, hd, h⟩ := h
  simp only [hd, Option.some_bind]
  by_cases hdd : d.depth ≠ -1
  · rw [if_pos hdd] at h ⊢
    injection h with h
    injection h with h1 h2
    subst h1
    exact ⟨_, _, rfl⟩
  · rw [if_neg hdd] at h ⊢
    simp only at h
    rw [Option.bind_eq_some] at h
    obtain ⟨s, hs, h⟩ := h
    simp only [hs, Option.some_bind]
    have he1 : e1 = { e with
        states_ := setAt (setAt e.states_ (StateIndex e.X_ e.Y_ q) { d with pos := q })
          (StateIndex e.X_ e.Y_ q) { pos := q, prev := s.pos, depth := s.depth + 1 },
        queue_ := e.queue_ ++ [StateIndex e.X_ e.Y_ q] } := by
      split_ifs at h <;>
      · injection h with h
        injection h with h1 h2
        exact h1.symm
    subst he1
    split_ifs <;> exact ⟨_, _, rfl⟩

theorem orExplore_engine {s s1 : Search} {src : Int} {q : Pos} {t : Int}
    (h : orExplore s src q t = some s1) (sa : Search) (t1 : Int) (he : sa.e = s.e) :
    ∃ s2, orExplore sa src q t1 = some s2 ∧ s2.e = s1.e := by
  unfold orExplore at h ⊢
  rw [Option.map_eq_some'] at h
  obtain ⟨⟨e1, b, sol1⟩, hr, rfl⟩ := h
  obtain ⟨b1, sol2, h2⟩ := Explore_engine hr t1 sa.sol
  rw [he, h2]
  exact ⟨_, rfl, rfl⟩

theorem stage_engine {s s1 : Search} {src : Int} {t : Int} {c1 c2 : Prop} [Decidable c1]
    [Decidable c2] {q1 q2 : Pos}
    (h : (if c1 then orExplore s src q1 t else if c2 then orExplore s src q2 t else some s)
      = some s1) (sa : Search) (t1 : Int) (he : sa.e = s.e) :
    ∃ s2, (if c1 then orExplore sa src q1 t1 else if c2 then orExplore sa src q2 t1
      else some sa) = some s2 ∧ s2.e = s1.e := by
  split_ifs at h ⊢
  · exact orExplore_engine h sa t1 he
  · exact orExplore_engine h sa t1 he
  · injection h with h
    subst h
    exact ⟨sa, rfl, he⟩

/-- The engine that one loop iteration leaves depends on the engine before it only. -/
theorem expand_engine {s s1 : Search} {t : Int} (h : expand s t = some s1)
    (sa : Search) (t1 : Int) (he : sa.e = s.e) :
    ∃ s2, expand sa t1 = some s2 ∧ s2.e = s1.e := by
  unfold expand at h ⊢
  rw [Option.bind_eq_some] at h
  obtain ⟨k, hk, h⟩ := h
  rw [he, hk]
  simp only [Option.some_bind] at h ⊢
  rw [Option.bind_eq_some] at h
  obtain ⟨src, hsrc, h⟩ := h
  simp only [hsrc, Option.some_bind]
  rw [Option.bind_eq_some] at h
  obtain ⟨sb, hb, h⟩ := h
  rw [Option.bind_eq_some] at h
  obtain ⟨sc, hc, h⟩ := h
  obtain ⟨sb1, hb1, heb⟩ := stage_engine hb
    { sa with e := { s.e with queue_start_ := s.e.queue_start_ + 1 } } t1 rfl
  rw [hb1]
  simp only [Option.some_bind]
  rw [heb]
  obtain ⟨sc1, hc1, hec⟩ := stage_engine hc sb1 t1 heb
  rw [hc1]
  simp only [Option.some_bind]
  rw [hec]
  split_ifs at h ⊢
  · injection h with h
    subst h
    exact ⟨sc1, rfl, hec⟩
  · rw [Option.bind_eq_some] at h
    obtain ⟨src2, hsrc2, h⟩ := h
    rw [hsrc2]
    simp only [Option.some_bind]
    exact orExplore_engine h sc1 t1 hec

theorem expansions_add (n m : Nat) : ∀ e : WaterJugSolverCoprime,
    expansions (n + m) e = (expansions n e).bind (expansions m) := by
  induction n with
  | zero =>
    intro e
    rw [Nat.zero_add]
    rfl
  | succ n ih =>
    intro e
    rw [Nat.add_right_comm]
    simp only [expansions]
    rw [Option.bind_assoc]
    apply Option.bind_congr
    intro s _
    exact ih s.e

theorem expansions_grows : ∀ (n : Nat) (e e1 : WaterJugSolverCoprime),
    expansions n e = some e1 → Grows e e1 := by
  intro n
  induction n with
  | zero =>
    intro e e1 h
    simp only [expansions] at h
    injection h with h
    subst h
    exact Grows.refl _
  | succ n ih =>
    intro e e1 h
    simp only [expansions] at h
    rw [Option.bind_eq_some] at h
    obtain ⟨s, hs, h⟩ := h
    exact (expand_grows hs).1.trans (ih s.e e1 h)

theorem SolveLoop_expansions (t : Int) : ∀ (fuel : Nat) (s s1 : Search),
    SolveLoop t fuel s = some s1 → ∃ n, expansions n s.e = some s1.e := by
  intro fuel
  induction fuel with
  | zero =>
    intro s s1 h
    simp only [SolveLoop] at h
    split_ifs at h with hc
    injection h with h
    subst h
    exact ⟨0, rfl⟩
  | succ n ih =>
    intro s s1 h
    by_cases hc : s.solved = false ∧ s.e.queue_start_ < s.e.queue_.length
    · simp only [SolveLoop] at h
      rw [if_pos hc, Option.bind_eq_some] at h
      obtain ⟨s2, h2, h⟩ := h
      obtain ⟨m, hm⟩ := ih s2 s1 h
      obtain ⟨s3, h3, he3⟩ := expand_engine h2 ⟨s.e, false, none⟩ 0 rfl
      refine ⟨m + 1, ?_⟩
      simp only [expansions]
      rw [h3]
      simp only [Option.some_bind]
      rw [he3]
      exact hm
    · rw [SolveLoop_done hc] at h
      injection h with h
      subst h
      exact ⟨0, rfl⟩

theorem Solve_expansions {e e1 : WaterJugSolverCoprime} {fuel : Nat} {t : Int}
    {path p1 : Path} {b : Bool} (h : e.Solve fuel t path = some (e1, b, p1)) :
    ∃ n, expansions n e = some e1 := by
  unfold WaterJugSolverCoprime.Solve at h
  rw [Option.bind_eq_some] at h
  obtain ⟨c, hc, h⟩ := h
  rw [Option.bind_eq_some] at h
  obtain ⟨s, hs, h⟩ := h
  obtain ⟨n, hn⟩ := SolveLoop_expansions t fuel _ s hs
  have he1 : s.e = e1 := by
    split_ifs at h
    · injection h with h
      injection h with a1 _
    · rw [Option.bind_eq_some] at h
      obtain ⟨solIdx, _, h⟩ := h
      rw [Option.bind_eq_some] at h
      obtain ⟨sol, _, h⟩ := h
      simp only at h
      split_ifs at h
      rw [Option.map_eq_some'] at h
      obtain ⟨p, _, h⟩ := h
      injection h with a1 _
  subst he1
  exact ⟨n, hn⟩

/-- Every reachable engine state is the constructed engine after some number of loop
iterations. -/
theorem EngineReachable.stage {X Y : Int} {e : WaterJugSolverCoprime}
    (h : EngineReachable X Y e) :
    ∃ e0 n, WaterJugSolverCoprime.construct X Y = some e0 ∧ expansions n e0 = some e := by
  induction h with
  | fresh hc => exact ⟨_, 0, hc, rfl⟩
  | call _ hs ih =>
    obtain ⟨e0, n, h0, hn⟩ := ih
    obtain ⟨m, hm⟩ := Solve_expansions hs
    refine ⟨e0, n + m, h0, ?_⟩
    rw [expansions_add, hn]
    exact hm

/-- Of two reachable states of the same engine, one is a later stage of the other. -/
theorem EngineReachable.comparable {X Y : Int} {e ea : WaterJugSolverCoprime}
    (h1 : EngineReachable X Y e) (h2 : EngineReachable X Y ea) :
    Grows e ea ∨ Grows ea e := by
  obtain ⟨e0, n, h0, hn⟩ := h1.stage
  obtain ⟨e0a, m, h0a, hm⟩ := h2.stage
  rw [h0] at h0a
  injection h0a with h0a
  subst h0a
  rcases le_total n m with hle | hle
  · left
    obtain ⟨k, rfl⟩ := Nat.exists_eq_add_of_le hle
    rw [expansions_add, hn] at hm
    exact expansions_grows k e ea hm
  · right
    obtain ⟨k, rfl⟩ := Nat.exists_eq_add_of_le hle
    rw [expansions_add, hm] at hn
    exact expansions_grows k ea e hn

/-- The chain of predecessors of a visited slot is the same in every later stage. -/
theorem trail_grows {e e1 : WaterJugSolverCoprime} (hI : Inv e) (hG : Grows e e1) :
    ∀ (d : Nat) (j : Int) (st : State), stateAt e.states_ j = some st →
    st.depth = (d : Int) → trail e1 d st.pos = trail e d st.pos := by
  intro d
  induction d with
  | zero =>
    intro j st _ _
    rfl
  | succ d ih =>
    intro j st hst hd
    obtain ⟨_, _, _, hS⟩ := hI.slot_of_visited hst (by omega)
    obtain ⟨st1, h1, h2, h3, _⟩ := hI.hprev j st hst (by omega)
    obtain ⟨g1, g2, _, _, g5⟩ := hG
    have hst1 := g5 j st hst (by omega)
    simp only [trail]
    rw [g1, g2, hS, hst, hst1]
    simp only [Option.some_bind]
    have := ih _ st1 h1 (by push_cast at hd; omega)
    rw [h2] at this
    rw [this]

theorem first_match_unique {P : Int → Prop} : ∀ (l1 m1 : List Int) (j ja : Int)
    (l2 m2 : List Int), l1 ++ j :: l2 = m1 ++ ja :: m2 → (∀ k ∈ l1, ¬ P k) → P j →
    (∀ k ∈ m1, ¬ P k) → P ja → j = ja := by
  intro l1
  induction l1 with
  | nil =>
    intro m1 j ja l2 m2 h _ hj hm _
    cases m1 with
    | nil =>
      simp only [List.nil_append] at h
      injection h
    | cons a m =>
      simp only [List.nil_append, List.cons_append] at h
      injection h with h _
      subst h
      exact absurd hj (hm j (List.mem_cons_self j m))
  | cons a l ih =>
    intro m1 j ja l2 m2 h hl hj hm hja
    cases m1 with
    | nil =>
      simp only [List.nil_append, List.cons_append] at h
      injection h with h _
      subst h
      exact absurd hja (hl a (List.mem_cons_self a l))
    | cons c m =>
      simp only [List.cons_append] at h
      injection h with _ h
      exact ih m j ja l2 m2 h (fun k hk => hl k (List.mem_cons_of_mem a hk)) hj
        (fun k hk => hm k (List.mem_cons_of_mem c hk)) hja

theorem Solve_answer_of_grows {e1 e2 : WaterJugSolverCoprime} (hI1 : Inv e1)
    (hG : Grows e1 e2) {t : Int} {p1 p2 : Path}
    (h1 : ∃ l1 j l2 st, e1.queue_ = l1 ++ j :: l2 ∧ stateAt e1.states_ j = some st ∧
      total st.pos = t ∧ (∀ k ∈ l1, ¬ Matches e1.states_ t k) ∧
      trail e1 st.depth.toNat st.pos = some p1)
    (h2 : ∃ l1 j l2 st, e2.queue_ = l1 ++ j :: l2 ∧ stateAt e2.states_ j = some st ∧
      total st.pos = t ∧ (∀ k ∈ l1, ¬ Matches e2.states_ t k) ∧
      trail e2 st.depth.toNat st.pos = some p2) : p1 = p2 := by
  obtain ⟨l1, j, l2, st, hq, hst, ht, hno, htr⟩ := h1
  obtain ⟨m1, ja, m2, sta, hqa, hsta, hta, hnoa, htra⟩ := h2
  obtain ⟨added, hadd⟩ := hG.2.2.2.1
  have hpres := hG.2.2.2.2
  have hj : j ∈ e1.queue_ := by rw [hq]; simp
  obtain ⟨hd0, _, _⟩ := hI1.slot hj hst
  have hst2 : stateAt e2.states_ j = some st := hpres j st hst (by omega)
  have hno2 : ∀ k ∈ l1, ¬ Matches e2.states_ t k := by
    intro k hk hm
    have hk1 : k ∈ e1.queue_ := by rw [hq]; exact List.mem_append_left _ hk
    obtain ⟨s, hs, hs0, _⟩ := hI1.hq k hk1
    have hs2 := hpres k s hs (by omega)
    obtain ⟨s2, h3, h4⟩ := hm
    rw [hs2] at h3
    injection h3 with h3
    subst h3
    exact hno k hk ⟨s, hs, h4⟩
  have heq : l1 ++ j :: (l2 ++ added) = m1 ++ ja :: m2 := by
    rw [← hqa, hadd, hq, List.append_assoc]
    rfl
  have hjj : j = ja :=
    @first_match_unique (fun k => Matches e2.states_ t k) l1 m1 j ja (l2 ++ added) m2 heq
      hno2 ⟨st, hst2, ht⟩ hnoa ⟨sta, hsta, hta⟩
  subst hjj
  rw [hst2] at hsta
  injection hsta with hsta
  subst hsta
  rw [trail_grows hI1 hG st.depth.toNat j st hst (by omega), htr] at htra
  injection htra

/-- With capacities `X ≠ Y`, the path the engine returns for a target is the same in
every reachable state. -/
theorem Solve_answer_unique {X Y : Int} (hX : 1 ≤ X) (hY : 1 ≤ Y) (hne : X ≠ Y)
    {e ea e1 ea1 : WaterJugSolverCoprime} (he : EngineReachable X Y e)
    (hea : EngineReachable X Y ea) {fuel fuela : Nat} {t : Int} {path patha p1 p1a : Path}
    (h : e.Solve fuel t path = some (e1, true, p1))
    (ha : ea.Solve fuela t patha = some (ea1, true, p1a)) : p1 = p1a := by
  obtain ⟨hI, hB, hx, hy⟩ := he.invariants hX hY
  obtain ⟨hIa, hBa, hxa, hya⟩ := hea.invariants hX hY
  have hlt : e.X_ < e.Y_ := by
    rw [hx, hy]
    rcases lt_or_gt_of_ne hne with hh | hh
    · rw [min_eq_left (le_of_lt hh), max_eq_right (le_of_lt hh)]
      exact hh
    · rw [min_eq_right (le_of_lt hh), max_eq_left (le_of_lt hh)]
      exact hh
  have hlta : ea.X_ < ea.Y_ := by
    rw [hxa, hya, ← hx, ← hy]
    exact hlt
  have f1 := Solve_first hI hB hlt h
  have f2 := Solve_first hIa hBa hlta ha
  have r1 : EngineReachable X Y e1 := EngineReachable.call he h
  have r2 : EngineReachable X Y ea1 := EngineReachable.call hea ha
  rcases r1.comparable r2 with hG | hG
  · exact Solve_answer_of_grows (r1.invariants hX hY).1 hG f1 f2
  · exact (Solve_answer_of_grows (r2.invariants hX hY).1 hG f2 f1).symm

theorem construct_comm (A B : Int) :
    WaterJugSolverCoprime.construct A B = WaterJugSolverCoprime.construct B A := by
  unfold WaterJugSolverCoprime.construct
  rw [min_comm A B, max_comm A B, add_comm A B]

theorem gcd_comm_of_pos {X Y : Int} (hX : 0 < X) (hY : 0 < Y) : gcd X Y = gcd Y X := by
  rw [gcd_eq_of_pos X Y hX hY, gcd_eq_of_pos Y X hY hX, Int.gcd_comm]

theorem Solver_construct_comm {X Y : Int} (hX : 0 < X) (hY : 0 < Y) :
    WaterJugSolver.construct X Y = WaterJugSolver.construct Y X := by
  unfold WaterJugSolver.construct
  simp only
  rw [gcd_comm_of_pos hX hY, construct_comm, add_comm X Y]

theorem Reachable.commute {X Y : Int} {w : WaterJugSolver}
    (hc : WaterJugSolver.construct X Y = WaterJugSolver.construct Y X)
    (h : Reachable X Y w) : Reachable Y X w := by
  induction h with
  | fresh h0 => exact Reachable.fresh (hc ▸ h0)
  | call _ hs ih => exact Reachable.call ih hs

theorem mainLoop_total {X Y : Int} (hX : 0 < X) (hY : 0 < Y) {fuel : Nat}
    (hf : 2 * (X + Y) ≤ fuel) : ∀ (ts : List Int) (w : WaterJugSolver) (path : Path),
    Reachable X Y w → ∃ res, mainLoop fuel w path ts = some res ∧ res.length = ts.length := by
  intro ts
  induction ts with
  | nil =>
    intro w path _
    exact ⟨[], rfl, rfl⟩
  | cons t ts ih =>
    intro w path hw
    obtain ⟨w1, b, p1, h⟩ := Solver_total hX hY hw hf t path
    obtain ⟨res, hr, hl⟩ := ih w1 p1 (Reachable.call hw h)
    refine ⟨(b, p1) :: res, ?_, by simp [hl]⟩
    simp only [mainLoop, h, Option.some_bind, hr, Option.map_some']

/-- Every position of a returned path has the smaller jug's volume first and is within
the capacities. -/
theorem Answer.bounds {X Y : Int} (hX : 0 < X) (hY : 0 < Y) {t : Int} {path : Path}
    (h : Answer X Y t path) :
    ∀ p ∈ path, 0 ≤ p.1 ∧ p.1 ≤ min X Y ∧ 0 ≤ p.2 ∧ p.2 ≤ max X Y := by
  obtain ⟨p2, d, q, rfl, _, hh, _, _, hc, _, _⟩ := h
  obtain ⟨g1, g2, _, g4, g5, _⟩ := engXY_facts hX hY
  have hg := (gcd_facts hX hY).1
  intro p hp
  unfold rescale at hp
  rw [List.mem_map] at hp
  obtain ⟨r, hr, rfl⟩ := hp
  obtain ⟨c1, c2, c3, c4, _⟩ := chain'_canon g1 g2 hh hc r hr
  have hg0 : (0 : Int) ≤ gcd X Y := by omega
  refine ⟨Int.mul_nonneg c1 hg0, ?_, Int.mul_nonneg c3 hg0, ?_⟩
  · rw [← g4]
    exact Int.mul_le_mul_of_nonneg_right c2 hg0
  · rw [← g5]
    exact Int.mul_le_mul_of_nonneg_right c4 hg0

/-- The engine of a reachable solver state is a reachable engine state. -/
theorem Reachable.engine {X Y : Int} {w : WaterJugSolver} (h : Reachable X Y w) :
    EngineReachable (X.tdiv (gcd X Y)) (Y.tdiv (gcd X Y)) w.algo ∧ w.r_ = gcd X Y ∧
    w.F_ = wrapInt (X + Y) := by
  induction h with
  | fresh hc =>
    unfold WaterJugSolver.construct at hc
    rw [Option.map_eq_some'] at hc
    obtain ⟨a, ha, rfl⟩ := hc
    exact ⟨EngineReachable.fresh ha, rfl, rfl⟩
  | call _ hs ih =>
    obtain ⟨hE, hr, hF⟩ := ih
    rcases WaterJugSolver.Solve_cases hs with ⟨_, rfl, _, _⟩ | ⟨_, e1, p2, he, rfl, _⟩
    · exact ⟨hE, hr, hF⟩
    · exact ⟨EngineReachable.call hE he, hr, hF⟩

theorem Solver_congr_fuel {w : WaterJugSolver} {f1 f2 : Nat} {t : Int} {path : Path}
    (h : w.algo.Solve f1 (t.tdiv w.r_) path = w.algo.Solve f2 (t.tdiv w.r_) path) :
    w.Solve f1 t path = w.Solve f2 t path := by
  unfold WaterJugSolver.Solve
  rw [h]

/-- With capacities `X ≠ Y`, the flag and the path that `Solve(t)` returns are the same
in every reachable solver state. -/
theorem Solver_answer_unique {X Y : Int} (hX : 0 < X) (hY : 0 < Y) (hne : X ≠ Y)
    {w wa w1 wa1 : WaterJugSolver} (hw : Reachable X Y w) (hwa : Reachable X Y wa)
    {fuel fuela : Nat} {t : Int} {path patha p1 p1a : Path} {b ba : Bool}
    (h : w.Solve fuel t path = some (w1, b, p1))
    (ha : wa.Solve fuela t patha = some (wa1, ba, p1a)) :
    ba = b ∧ (b = true → p1a = p1) := by
  obtain ⟨s1, _, _⟩ := Solver_some_spec hX hY hw h
  obtain ⟨s1a, _, _⟩ := Solver_some_spec hX hY hwa ha
  have hb : ba = b := flag_eq s1 s1a
  refine ⟨hb, ?_⟩
  intro hbt
  subst hb
  subst hbt
  obtain ⟨hE, hr, _⟩ := hw.engine
  obtain ⟨hEa, hra, _⟩ := hwa.engine
  obtain ⟨_, _, h3, h4, h5, h6, _⟩ := gcd_facts hX hY
  have hne1 : X.tdiv (gcd X Y) ≠ Y.tdiv (gcd X Y) := by
    intro heq
    apply hne
    have e3 := h3
    rw [heq, h4] at e3
    exact e3.symm
  rcases WaterJugSolver.Solve_cases h with ⟨_, _, hf, _⟩ | ⟨_, e1, p2, he, _, hp⟩
  · exact absurd hf (by simp)
  rcases WaterJugSolver.Solve_cases ha with ⟨_, _, hf, _⟩ | ⟨_, e1a, p2a, hea, _, hpa⟩
  · exact absurd hf (by simp)
  rw [hr] at he hp
  rw [hra] at hea hpa
  have := Solve_answer_unique h5 h6 hne1 hE hEa he hea
  rw [hp, hpa, this]

/-- With capacities `X ≠ Y`, after a call `Solve(t)` every further call `Solve(t)`
returns, whatever the iteration budget, the same flag and on success the same path,
and leaves the solver as it is. -/
theorem Solver_repeat {X Y : Int} (hX : 0 < X) (hY : 0 < Y) (hne : X ≠ Y)
    {w w1 : WaterJugSolver} (hw : Reachable X Y w) {fuel : Nat} {t : Int}
    {path p1 : Path} {b : Bool} (h : w.Solve fuel t path = some (w1, b, p1))
    (fuel2 : Nat) (path2 : Path) :
    w1.Solve fuel2 t path2 = some (w1, b, if b = true then p1 else path2) := by
  have hw1 : Reachable X Y w1 := Reachable.call hw h
  obtain ⟨hF1, hr1, hI1, hB1, _, _⟩ := hw1.inv hX hY
  obtain ⟨w2, b2, p2, h2⟩ := @Solver_total X Y hX hY w1 hw1
    (fuel2 + (2 * (X + Y)).toNat) (by push_cast; omega) t path2
  obtain ⟨hb, hp⟩ := Solver_answer_unique hX hY hne hw hw1 h h2
  subst hb
  obtain ⟨s1, s2, _⟩ := Solver_some_spec hX hY hw1 h2
  cases hbv : b2 with
  | false =>
    have hns : ¬ (Solvable X Y t ∧ t ≤ wrapInt (X + Y)) := by
      intro hs
      have := s1.mpr hs
      rw [hbv] at this
      exact absurd this (by simp)
    have hg := (guard_wrap_iff hX hY t).mpr hns
    rw [← hF1, ← hr1] at hg
    rw [Solver_guard hg]
    simp
  | true =>
    subst hbv
    rcases WaterJugSolver.Solve_cases h with ⟨_, _, hf, _⟩ | ⟨_, e1, q1, he, hwe, _⟩
    · exact absurd hf (by simp)
    rcases WaterJugSolver.Solve_cases h2 with ⟨_, _, hf, _⟩ | ⟨_, e2, q2, he2, hwe2, _⟩
    · exact absurd hf (by simp)
    obtain ⟨hI, hB, _⟩ := hw.inv hX hY |>.2.2
    obtain ⟨_, _, _, _, _, hfound, _⟩ := Solve_some_spec hI hB he
    obtain ⟨j, st, hj, hst, ht, _⟩ := hfound rfl
    have halgo : w1.algo = e1 := by rw [hwe]
    have hr : w1.r_ = w.r_ := by rw [hwe]
    rw [halgo, hr] at he2
    have hIe := (Solve_some_spec hI hB he).1
    have hBe := (Solve_some_spec hI hB he).2.1
    obtain ⟨_, _, _, _, _, _, hsame⟩ := Solve_some_spec hIe hBe he2
    obtain ⟨hee, _⟩ := hsame ⟨j, hj, st, hst, ht⟩
    have hz := (Solve_grows he2).2
    rw [hee, Nat.sub_self] at hz
    have hlow : w1.algo.Solve fuel2 (t.tdiv w1.r_) path2 =
        w1.algo.Solve (fuel2 + (2 * (X + Y)).toNat) (t.tdiv w1.r_) path2 := by
      rw [halgo, hr, Solve_mono hz (Nat.zero_le _), Solve_mono hz (Nat.zero_le _)]
    rw [Solver_congr_fuel hlow, h2, hp rfl]
    have hw2 : w2 = w1 := by
      rw [hwe2, hee, ← halgo]
    rw [hw2]
    simp

theorem engX_lt_engY {X Y : Int} (hX : 0 < X) (hY : 0 < Y) (hne : X ≠ Y) :
    engX X Y < engY X Y := by
  obtain ⟨_, _, h3, h4, _, _, _⟩ := gcd_facts hX hY
  have hne1 : X.tdiv (gcd X Y) ≠ Y.tdiv (gcd X Y) := by
    intro heq
    apply hne
    have e3 := h3
    rw [heq, h4] at e3
    exact e3.symm
  unfold engX engY
  rcases lt_or_gt_of_ne hne1 with hh | hh
  · rw [min_eq_left (le_of_lt hh), max_eq_right (le_of_lt hh)]
    exact hh
  · rw [min_eq_right (le_of_lt hh), max_eq_left (le_of_lt hh)]
    exact hh

/-- With capacities `X ≠ Y`, a successful `Solve(t)` returns the rescaled chain of
predecessors of the first frontier entry whose rescaled total is `t`. -/
theorem Solver_first {X Y : Int} (hX : 0 < X) (hY : 0 < Y) (hne : X ≠ Y)
    {w w1 : WaterJugSolver} (hw : Reachable X Y w) {fuel : Nat} {t : Int}
    {path p1 : Path} (h : w.Solve fuel t path = some (w1, true, p1)) :
    ∃ l1 j l2 st, w1.algo.queue_ = l1 ++ j :: l2 ∧ stateAt w1.algo.states_ j = some st ∧
      total st.pos * gcd X Y = t ∧
      (∀ k ∈ l1, ∀ s, stateAt w1.algo.states_ k = some s → total s.pos * gcd X Y ≠ t) ∧
      (trail w1.algo st.depth.toNat st.pos).map (rescale (gcd X Y)) = some p1 := by
  obtain ⟨_, hr, hI, hB, hx, hy⟩ := hw.inv hX hY
  obtain ⟨s1, _, _⟩ := Solver_some_spec hX hY hw h
  obtain ⟨ht1, _, _⟩ := (s1.mp rfl).1.target hX hY
  rcases WaterJugSolver.Solve_cases h with ⟨_, _, hf, _⟩ | ⟨_, e1, p2, he, hwe, hp⟩
  · exact absurd hf (by simp)
  have hlt : w.algo.X_ < w.algo.Y_ := by
    rw [hx, hy]
    exact engX_lt_engY hX hY hne
  obtain ⟨l1, j, l2, st, a1, a2, a3, a4, a5⟩ := Solve_first hI hB hlt he
  have halgo : w1.algo = e1 := by rw [hwe]
  rw [hr] at a3 a4 hp
  rw [halgo]
  refine ⟨l1, j, l2, st, a1, a2, by rw [a3]; exact ht1, ?_, ?_⟩
  · intro k hk s hs hst
    apply a4 k hk
    refine ⟨s, hs, ?_⟩
    rw [← ht1] at hst
    exact mul_gcd_cancel hX hY hst
  · rw [a5, hp]
    simp

/-! ## The claims C11 ... C20 -/

/-- C11: a fresh `WaterJugSolver(2, 3).Solve(1)` returns true (ten loop iterations
are enough, whatever `*path` held) with the path `(0,0), (0,3), (2,1), (0,1)`: four
positions, three moves, starting at `(0,0)`, the last of coordinate sum 1. -/
theorem C11_scenario_2_3_target_1 (fuel : Nat) (hf : 10 ≤ fuel) (path : Path) :
    ∃ w w1 p1, WaterJugSolver.construct 2 3 = some w ∧
      w.Solve fuel 1 path = some (w1, true, p1) ∧
      p1 = [(0, 0), (0, 3), (2, 1), (0, 1)] ∧ p1.length = 4 ∧ p1.head? = some (0, 0) ∧
      ∃ a b, p1.getLast? = some (a, b) ∧ a + b = 1 := by
  have h10 : (freshSolver 2 3 (by decide)).Solve 10 1 [] =
      some (afterCall (freshSolver 2 3 (by decide)) 10 1 [] (by decide), true,
        [(0, 0), (0, 3), (2, 1), (0, 1)]) := by decide
  have h1 := Solver_mono h10 hf
  have h2 := (Solver_path_frame h1 path).2
  simp only [if_true] at h2
  exact ⟨_, _, _, freshSolver_eq 2 3 (by decide), h2, rfl, rfl, rfl, 0, 1, rfl, rfl⟩

theorem C11_witness :
    ∃ w w1 p1, WaterJugSolver.construct 2 3 = some w ∧
      w.Solve 10 1 [] = some (w1, true, p1) ∧
      p1 = [(0, 0), (0, 3), (2, 1), (0, 1)] ∧ p1.length = 4 ∧ p1.head? = some (0, 0) ∧
      ∃ a b, p1.getLast? = some (a, b) ∧ a + b = 1 :=
  C11_scenario_2_3_target_1 10 (by decide) []

/-- Instances of C13, evaluated on the engine for capacities `(2, 4)`: the negative
target `-1`, the target 7 above `X + Y` and the target 3 that no reachable position
sums to are answered with false after the whole lattice reachable by engine moves has
been expanded, and the target 6 with true. -/
theorem C13_example_2_4 :
    ∃ e e1 e2 e3 e4 p, WaterJugSolverCoprime.construct 2 4 = some e ∧
      e.Solve 12 (-1) [] = some (e1, false, []) ∧ e1.queue_start_ = e1.queue_.length ∧
      e1.Solve 0 7 [] = some (e2, false, []) ∧
      e2.Solve 0 3 [] = some (e3, false, []) ∧
      e3.Solve 0 6 [] = some (e4, true, p) ∧ p.getLast? = some (2, 4) :=
  ⟨_, _, _, _, _, _, rfl, rfl, rfl, rfl, rfl, rfl, rfl⟩

/-- C15: for engine capacities `1 ≤ X ≤ Y` and every canonical position other than
`(0,0)` and `(X,Y)`, `OtherEnd` returns a canonical position with the same coordinate
sum, different from the position itself, equal to the result of pouring jug 1 into
jug 2 or jug 2 into jug 1 (moving the minimum of the source volume and the free
room), and each of the two pours gives either that position or changes nothing. -/
theorem C15_OtherEnd_is_the_transfer (X Y : Int) (hX : 1 ≤ X) (hXY : X ≤ Y) (st : State)
    (hc : Canon X Y st.pos) (h0 : st.pos ≠ (0, 0)) (h1 : st.pos ≠ (X, Y)) :
    Canon X Y (OtherEnd X Y st) ∧
    (OtherEnd X Y st).1 + (OtherEnd X Y st).2 = st.pos.1 + st.pos.2 ∧
    OtherEnd X Y st ≠ st.pos ∧
    (OtherEnd X Y st = pour12 Y st.pos ∨ OtherEnd X Y st = pour21 X st.pos) ∧
    (pour12 Y st.pos = OtherEnd X Y st ∨ pour12 Y st.pos = st.pos) ∧
    (pour21 X st.pos = OtherEnd X Y st ∨ pour21 X st.pos = st.pos) := by
  obtain ⟨⟨x, y⟩, pv, d⟩ := st
  exact OtherEnd_pour hX hXY x y hc (by simpa using h0) (by simpa using h1) pv d

theorem C15_witness :
    Canon 3 5 (OtherEnd 3 5 ⟨(3, 4), (0, 4), 3⟩) ∧
    (OtherEnd 3 5 ⟨(3, 4), (0, 4), 3⟩).1 + (OtherEnd 3 5 ⟨(3, 4), (0, 4), 3⟩).2 = 3 + 4 ∧
    OtherEnd 3 5 ⟨(3, 4), (0, 4), 3⟩ ≠ (3, 4) ∧
    (OtherEnd 3 5 ⟨(3, 4), (0, 4), 3⟩ = pour12 5 (3, 4) ∨
      OtherEnd 3 5 ⟨(3, 4), (0, 4), 3⟩ = pour21 3 (3, 4)) ∧
    (pour12 5 (3, 4) = OtherEnd 3 5 ⟨(3, 4), (0, 4), 3⟩ ∨ pour12 5 (3, 4) = (3, 4)) ∧
    (pour21 3 (3, 4) = OtherEnd 3 5 ⟨(3, 4), (0, 4), 3⟩ ∨ pour21 3 (3, 4) = (3, 4)) :=
  C15_OtherEnd_is_the_transfer 3 5 (by decide) (by decide) ⟨(3, 4), (0, 4), 3⟩
    (by unfold Canon; decide) (by decide) (by decide)

/-- C16: in any engine state, after a call of `Solve` the old frontier is an initial
segment of the new one, the cursor has not decreased, and every slot that was visited
before the call (depth `≠ -1`) holds the same position, predecessor and depth after it;
in a reachable engine state, every slot the call discovers gets the depth of its
discoverer (the slot of its stored predecessor position) plus one. -/
theorem C16_cache_only_grows (e : WaterJugSolverCoprime) (fuel : Nat) (t : Int)
    (path : Path) (e1 : WaterJugSolverCoprime) (b : Bool) (p1 : Path)
    (h : e.Solve fuel t path = some (e1, b, p1)) :
    (∃ added, e1.queue_ = e.queue_ ++ added) ∧ e.queue_start_ ≤ e1.queue_start_ ∧
    (∀ k st, stateAt e.states_ k = some st → st.depth ≠ -1 →
      stateAt e1.states_ k = some st) ∧
    (∀ X Y, 1 ≤ X → 1 ≤ Y → EngineReachable X Y e →
      ∀ k st1, stateAt e1.states_ k = some st1 → st1.depth ≠ -1 →
        (∀ st, stateAt e.states_ k = some st → st.depth = -1) →
        ∃ src, stateAt e1.states_ (StateIndex e1.X_ e1.Y_ st1.prev) = some src ∧
          src.pos = st1.prev ∧ src.depth ≠ -1 ∧ st1.depth = src.depth + 1) := by
  obtain ⟨⟨_, _, g3, g4, g5⟩, _⟩ := Solve_grows h
  refine ⟨g4, g3, g5, ?_⟩
  intro X Y hX hY he k st1 hk hv hnew
  obtain ⟨hI, hB, _, _⟩ := he.invariants hX hY
  obtain ⟨hI1, _⟩ := Solve_some_spec hI hB h
  obtain ⟨_, hd0, _, _⟩ := hI1.slot_of_visited hk hv
  have hpos : 0 < st1.depth := by
    by_contra hle
    have hz : st1.depth = 0 := by omega
    have hk0 := hI1.hzero k st1 hk hz
    subst hk0
    obtain ⟨s0, hs0, hs1, _⟩ := hI.hq 0 (List.mem_of_mem_head? hI.hhead)
    have := hnew s0 hs0
    omega
  obtain ⟨src, a1, a2, a3, _⟩ := hI1.hprev k st1 hk hpos
  exact ⟨src, a1, a2, by omega, by omega⟩

theorem C16_witness :
    ∃ e e1 b p1, WaterJugSolverCoprime.construct 3 5 = some e ∧
      e.Solve 16 4 [] = some (e1, b, p1) ∧
      ((∃ added, e1.queue_ = e.queue_ ++ added) ∧ e.queue_start_ ≤ e1.queue_start_ ∧
      (∀ k st, stateAt e.states_ k = some st → st.depth ≠ -1 →
        stateAt e1.states_ k = some st) ∧
      (∀ X Y, 1 ≤ X → 1 ≤ Y → EngineReachable X Y e →
        ∀ k st1, stateAt e1.states_ k = some st1 → st1.depth ≠ -1 →
          (∀ st, stateAt e.states_ k = some st → st.depth = -1) →
          ∃ src, stateAt e1.states_ (StateIndex e1.X_ e1.Y_ st1.prev) = some src ∧
            src.pos = st1.prev ∧ src.depth ≠ -1 ∧ st1.depth = src.depth + 1)) :=
  ⟨_, _, _, _, rfl, rfl, C16_cache_only_grows _ 16 4 [] _ _ _ rfl⟩

/-- C17: in every reachable engine state, if some frontier entry (expanded or not) holds
a position of coordinate sum `t`, then for the first such entry in discovery order the
engine's `Solve(t)` returns true, whatever the iteration budget and the content of
`*path`, with one and the same path, which ends at that entry's position, and the
engine after the call (cursor, frontier and state table) is the engine before it. -/
theorem C17_cached_answer_without_search (X Y : Int) (hX : 1 ≤ X) (hY : 1 ≤ Y)
    (e : WaterJugSolverCoprime) (he : EngineReachable X Y e) (t : Int)
    (hm : ∃ j ∈ e.queue_, Matches e.states_ t j) :
    ∃ (i : Nat) (j : Int) (st : State) (p1 : Path), e.queue_[i]? = some j ∧ stateAt e.states_ j = some st ∧
      total st.pos = t ∧
      (∀ (i1 : Nat) (j1 : Int), i1 < i → e.queue_[i1]? = some j1 → ¬ Matches e.states_ t j1) ∧
      p1.getLast? = some st.pos ∧ (p1.length : Int) = st.depth + 1 ∧
      ∀ (fuel : Nat) (path : Path), e.Solve fuel t path = some (e, true, p1) := by
  obtain ⟨hI, _, _, _⟩ := he.invariants hX hY
  obtain ⟨l1, j, l2, hq, ⟨st, hst, ht⟩, hno⟩ := exists_first_match e.states_ t e.queue_ hm
  obtain ⟨p1, _, htr, hlast, hlen⟩ := Solve_cached hI hq hst ht hno 0 []
  refine ⟨l1.length, j, st, p1, ?_, hst, ht, ?_, hlast, hlen, ?_⟩
  · rw [hq, List.getElem?_append_right (le_refl _), Nat.sub_self]
    exact List.getElem?_cons_zero
  · intro i1 j1 hi hj1
    rw [hq, List.getElem?_append_left hi] at hj1
    exact hno j1 (List.getElem?_mem hj1)
  · intro fuel path
    obtain ⟨p2, hs, htr2, _⟩ := Solve_cached hI hq hst ht hno fuel path
    rw [htr] at htr2
    injection htr2 with htr2
    rw [htr2]
    exact hs

theorem C17_witness :
    ∃ e, WaterJugSolverCoprime.construct 3 5 = some e ∧
      ∃ (i : Nat) (j : Int) (st : State) (p1 : Path), e.queue_[i]? = some j ∧ stateAt e.states_ j = some st ∧
        total st.pos = 0 ∧
        (∀ (i1 : Nat) (j1 : Int), i1 < i → e.queue_[i1]? = some j1 → ¬ Matches e.states_ 0 j1) ∧
        p1.getLast? = some st.pos ∧ (p1.length : Int) = st.depth + 1 ∧
        ∀ (fuel : Nat) (path : Path), e.Solve fuel 0 path = some (e, true, p1) :=
  ⟨_, rfl,
    C17_cached_answer_without_search 3 5 (by decide) (by decide) _
      (EngineReachable.fresh rfl) 0 ⟨0, by decide, ⟨_, rfl, rfl⟩⟩⟩

/-- C18: `gcd(a, b)` returns 1 whenever `a ≤ 0` or `b ≤ 0`; for `a, b > 0` the loop
stops by its own condition after at most `b + 1` tests and returns the greatest
common divisor of `a` and `b`; the result is never zero, it divides both arguments
exactly, and it divides exactly every target that passes the divisibility guard of
`WaterJugSolver::Solve`. -/
theorem C18_gcd_value (a b : Int) :
    (a ≤ 0 ∨ b ≤ 0 → gcd a b = 1) ∧
    (0 < a → 0 < b →
      gcd a b = (Int.gcd a b : Int) ∧
      (∀ fuel, b.toNat < fuel → gcdLoop fuel a b = (Int.gcd a b : Int)) ∧
      gcd a b ∣ a ∧ gcd a b ∣ b ∧ ∀ c : Int, c ∣ a → c ∣ b → c ∣ gcd a b) ∧
    1 ≤ gcd a b ∧
    (0 < a → 0 < b → a.tdiv (gcd a b) * gcd a b = a ∧ b.tdiv (gcd a b) * gcd a b = b) ∧
    (a ≤ 0 ∨ b ≤ 0 → a.tdiv (gcd a b) = a ∧ b.tdiv (gcd a b) = b) ∧
    (∀ t : Int, ¬ (gcd a b > 1 ∧ t.tmod (gcd a b) ≠ 0) →
      t.tdiv (gcd a b) * gcd a b = t) := by
  have hone : a ≤ 0 ∨ b ≤ 0 → gcd a b = 1 := by
    intro h
    unfold gcd
    rw [if_pos h]
  refine ⟨hone, ?_, gcd_pos a b, ?_, ?_, ?_⟩
  · intro ha hb
    have hg := gcd_eq_of_pos a b ha hb
    refine ⟨hg, ?_, ?_, ?_, ?_⟩
    · intro fuel hf
      rw [gcdLoop_stable fuel a b (le_of_lt ha) (le_of_lt hb) hf, ← hg]
      unfold gcd
      rw [if_neg (by omega)]
    · rw [hg]; exact Int.gcd_dvd_left
    · rw [hg]; exact Int.gcd_dvd_right
    · intro c h1 h2
      rw [hg]
      exact Int.dvd_gcd h1 h2
  · intro ha hb
    obtain ⟨_, _, h3, h4, _⟩ := gcd_facts ha hb
    exact ⟨h3, h4⟩
  · intro h
    rw [hone h]
    exact ⟨Int.tdiv_one a, Int.tdiv_one b⟩
  · intro t ht
    have hp := gcd_pos a b
    by_cases h1 : gcd a b > 1
    · have : t.tmod (gcd a b) = 0 := by
        by_contra hne
        exact ht ⟨h1, hne⟩
      exact Int.tdiv_mul_cancel_of_tmod_eq_zero this
    · have : gcd a b = 1 := by omega
      rw [this, Int.tdiv_one, mul_one]

/-- C19: for `X, Y > 0`, `WaterJugSolver(X, Y)` and `WaterJugSolver(Y, X)` are the same
solver state after construction, so the same states are reachable from both and every
call returns the same flag and the same path in both; run over any list of targets as
`main` does, the two give the same list of flags and paths (a list with one entry per
target when the table of the reduced engine fits `int`, so that the constructor
succeeds, and the iteration budget is at least `2 (X + Y)`); and every position
`(a, b)` of a returned path satisfies `0 ≤ a ≤ min(X, Y)` and `0 ≤ b ≤ max(X, Y)`. -/
theorem C19_capacity_order_irrelevant (X Y : Int) (hX : 0 < X) (hY : 0 < Y) :
    WaterJugSolver.construct X Y = WaterJugSolver.construct Y X ∧
    (∀ w, Reachable X Y w ↔ Reachable Y X w) ∧
    (∀ (fuel : Nat) (path : Path) (targets : List Int), 2 * (X + Y) ≤ fuel →
      2 * (X / (Int.gcd X Y : Int) + Y / (Int.gcd X Y : Int)) ≤ INT_MAX →
      ∃ w0 res, WaterJugSolver.construct X Y = some w0 ∧
        WaterJugSolver.construct Y X = some w0 ∧
        mainLoop fuel w0 path targets = some res ∧ res.length = targets.length) ∧
    (∀ (fuel : Nat) (path : Path) (targets : List Int),
      (WaterJugSolver.construct X Y).bind (fun w => mainLoop fuel w path targets) =
      (WaterJugSolver.construct Y X).bind (fun w => mainLoop fuel w path targets)) ∧
    (∀ w, Reachable X Y w → ∀ (fuel : Nat) (t : Int) (path : Path) (w1 : WaterJugSolver)
      (p1 : Path), w.Solve fuel t path = some (w1, true, p1) →
      ∀ p ∈ p1, 0 ≤ p.1 ∧ p.1 ≤ min X Y ∧ 0 ≤ p.2 ∧ p.2 ≤ max X Y) := by
  have hc := Solver_construct_comm hX hY
  refine ⟨hc, ?_, ?_, ?_, ?_⟩
  · intro w
    exact ⟨fun h => h.commute hc, fun h => h.commute hc.symm⟩
  · intro fuel path targets hf hN
    obtain ⟨w0, h0⟩ := construct_some hX hY hN
    obtain ⟨res, hr, hl⟩ := mainLoop_total hX hY hf targets w0 path (Reachable.fresh h0)
    exact ⟨w0, res, h0, by rw [← hc]; exact h0, hr, hl⟩
  · intro fuel path targets
    rw [hc]
  · intro w hw fuel t path w1 p1 h
    exact ((Solver_some_spec hX hY hw h).2.2 rfl).bounds hX hY

theorem C19_witness :
    WaterJugSolver.construct 5 3 = WaterJugSolver.construct 3 5 ∧
    (∀ w, Reachable 5 3 w ↔ Reachable 3 5 w) ∧
    (∀ (fuel : Nat) (path : Path) (targets : List Int), (2 * (5 + 3) : Int) ≤ fuel →
      2 * ((5 : Int) / (Int.gcd 5 3 : Int) + 3 / (Int.gcd 5 3 : Int)) ≤ INT_MAX →
      ∃ w0 res, WaterJugSolver.construct 5 3 = some w0 ∧
        WaterJugSolver.construct 3 5 = some w0 ∧
        mainLoop fuel w0 path targets = some res ∧ res.length = targets.length) ∧
    (∀ (fuel : Nat) (path : Path) (targets : List Int),
      (WaterJugSolver.construct 5 3).bind (fun w => mainLoop fuel w path targets) =
      (WaterJugSolver.construct 3 5).bind (fun w => mainLoop fuel w path targets)) ∧
    (∀ w, Reachable 5 3 w → ∀ (fuel : Nat) (t : Int) (path : Path) (w1 : WaterJugSolver)
      (p1 : Path), w.Solve fuel t path = some (w1, true, p1) →
      ∀ p ∈ p1, 0 ≤ p.1 ∧ p.1 ≤ min (5 : Int) 3 ∧ 0 ≤ p.2 ∧ p.2 ≤ max (5 : Int) 3) :=
  C19_capacity_order_irrelevant 5 3 (by decide) (by decide)

/-- The example of C19: on a fresh solver, `WaterJugSolver(5, 3).Solve(5)` and
`WaterJugSolver(3, 5).Solve(5)` both return `(0,0), (0,5)`, and run over the targets
4 and 1 as `main` does they print the same paths. -/
theorem C19_example_5_3 :
    (∃ w w1, WaterJugSolver.construct 5 3 = some w ∧
      w.Solve 16 5 [] = some (w1, true, [(0, 0), (0, 5)])) ∧
    (∃ w w1, WaterJugSolver.construct 3 5 = some w ∧
      w.Solve 16 5 [] = some (w1, true, [(0, 0), (0, 5)])) ∧
    (WaterJugSolver.construct 5 3).bind (fun w => mainLoop 16 w [] [4, 1]) =
      some [(true, [(0, 0), (3, 0), (0, 3), (3, 3), (1, 5), (1, 0), (0, 1), (3, 1)]),
        (true, [(0, 0), (3, 0), (0, 3), (3, 3), (1, 5), (1, 0)])] ∧
    (WaterJugSolver.construct 3 5).bind (fun w => mainLoop 16 w [] [4, 1]) =
      some [(true, [(0, 0), (3, 0), (0, 3), (3, 3), (1, 5), (1, 0), (0, 1), (3, 1)]),
        (true, [(0, 0), (3, 0), (0, 3), (3, 3), (1, 5), (1, 0)])] :=
  ⟨⟨_, _, rfl, rfl⟩, ⟨_, _, rfl, rfl⟩, by decide, by decide⟩

/-- C20: for `X, Y > 0` with `X ≠ Y` and every reachable solver state, once `Solve(t)`
has returned, every further `Solve(t)` returns (whatever the iteration budget and the
content of `*path`) the same flag and, on success, exactly the same path, and leaves
the solver as it is; `Solve(t)` in any other reachable state of the solver returns that
flag and that path too, so the answer depends on the target alone. The reason: a
successful call returns the rescaled chain of predecessors of the first frontier
entry whose rescaled total is `t`, and the positions one expansion hands to `Explore`
have pairwise different totals. -/
theorem C20_answer_depends_on_target_alone (X Y : Int) (hX : 0 < X) (hY : 0 < Y)
    (hne : X ≠ Y) (w : WaterJugSolver) (hw : Reachable X Y w) (t : Int) (fuel : Nat)
    (path : Path) (w1 : WaterJugSolver) (b : Bool) (p1 : Path)
    (h : w.Solve fuel t path = some (w1, b, p1)) :
    (∀ (fuel2 : Nat) (path2 : Path),
      w1.Solve fuel2 t path2 = some (w1, b, if b = true then p1 else path2)) ∧
    (∀ (wa : WaterJugSolver), Reachable X Y wa →
      ∀ (fuela : Nat) (patha : Path) (wa1 : WaterJugSolver) (ba : Bool) (pa1 : Path),
      wa.Solve fuela t patha = some (wa1, ba, pa1) → ba = b ∧ (b = true → pa1 = p1)) ∧
    (b = true → ∃ l1 j l2 st, w1.algo.queue_ = l1 ++ j :: l2 ∧
      stateAt w1.algo.states_ j = some st ∧ total st.pos * gcd X Y = t ∧
      (∀ k ∈ l1, ∀ s, stateAt w1.algo.states_ k = some s → total s.pos * gcd X Y ≠ t) ∧
      (trail w1.algo st.depth.toNat st.pos).map (rescale (gcd X Y)) = some p1) ∧
    (∀ p q1 q2, Canon (engX X Y) (engY X Y) p → q1 ∈ successors (engX X Y) (engY X Y) p →
      q2 ∈ successors (engX X Y) (engY X Y) p → total q1 = total q2 → q1 = q2) := by
  refine ⟨?_, ?_, ?_, ?_⟩
  · intro fuel2 path2
    exact Solver_repeat hX hY hne hw h fuel2 path2
  · intro wa hwa fuela patha wa1 ba pa1 ha
    exact Solver_answer_unique hX hY hne hw hwa h ha
  · intro hb
    subst hb
    exact Solver_first hX hY hne hw h
  · intro p q1 q2 hp h1 h2 ht
    exact successors_total_inj (engXY_facts hX hY).1 (engX_lt_engY hX hY hne) hp h1 h2 ht

theorem C20_witness :
    ∃ w w1 b p1, WaterJugSolver.construct 3 5 = some w ∧
      w.Solve 16 4 [] = some (w1, b, p1) ∧
      ((∀ (fuel2 : Nat) (path2 : Path),
        w1.Solve fuel2 4 path2 = some (w1, b, if b = true then p1 else path2)) ∧
      (∀ (wa : WaterJugSolver), Reachable 3 5 wa →
        ∀ (fuela : Nat) (patha : Path) (wa1 : WaterJugSolver) (ba : Bool) (pa1 : Path),
        wa.Solve fuela 4 patha = some (wa1, ba, pa1) → ba = b ∧ (b = true → pa1 = p1)) ∧
      (b = true → ∃ l1 j l2 st, w1.algo.queue_ = l1 ++ j :: l2 ∧
        stateAt w1.algo.states_ j = some st ∧ total st.pos * gcd 3 5 = 4 ∧
        (∀ k ∈ l1, ∀ s, stateAt w1.algo.states_ k = some s → total s.pos * gcd 3 5 ≠ 4) ∧
        (trail w1.algo st.depth.toNat st.pos).map (rescale (gcd 3 5)) = some p1) ∧
      (∀ p q1 q2, Canon (engX 3 5) (engY 3 5) p → q1 ∈ successors (engX 3 5) (engY 3 5) p →
        q2 ∈ successors (engX 3 5) (engY 3 5) p → total q1 = total q2 → q1 = q2)) :=
  ⟨_, _, _, _, rfl, rfl,
    C20_answer_depends_on_target_alone 3 5 (by decide) (by decide) (by decide) _
      (Reachable.fresh rfl) 4 16 [] _ _ _ rfl⟩

/-- The case `X = Y` that C20 excludes: on a fresh `WaterJugSolver(1, 1)` the first
`Solve(1)` returns `(0,0), (0,1)` and the second returns `(0,0), (1,0)`. -/
theorem C20_example_1_1 :
    ∃ w w1 w2, WaterJugSolver.construct 1 1 = some w ∧
      w.Solve 4 1 [] = some (w1, true, [(0, 0), (0, 1)]) ∧
      w1.Solve 4 1 [] = some (w2, true, [(0, 0), (1, 0)]) :=
  ⟨_, _, _, rfl, rfl, rfl⟩

end WaterJug
